import Mathlib

/-!
Verification development for the `jstextstylization` text-styling engine
(`src/textstylization.js`).

The DOM subtree the engine mutates is modelled as an inductive tree of
text leaves and container elements.  Every node carries a numeric node
identity (`nid`); DOM node references are modelled as these identities,
which are stable across mutations exactly as object references are in
JavaScript.  New nodes created by the engine receive identities from an
explicit `fresh` counter threaded through the operations
(`document.createElement` / `document.createTextNode`).

All operations are direct ports of the methods of the `TextStylization`
class:
* `findNodeAndOffsetGroups` ports `_findNodeAndOffsetGroups` (the offset
  resolver and range grouper built on a `TreeWalker(SHOW_TEXT)` pass);
* `applyToNode` ports `_applyToNode`, `applyToWholeNode` ports
  `_applyToWholeNode` (the span mutator);
* `applyToRanges` ports `applyToRanges`;
* `clear` / `clearElement` port the style remover.

Modelling notes, kept faithful to the source:
* a text node's `nodeValue` is its payload; an element's `nodeValue` is
  `null`, modelled by `valueLen = 0` where the code uses
  `(nodeValue === null) ? 0 : nodeValue.length`;
* `String.prototype.substring` clamps its two indices to the string
  length and swaps them when start exceeds end (`jsSubstring`);
* `workerPosEnd = workerPosStart + len - 1` with *inclusive* comparisons
  is expressed with the subtraction-free equivalents
  `wps ≤ p ∧ p < wps + len` and `wps + len ≤ p`, which agree with the
  JavaScript integer comparisons for every `len`, including `len = 0`;
* `element.className === this.className` (a full class-attribute string
  comparison) is modelled as the class list being exactly `[cls]`, and
  `querySelectorAll('span.' + className)` as the document-order list of
  descendant elements whose class list contains `cls` (per the module
  contract the root's sub-elements are all `span`s, and the root itself
  is never a descendant of itself).
-/

namespace TextStylization

/-- A DOM-like node: a text leaf (node identity and character payload) or an
element (node identity, class list, ordered children). -/
inductive DNode where
  | text (nid : Nat) (value : List Char)
  | elem (nid : Nat) (classes : List String) (children : List DNode)

/-- The node identity (models the JavaScript object reference). -/
def DNode.nid : DNode → Nat
  | .text i _ => i
  | .elem i _ _ => i

/-- `nodeValue.length` with `null` counted as 0, as in
`(nodeValue === null) ? 0 : nodeValue.length`. -/
def DNode.valueLen : DNode → Nat
  | .text _ s => s.length
  | .elem _ _ _ => 0

/-- `classList.add`: appends the class unless it is already present. -/
def classListAdd (cls : String) (l : List String) : List String :=
  if cls ∈ l then l else l ++ [cls]

/-- `classList.remove`: removes the class token. -/
def classListRemove (cls : String) (l : List String) : List String :=
  l.filter (fun c => c ≠ cls)

/-- JavaScript `String.prototype.substring` on character lists: both indices
are clamped to the length and swapped when the first exceeds the second. -/
def jsSubstring (v : List Char) (a b : Nat) : List Char :=
  (v.take (max (min a v.length) (min b v.length))).drop
    (min (min a v.length) (min b v.length))

mutual
/-- Document-order sequence of the text leaves of a subtree, as
(identity, payload) pairs. -/
def walkTexts : DNode → List (Nat × List Char)
  | .text i s => [(i, s)]
  | .elem _ _ cs => walkTextsList cs
/-- `walkTexts` over a forest. -/
def walkTextsList : List DNode → List (Nat × List Char)
  | [] => []
  | c :: cs => walkTexts c ++ walkTextsList cs
end

/-- The text leaves visited by `createTreeWalker(root, SHOW_TEXT)`: all text
descendants of the root in document order (the root itself is not visited). -/
def rootTexts : DNode → List (Nat × List Char)
  | .text _ _ => []
  | .elem _ _ cs => walkTextsList cs

mutual
/-- Concatenation of all text-leaf payloads of a subtree in document order. -/
def leafConcat : DNode → List Char
  | .text _ s => s
  | .elem _ _ cs => leafConcatList cs
/-- `leafConcat` over a forest. -/
def leafConcatList : List DNode → List Char
  | [] => []
  | c :: cs => leafConcat c ++ leafConcatList cs
end

mutual
/-- Dereference a node identity: first depth-first match. -/
def getById : DNode → Nat → Option DNode
  | .text i s, j => if i = j then some (.text i s) else none
  | .elem i k cs, j => if i = j then some (.elem i k cs) else getByIdList cs j
/-- `getById` over a forest. -/
def getByIdList : List DNode → Nat → Option DNode
  | [], _ => none
  | c :: cs, j =>
    match getById c j with
    | some n => some n
    | none => getByIdList cs j
end

mutual
/-- All node identities of a subtree, in document (pre-)order. -/
def idsOf : DNode → List Nat
  | .text i _ => [i]
  | .elem i _ cs => i :: idsOfList cs
/-- `idsOf` over a forest. -/
def idsOfList : List DNode → List Nat
  | [] => []
  | c :: cs => idsOf c ++ idsOfList cs
end

mutual
/-- Document-order identities of the elements of a subtree (the subtree's own
root element included) whose class list contains `cls`. -/
def styledOf (cls : String) : DNode → List Nat
  | .text _ _ => []
  | .elem i k cs => (if cls ∈ k then [i] else []) ++ styledOfList cls cs
/-- `styledOf` over a forest. -/
def styledOfList (cls : String) : List DNode → List Nat
  | [] => []
  | c :: cs => styledOf cls c ++ styledOfList cls cs
end

/-- `rootElement.querySelectorAll('span.' + cls)`: matching descendant
elements of the root, in document order; the root itself is excluded. -/
def styledUnderRoot (cls : String) : DNode → List Nat
  | .text _ _ => []
  | .elem _ _ cs => styledOfList cls cs

/-! ## Span mutator: `_applyToWholeNode` and `_applyToNode` -/

/-- Wrap the first child with identity `j` in a fresh container carrying
`cls` (the `insertBefore` + `appendChild` pair of `_applyToWholeNode`). -/
def wrapChild (cls : String) (fresh j : Nat) : List DNode → List DNode
  | [] => []
  | c :: cs =>
    if DNode.nid c = j then .elem fresh [cls] [c] :: cs
    else c :: wrapChild cls fresh j cs

/-- The whole-node rule of `_applyToWholeNode`, applied at the parent
element `elem i k cs` of the target: if the parent has exactly one child,
tag the parent itself; otherwise wrap the target in a fresh container.
Returns (new parent, next fresh identity, affected node). -/
def wholeAtSite (cls : String) (fresh j i : Nat) (k : List String)
    (cs : List DNode) : DNode × Nat × Nat :=
  if cs.length = 1 then (.elem i (classListAdd cls k) cs, fresh, i)
  else (.elem i k (wrapChild cls fresh j cs), fresh + 1, fresh)

mutual
/-- Locate the parent of the node with identity `j` (first depth-first
occurrence) and apply the whole-node rule there. -/
def wholeGo (cls : String) (fresh j : Nat) : DNode → DNode × Option (Nat × Nat)
  | .text i s => (.text i s, none)
  | .elem i k cs =>
    if cs.any (fun c => DNode.nid c = j) then
      let r := wholeAtSite cls fresh j i k cs
      (r.1, some r.2)
    else
      let p := wholeGoList cls fresh j cs
      (.elem i k p.1, p.2)
/-- `wholeGo` over a forest. -/
def wholeGoList (cls : String) (fresh j : Nat) :
    List DNode → List DNode × Option (Nat × Nat)
  | [] => ([], none)
  | c :: cs =>
    match wholeGo cls fresh j c with
    | (c', some x) => (c' :: cs, some x)
    | (c', none) =>
      let p := wholeGoList cls fresh j cs
      (c' :: p.1, p.2)
end

/-- Port of `_applyToWholeNode(node)`; `j` is the node reference. Returns
(tree, next fresh identity, the affected node, if the node had a parent). -/
def applyToWholeNode (cls : String) (t : DNode) (fresh j : Nat) :
    DNode × Nat × Option Nat :=
  match wholeGo cls fresh j t with
  | (t', some (f, a)) => (t', f, some a)
  | (_, none) => (t, fresh, none)

/-- The splitting surgery of `_applyToNode` on the parent's child list: the
first child with identity `j` (a text leaf) is split per the
`startOffset === 0` / `startOffset > 0` branches of the source. -/
def splitChildren (cls : String) (fresh j s e : Nat) : List DNode → List DNode
  | [] => []
  | c :: cs =>
    if DNode.nid c = j then
      match c with
      | .text i v =>
        if s = 0 then
          .elem fresh [cls] [.text (fresh + 1) (jsSubstring v 0 e)]
            :: .text i (jsSubstring v e v.length) :: cs
        else
          .text i (jsSubstring v 0 s)
            :: .elem fresh [cls] [.text (fresh + 1) (jsSubstring v s e)]
            :: ((if e < v.length then
                  [DNode.text (fresh + 2) (jsSubstring v e v.length)]
                 else []) ++ cs)
      | x => x :: cs
    else c :: splitChildren cls fresh j s e cs

mutual
/-- Locate the parent of the text node with identity `j` and perform the
`_applyToNode` surgery there: delegate to the whole-node rule when the
span covers the whole payload, otherwise split.  Returns the rewritten
node and, when the site was found, the next fresh identity and the list
of affected nodes. -/
def applyGo (cls : String) (fresh j s e : Nat) :
    DNode → DNode × Option (Nat × List Nat)
  | .text i v => (.text i v, none)
  | .elem i k cs =>
    match cs.find? (fun c => DNode.nid c = j) with
    | some (.text _ w) =>
      if s = 0 ∧ e = w.length then
        let r := wholeAtSite cls fresh j i k cs
        (r.1, some (r.2.1, [r.2.2]))
      else
        (.elem i k (splitChildren cls fresh j s e cs),
         some ((if s = 0 then fresh + 2
                else if e < w.length then fresh + 3 else fresh + 2), [fresh]))
    | some _ => (.elem i k cs, some (fresh, []))
    | none =>
      let p := applyGoList cls fresh j s e cs
      (.elem i k p.1, p.2)
/-- `applyGo` over a forest. -/
def applyGoList (cls : String) (fresh j s e : Nat) :
    List DNode → List DNode × Option (Nat × List Nat)
  | [] => ([], none)
  | c :: cs =>
    match applyGo cls fresh j s e c with
    | (c', some x) => (c' :: cs, some x)
    | (c', none) =>
      let p := applyGoList cls fresh j s e cs
      (c' :: p.1, p.2)
end

/-- Port of `_applyToNode(node, startOffset, endOffset)`.  Equal offsets
perform no update at all; otherwise the surgery happens at the parent of
node `j`.  Returns (tree, next fresh identity, affected nodes). -/
def applyToNode (cls : String) (t : DNode) (fresh j s e : Nat) :
    DNode × Nat × List Nat :=
  if s = e then (t, fresh, [])
  else
    match applyGo cls fresh j s e t with
    | (t', some (f, a)) => (t', f, a)
    | (_, none) => (t, fresh, [])

/-! ## Offset resolver and range grouper: `_findNodeAndOffsetGroups` -/

/-- A (node reference, local offset) pair. -/
structure NAO where
  node : Nat
  offset : Nat
deriving DecidableEq, Repr

/-- Result of the inner `while` of `_findNodeAndOffsetGroups`: either the
method returned (all search positions consumed), or the walk continues
with the next leaf. -/
inductive InnerRes where
  | ret (groups : List (List NAO))
  | next (position : Nat) (positions : List Nat) (fEnd : Bool)
      (cur : List NAO) (done : List (List NAO))

/-- The inner `while (position >= workerPosStart && position <= workerPosEnd)`
loop: consume search positions that fall inside the current leaf, closing a
group (and opening a fresh empty one) each time an end position is found. -/
def innerLoop (nid wps len : Nat) (position : Nat) (positions : List Nat)
    (fEnd : Bool) (cur : List NAO) (done : List (List NAO)) : InnerRes :=
  if wps ≤ position ∧ position < wps + len then
    let cur' := cur ++ [⟨nid, position - wps⟩]
    if fEnd then
      match positions with
      | [] => .ret (done ++ [cur', []])
      | p :: ps => innerLoop nid wps len p ps false [] (done ++ [cur'])
    else
      match positions with
      | [] => .ret (done ++ [cur'])
      | p :: ps => innerLoop nid wps len p ps true cur' done
  else .next position positions fEnd cur done

/-- The leaf-walk loop of `_findNodeAndOffsetGroups`.  When the leaf
sequence is exhausted with positions still pending, a single
(last visited node, payload length) pair is appended to the current group
and the remaining positions are ignored. -/
def resolveLeaves : List (Nat × List Char) → Nat → Nat → List Nat → Bool →
    List NAO → List (List NAO) → Nat × Nat → List (List NAO)
  | [], _, _, _, _, cur, done, last => done ++ [cur ++ [⟨last.1, last.2⟩]]
  | (nid, v) :: rest, wps, position, positions, fEnd, cur, done, _ =>
    let len := v.length
    let cur1 := if fEnd ∧ wps + len ≤ position then cur ++ [⟨nid, 0⟩] else cur
    match innerLoop nid wps len position positions fEnd cur1 done with
    | .ret groups => groups
    | .next position' positions' fEnd' cur' done' =>
      resolveLeaves rest (wps + len) position' positions' fEnd' cur' done'
        (nid, len)

/-- `[r1.start, r1.end, r2.start, r2.end, …]`. -/
def flattenRanges : List (Nat × Nat) → List Nat
  | [] => []
  | r :: rs => r.1 :: r.2 :: flattenRanges rs

/-- Port of `_findNodeAndOffsetGroups(textSelections)`. -/
def findNodeAndOffsetGroups (t : DNode) (rs : List (Nat × Nat)) :
    List (List NAO) :=
  match flattenRanges rs with
  | [] => []
  | p :: ps =>
    resolveLeaves (rootTexts t) 0 p ps false [] [] (DNode.nid t, DNode.valueLen t)

/-! ## `applyToRanges` -/

/-- `nodeAndOffsets[idx].node.nodeValue === '\n'`: the node reference
dereferences to a text leaf whose whole payload is the line break. -/
def isNewlineAt (t : DNode) (j : Nat) : Bool :=
  match getById t j with
  | some (.text _ v) => v = ['\n']
  | _ => false

/-- The middle-nodes loop of `applyToRanges`: every strictly-interior node,
processed from last to first; a node whose payload is `"\n"` is skipped. -/
def processMiddles (cls : String) (t : DNode) (fresh : Nat) :
    List NAO → DNode × Nat × List Nat
  | [] => (t, fresh, [])
  | m :: ms =>
    if isNewlineAt t m.node then processMiddles cls t fresh ms
    else
      let r := applyToWholeNode cls t fresh m.node
      let r2 := processMiddles cls r.1 r.2.1 ms
      (r2.1, r2.2.1, r.2.2.toList ++ r2.2.2)

/-- The multi-node branch of `applyToRanges`: tail node first (skipped at
local offset 0), then the interior nodes last-to-first, then the head node
from its offset to its current payload end. -/
def processMulti (cls : String) (t : DNode) (fresh : Nat) (g : List NAO) :
    DNode × Nat × List Nat :=
  match g.getLast? with
  | none => (t, fresh, [])
  | some tl =>
    let r1 := if 0 < tl.offset then applyToNode cls t fresh tl.node 0 tl.offset
              else (t, fresh, [])
    let r2 := processMiddles cls r1.1 r1.2.1 ((g.drop 1).dropLast.reverse)
    let r3 :=
      match g.head? with
      | some hd =>
        match getById r2.1 hd.node with
        | some (.text _ v) => applyToNode cls r2.1 r2.2.1 hd.node hd.offset v.length
        | _ => (r2.1, r2.2.1, [])
      | none => (r2.1, r2.2.1, [])
    (r3.1, r3.2.1, r1.2.2 ++ r2.2.2 ++ r3.2.2)

/-- One iteration of the group loop of `applyToRanges`, before the final
`affectedNodes.reverse()`. -/
def processGroupRaw (cls : String) (t : DNode) (fresh : Nat) (g : List NAO) :
    DNode × Nat × List Nat :=
  match g with
  | [a, b] =>
    if a.node = b.node then applyToNode cls t fresh a.node a.offset b.offset
    else processMulti cls t fresh [a, b]
  | _ :: _ :: _ => processMulti cls t fresh g
  | _ => (t, fresh, [])

/-- One iteration of the group loop of `applyToRanges`, affected nodes
reversed into document order. -/
def processGroup (cls : String) (t : DNode) (fresh : Nat) (g : List NAO) :
    DNode × Nat × List Nat :=
  let r := processGroupRaw cls t fresh g
  (r.1, r.2.1, r.2.2.reverse)

/-- The group loop of `applyToRanges`: groups are processed from the last
one to the first, and the per-group results are collected so that the
caller sees them in input order. -/
def applyGroups (cls : String) (t : DNode) (fresh : Nat) :
    List (List NAO) → DNode × Nat × List (List Nat)
  | [] => (t, fresh, [])
  | g :: gs =>
    let r := applyGroups cls t fresh gs
    let r2 := processGroup cls r.1 r.2.1 g
    (r2.1, r2.2.1, r2.2.2 :: r.2.2)

/-- Port of `applyToRanges(textSelections)`. -/
def applyToRanges (cls : String) (t : DNode) (fresh : Nat)
    (rs : List (Nat × Nat)) : DNode × Nat × List (List Nat) :=
  match rs with
  | [] => (t, fresh, [])
  | _ => applyGroups cls t fresh (findNodeAndOffsetGroups t rs)

/-! ## Style remover: `clear` and `clearElement` -/

/-- Split a child list at the first child with identity `j`. -/
def splitAtFirst (j : Nat) : List DNode → Option (List DNode × DNode × List DNode)
  | [] => none
  | c :: cs =>
    if DNode.nid c = j then some ([], c, cs)
    else
      match splitAtFirst j cs with
      | some (b, x, a) => some (c :: b, x, a)
      | none => none

/-- The unwrap-and-merge step of `clearElement`: the relocated text leaf is
merged with an immediately preceding text sibling and then with an
immediately following one. -/
def mergePrevNext (before : List DNode) (ti : Nat) (tv : List Char)
    (after : List DNode) : List DNode :=
  let p :=
    match before.getLast? with
    | some (.text _ pv) => (before.dropLast, pv ++ tv)
    | _ => (before, tv)
  let q :=
    match after.head? with
    | some (.text _ nv) => (p.2 ++ nv, after.drop 1)
    | _ => (p.2, after)
  p.1 ++ [DNode.text ti q.1] ++ q.2

/-- `clearElement` at the parent's child list: if the element carries `cls`
as its only class and has exactly one text child, replace it by that child
and merge with adjacent text siblings; otherwise only remove `cls` from
its class list. -/
def clearChildren (cls : String) (j : Nat) (cs : List DNode) : List DNode :=
  match splitAtFirst j cs with
  | none => cs
  | some (before, c, after) =>
    match c with
    | .elem i k [DNode.text ti tv] =>
      if k = [cls] then mergePrevNext before ti tv after
      else before ++ [DNode.elem i (classListRemove cls k) [DNode.text ti tv]] ++ after
    | .elem i k kids => before ++ [DNode.elem i (classListRemove cls k) kids] ++ after
    | x => before ++ [x] ++ after

mutual
/-- Locate the parent of element `j` and apply `clearChildren` there. -/
def clearGo (cls : String) (j : Nat) : DNode → DNode × Bool
  | .text i s => (.text i s, false)
  | .elem i k cs =>
    if cs.any (fun c => DNode.nid c = j) then (.elem i k (clearChildren cls j cs), true)
    else
      let p := clearGoList cls j cs
      (.elem i k p.1, p.2)
/-- `clearGo` over a forest. -/
def clearGoList (cls : String) (j : Nat) : List DNode → List DNode × Bool
  | [] => ([], false)
  | c :: cs =>
    match clearGo cls j c with
    | (c', true) => (c' :: cs, true)
    | (c', false) =>
      let p := clearGoList cls j cs
      (c' :: p.1, p.2)
end

/-- Port of `clearElement(element)`; `j` is the element reference. -/
def clearElement (cls : String) (t : DNode) (j : Nat) : DNode :=
  (clearGo cls j t).1

/-- The element loop of `clear`: elements are processed last-to-first. -/
def clearFold (cls : String) : DNode → List Nat → DNode
  | t, [] => t
  | t, j :: js => clearFold cls (clearElement cls t j) js

/-- Port of `clear()`: processes every matching container under the root and
returns the count of containers found. -/
def clear (cls : String) (t : DNode) : DNode × Nat :=
  (clearFold cls t (styledUnderRoot cls t).reverse, (styledUnderRoot cls t).length)

/-! ## Derived observables used by the specification statements -/

/-- Whether a node is a text leaf (`nodeType === Node.TEXT_NODE`). -/
def DNode.isText : DNode → Bool
  | .text _ _ => true
  | .elem _ _ _ => false

/-- Total payload length of a leaf sequence. -/
def sumLens (leaves : List (Nat × List Char)) : Nat :=
  (leaves.map (fun p => p.2.length)).sum

/-- The tree walker's `currentNode` after the whole walk: the last text leaf
under the root, or the root itself when there is none, together with its
`nodeValue` length. -/
def lastLeafInfo (t : DNode) : Nat × Nat :=
  match (rootTexts t).getLast? with
  | some (i, v) => (i, v.length)
  | none => (DNode.nid t, DNode.valueLen t)

/-- The walker's `currentNode` bookkeeping over a remaining leaf list: the
last leaf of the list, or the carried-in last visited node when the list is
empty. -/
def lastOfWalk (leaves : List (Nat × List Char)) (last : Nat × Nat) : Nat × Nat :=
  match leaves.getLast? with
  | some (i, v) => (i, v.length)
  | none => last

mutual
/-- No element of the tree has two adjacent text-leaf children (the
normalised-tree property that leaf merging maintains). -/
def noAdjTexts : DNode → Bool
  | .text _ _ => true
  | .elem _ _ cs => adjOkList cs
/-- `noAdjTexts` over a sibling list, also checking adjacent pairs. -/
def adjOkList : List DNode → Bool
  | [] => true
  | [c] => noAdjTexts c
  | c :: c2 :: cs =>
    (!(DNode.isText c && DNode.isText c2)) && noAdjTexts c && adjOkList (c2 :: cs)
end

/-- Whether the junction of two sibling lists is free of adjacent text
leaves: the last node of the first list and the first node of the second
are not both text leaves. -/
def adjSeam (xs ys : List DNode) : Bool :=
  match xs.getLast?, ys.head? with
  | some a, some b => !(DNode.isText a && DNode.isText b)
  | _, _ => true

mutual
/-- One flag per character of the leaf concatenation, in document order:
whether that character sits below (or at) an element carrying `cls`. -/
def coveredChars (cls : String) (inCov : Bool) : DNode → List Bool
  | .text _ s => s.map (fun _ => inCov)
  | .elem _ k cs => coveredCharsList cls (inCov || k.contains cls) cs
/-- `coveredChars` over a forest. -/
def coveredCharsList (cls : String) (inCov : Bool) : List DNode → List Bool
  | [] => []
  | c :: cs => coveredChars cls inCov c ++ coveredCharsList cls inCov cs
end

mutual
/-- The parent element of the node with identity `j` (first depth-first
occurrence), or `none` when `j` is the root or absent. -/
def parentOf : DNode → Nat → Option DNode
  | .text _ _, _ => none
  | .elem i k cs, j =>
    if cs.any (fun c => DNode.nid c = j) then some (.elem i k cs)
    else parentOfList cs j
/-- `parentOf` over a forest. -/
def parentOfList : List DNode → Nat → Option DNode
  | [], _ => none
  | c :: cs, j =>
    match parentOf c j with
    | some p => some p
    | none => parentOfList cs j
end

/-- The (identity, class list) signature of a located parent element:
the stable part of a parent lookup that sibling splices do not change. -/
def parentSig : Option DNode → Option (Nat × List String)
  | some (.elem i k _) => some (i, k)
  | _ => none

/-! ## Helper lemmas about the list surgeries -/

theorem any_nid_splice (before after : List DNode) (c : DNode) (j : Nat)
    (hc : DNode.nid c = j) :
    (before ++ c :: after).any (fun x => decide (DNode.nid x = j)) = true := by
  simp [List.any_append, hc]

theorem find_nid_splice (before after : List DNode) (c : DNode) (j : Nat)
    (hb : ∀ b ∈ before, DNode.nid b ≠ j) (hc : DNode.nid c = j) :
    (before ++ c :: after).find? (fun x => decide (DNode.nid x = j)) = some c := by
  induction before with
  | nil => simp [List.find?, hc]
  | cons b bs ih =>
    have hbj : DNode.nid b ≠ j := hb b (by simp)
    simpa [List.find?, hbj] using ih (fun x hx => hb x (by simp [hx]))

theorem wrapChild_splice (cls : String) (fresh j : Nat)
    (before after : List DNode) (c : DNode)
    (hb : ∀ b ∈ before, DNode.nid b ≠ j) (hc : DNode.nid c = j) :
    wrapChild cls fresh j (before ++ c :: after)
      = before ++ DNode.elem fresh [cls] [c] :: after := by
  induction before with
  | nil => simp [wrapChild, hc]
  | cons b bs ih =>
    have hbj : DNode.nid b ≠ j := hb b (by simp)
    simp [wrapChild, hbj, ih (fun x hx => hb x (by simp [hx]))]

theorem splitChildren_splice (cls : String) (fresh j s e : Nat) (v : List Char)
    (before after : List DNode)
    (hb : ∀ b ∈ before, DNode.nid b ≠ j) :
    splitChildren cls fresh j s e (before ++ DNode.text j v :: after)
      = before ++
        (if s = 0 then
          DNode.elem fresh [cls] [DNode.text (fresh + 1) (jsSubstring v 0 e)]
            :: DNode.text j (jsSubstring v e v.length) :: after
         else
          DNode.text j (jsSubstring v 0 s)
            :: DNode.elem fresh [cls] [DNode.text (fresh + 1) (jsSubstring v s e)]
            :: ((if e < v.length then
                  [DNode.text (fresh + 2) (jsSubstring v e v.length)]
                 else []) ++ after)) := by
  induction before with
  | nil => simp [splitChildren, DNode.nid]
  | cons b bs ih =>
    have hbj : DNode.nid b ≠ j := hb b (by simp)
    have ih' := ih (fun x hx => hb x (by simp [hx]))
    simp only [List.cons_append, splitChildren, hbj, if_false, List.append_eq,
      ite_false, if_neg, not_false_iff]
    rw [ih']

theorem splitAtFirst_splice (j : Nat) (before after : List DNode) (c : DNode)
    (hb : ∀ b ∈ before, DNode.nid b ≠ j) (hc : DNode.nid c = j) :
    splitAtFirst j (before ++ c :: after) = some (before, c, after) := by
  induction before with
  | nil => simp [splitAtFirst, hc]
  | cons b bs ih =>
    have hbj : DNode.nid b ≠ j := hb b (by simp)
    simp [splitAtFirst, hbj, ih (fun x hx => hb x (by simp [hx]))]

theorem jsSubstring_zero_left (v : List Char) (e : Nat) (he : e ≤ v.length) :
    jsSubstring v 0 e = v.take e := by
  simp [jsSubstring, Nat.min_eq_left he]

theorem jsSubstring_to_length (v : List Char) (e : Nat) (he : e ≤ v.length) :
    jsSubstring v e v.length = v.drop e := by
  simp [jsSubstring, Nat.min_eq_left he, Nat.max_eq_right he]

theorem jsSubstring_mid (v : List Char) (s e : Nat) (hse : s ≤ e)
    (he : e ≤ v.length) :
    jsSubstring v s e = (v.take e).drop s := by
  have hs : s ≤ v.length := le_trans hse he
  simp [jsSubstring, Nat.min_eq_left he, Nat.min_eq_left hs,
    Nat.max_eq_right hse, Nat.min_eq_left hse]

/-! ## First-match decompositions -/

theorem any_decomp {f : DNode → Bool} :
    ∀ {cs : List DNode}, cs.any f = true →
      ∃ before c after, cs = before ++ c :: after ∧ f c = true ∧
        ∀ b ∈ before, f b = false := by
  intro cs
  induction cs with
  | nil => intro h; simp at h
  | cons x xs ih =>
    intro h
    by_cases hx : f x = true
    · exact ⟨[], x, xs, rfl, hx, by intro b hb; simp at hb⟩
    · have hx' : f x = false := by simpa using hx
      have h2 : xs.any f = true := by simpa [List.any_cons, hx'] using h
      obtain ⟨b, c, a, rfl, hfc, hb⟩ := ih h2
      exact ⟨x :: b, c, a, rfl, hfc, by
        intro y hy
        rcases List.mem_cons.mp hy with rfl | hy'
        · exact hx'
        · exact hb y hy'⟩

theorem find_decomp {f : DNode → Bool} :
    ∀ {cs : List DNode} {c : DNode}, cs.find? f = some c →
      ∃ before after, cs = before ++ c :: after ∧ f c = true ∧
        ∀ b ∈ before, f b = false := by
  intro cs
  induction cs with
  | nil => intro c h; simp [List.find?] at h
  | cons x xs ih =>
    intro c h
    by_cases hx : f x = true
    · rw [List.find?_cons_of_pos _ hx] at h
      obtain rfl : x = c := by simpa using h
      exact ⟨[], xs, rfl, hx, by intro b hb; simp at hb⟩
    · have hx' : f x = false := by simpa using hx
      rw [List.find?_cons_of_neg _ (by simp [hx'])] at h
      obtain ⟨b, a, rfl, hfc, hb⟩ := ih h
      exact ⟨x :: b, a, rfl, hfc, by
        intro y hy
        rcases List.mem_cons.mp hy with rfl | hy'
        · exact hx'
        · exact hb y hy'⟩

/-! ## Append homomorphisms for the document-order observables -/

theorem leafConcatList_append (l1 l2 : List DNode) :
    leafConcatList (l1 ++ l2) = leafConcatList l1 ++ leafConcatList l2 := by
  induction l1 with
  | nil => simp [leafConcatList]
  | cons c cs ih => simp [leafConcatList, ih]

theorem walkTextsList_append (l1 l2 : List DNode) :
    walkTextsList (l1 ++ l2) = walkTextsList l1 ++ walkTextsList l2 := by
  induction l1 with
  | nil => simp [walkTextsList]
  | cons c cs ih => simp [walkTextsList, ih]

theorem idsOfList_append (l1 l2 : List DNode) :
    idsOfList (l1 ++ l2) = idsOfList l1 ++ idsOfList l2 := by
  induction l1 with
  | nil => simp [idsOfList]
  | cons c cs ih => simp [idsOfList, ih]

theorem styledOfList_append (cls : String) (l1 l2 : List DNode) :
    styledOfList cls (l1 ++ l2) = styledOfList cls l1 ++ styledOfList cls l2 := by
  induction l1 with
  | nil => simp [styledOfList]
  | cons c cs ih => simp [styledOfList, ih]

/-! ## Splitting identities for the clamped substring -/

theorem jsSubstring_split_zero (v : List Char) (e : Nat) :
    jsSubstring v 0 e ++ jsSubstring v e v.length = v := by
  have h1 : max (min e v.length) v.length = v.length :=
    Nat.max_eq_right (Nat.min_le_right _ _)
  have h2 : min (min e v.length) v.length = min e v.length :=
    Nat.min_eq_left (Nat.min_le_right _ _)
  simp [jsSubstring, h1, h2]

theorem jsSubstring_split_three (v : List Char) (s e : Nat)
    (h : s ≤ e ∨ v.length ≤ e) :
    jsSubstring v 0 s ++ jsSubstring v s e
        ++ (if e < v.length then jsSubstring v e v.length else []) = v := by
  by_cases hel : e < v.length
  · have hse : s ≤ e := by
      rcases h with h | h
      · exact h
      · omega
    have hsl : s ≤ v.length := le_trans hse (Nat.le_of_lt hel)
    rw [if_pos hel, jsSubstring_zero_left v s hsl,
      jsSubstring_mid v s e hse (Nat.le_of_lt hel),
      jsSubstring_to_length v e (Nat.le_of_lt hel)]
    have h1 : v.take s = (v.take e).take s := by
      rw [List.take_take, Nat.min_eq_left hse]
    rw [h1, List.take_append_drop, List.take_append_drop]
  · have hel' : v.length ≤ e := Nat.le_of_not_lt hel
    rw [if_neg hel]
    have ha : jsSubstring v 0 s = v.take (min s v.length) := by
      simp [jsSubstring]
    have hb : jsSubstring v s e = v.drop (min s v.length) := by
      have h3 : min e v.length = v.length := Nat.min_eq_right hel'
      have h4 : max (min s v.length) v.length = v.length :=
        Nat.max_eq_right (Nat.min_le_right _ _)
      have h5 : min (min s v.length) v.length = min s v.length :=
        Nat.min_eq_left (Nat.min_le_right _ _)
      simp [jsSubstring, h3, h4, h5]
    rw [ha, hb]
    simp [List.take_append_drop]

/-! ## Identity bookkeeping: dereferencing, uniqueness -/

mutual
theorem walkTexts_fst_mem_ids :
    ∀ (t : DNode), ∀ p ∈ walkTexts t, p.1 ∈ idsOf t
  | .text i s => by intro p hp; simp [walkTexts] at hp; simp [hp, idsOf]
  | .elem i k cs => by
    intro p hp
    simp only [walkTexts] at hp
    simp only [idsOf, List.mem_cons]
    exact Or.inr (walkTextsList_fst_mem_ids cs p hp)
theorem walkTextsList_fst_mem_ids :
    ∀ (cs : List DNode), ∀ p ∈ walkTextsList cs, p.1 ∈ idsOfList cs
  | [] => by intro p hp; simp [walkTextsList] at hp
  | c :: cs => by
    intro p hp
    simp only [walkTextsList, List.mem_append] at hp
    simp only [idsOfList, List.mem_append]
    rcases hp with hp | hp
    · exact Or.inl (walkTexts_fst_mem_ids c p hp)
    · exact Or.inr (walkTextsList_fst_mem_ids cs p hp)
end

mutual
theorem getById_isSome_of_mem :
    ∀ (t : DNode) (j : Nat), j ∈ idsOf t → (getById t j).isSome = true
  | .text i s, j => by
    intro h
    simp [idsOf] at h
    simp [getById, h]
  | .elem i k cs, j => by
    intro h
    simp only [idsOf, List.mem_cons] at h
    by_cases hij : i = j
    · simp [getById, hij]
    · rcases h with h | h
      · exact absurd h.symm hij
      · have := getByIdList_isSome_of_mem cs j h
        simpa [getById, hij] using this
theorem getByIdList_isSome_of_mem :
    ∀ (cs : List DNode) (j : Nat), j ∈ idsOfList cs → (getByIdList cs j).isSome = true
  | [], j => by intro h; simp [idsOfList] at h
  | c :: cs, j => by
    intro h
    simp only [idsOfList, List.mem_append] at h
    rcases h with h | h
    · have := getById_isSome_of_mem c j h
      rcases hg : getById c j with _ | n
      · rw [hg] at this; simp at this
      · simp [getByIdList, hg]
    · rcases hg : getById c j with _ | n
      · have := getByIdList_isSome_of_mem cs j h
        simpa [getByIdList, hg] using this
      · simp [getByIdList, hg]
end

theorem getById_none_not_mem {t : DNode} {j : Nat}
    (h : getById t j = none) : j ∉ idsOf t := by
  intro hmem
  have := getById_isSome_of_mem t j hmem
  rw [h] at this
  simp at this

theorem getByIdList_none_not_mem {cs : List DNode} {j : Nat}
    (h : getByIdList cs j = none) : j ∉ idsOfList cs := by
  intro hmem
  have := getByIdList_isSome_of_mem cs j hmem
  rw [h] at this
  simp at this

mutual
theorem getById_mem_ids :
    ∀ (t : DNode) (j : Nat) (n : DNode), getById t j = some n → j ∈ idsOf t
  | .text i s, j, n => by
    intro h
    simp only [getById] at h
    by_cases hij : i = j
    · simp [idsOf, hij]
    · simp [hij] at h
  | .elem i k cs, j, n => by
    intro h
    simp only [getById] at h
    by_cases hij : i = j
    · simp [idsOf, hij]
    · simp only [hij, if_false, ite_false, if_neg, not_false_iff] at h
      have := getByIdList_mem_ids cs j n (by simpa [hij] using h)
      simp [idsOf, this]
theorem getByIdList_mem_ids :
    ∀ (cs : List DNode) (j : Nat) (n : DNode), getByIdList cs j = some n → j ∈ idsOfList cs
  | [], j, n => by intro h; simp [getByIdList] at h
  | c :: cs, j, n => by
    intro h
    simp only [getByIdList] at h
    rcases hg : getById c j with _ | m
    · rw [hg] at h
      have := getByIdList_mem_ids cs j n h
      simp [idsOfList, this]
    · have := getById_mem_ids c j m hg
      simp [idsOfList, this]
end

mutual
theorem walk_text_unique :
    ∀ (t : DNode), (idsOf t).Nodup → ∀ {j : Nat} {v : List Char},
      getById t j = some (.text j v) → ∀ p ∈ walkTexts t, p.1 = j → p.2 = v
  | .text i s => by
    intro _ j v hg p hp hpj
    simp only [getById] at hg
    by_cases hij : i = j
    · subst hij
      simp at hg
      simp [walkTexts] at hp
      subst hp
      simpa using hg
    · simp [hij] at hg
  | .elem i k cs => by
    intro hnd j v hg p hp hpj
    simp only [getById] at hg
    by_cases hij : i = j
    · simp [hij] at hg
    · simp only [hij, if_neg, not_false_iff, ite_false, if_false] at hg
      have hg' : getByIdList cs j = some (.text j v) := by simpa [hij] using hg
      have hnd' : (idsOfList cs).Nodup := by
        simpa [idsOf] using (List.nodup_cons.mp (by simpa [idsOf] using hnd)).2
      exact walkList_text_unique cs hnd' hg' p (by simpa [walkTexts] using hp) hpj
theorem walkList_text_unique :
    ∀ (cs : List DNode), (idsOfList cs).Nodup → ∀ {j : Nat} {v : List Char},
      getByIdList cs j = some (.text j v) → ∀ p ∈ walkTextsList cs, p.1 = j → p.2 = v
  | [] => by intro _ j v hg; simp [getByIdList] at hg
  | c :: cs => by
    intro hnd j v hg p hp hpj
    have hnd1 : (idsOf c).Nodup := ((List.nodup_append.mp (by simpa [idsOfList] using hnd)).1)
    have hnd2 : (idsOfList cs).Nodup := ((List.nodup_append.mp (by simpa [idsOfList] using hnd)).2.1)
    have hdisj : ∀ x ∈ idsOf c, x ∉ idsOfList cs := by
      have := (List.nodup_append.mp (by simpa [idsOfList] using hnd)).2.2
      intro x hx hx'
      exact this hx hx'
    simp only [getByIdList] at hg
    simp only [walkTextsList, List.mem_append] at hp
    rcases hgc : getById c j with _ | m
    · rw [hgc] at hg
      rcases hp with hp | hp
      · exfalso
        have hjm : j ∈ idsOf c := by
          have := walkTexts_fst_mem_ids c p hp
          rwa [hpj] at this
        exact getById_none_not_mem hgc hjm
      · exact walkList_text_unique cs hnd2 hg p hp hpj
    · rw [hgc] at hg
      have hm : m = DNode.text j v := by simpa using hg
      subst hm
      rcases hp with hp | hp
      · exact walk_text_unique c hnd1 hgc p hp hpj
      · exfalso
        have hjc : j ∈ idsOf c := getById_mem_ids c j _ hgc
        have hjcs : j ∈ idsOfList cs := by
          have := walkTextsList_fst_mem_ids cs p hp
          rwa [hpj] at this
        exact hdisj j hjc hjcs
end

mutual
theorem getById_nid :
    ∀ (t : DNode) (j : Nat) (n : DNode), getById t j = some n → DNode.nid n = j
  | .text i s, j, n => by
    intro h
    simp only [getById] at h
    by_cases hij : i = j
    · subst hij
      simp at h
      subst h
      rfl
    · simp [hij] at h
  | .elem i k cs, j, n => by
    intro h
    simp only [getById] at h
    by_cases hij : i = j
    · subst hij
      simp at h
      subst h
      rfl
    · exact getByIdList_nid cs j n (by simpa [hij] using h)
theorem getByIdList_nid :
    ∀ (cs : List DNode) (j : Nat) (n : DNode), getByIdList cs j = some n → DNode.nid n = j
  | [], j, n => by intro h; simp [getByIdList] at h
  | c :: cs, j, n => by
    intro h
    simp only [getByIdList] at h
    rcases hg : getById c j with _ | m
    · rw [hg] at h
      exact getByIdList_nid cs j n h
    · rw [hg] at h
      have hm : m = n := by simpa using h
      subst hm
      exact getById_nid c j _ hg
end

/-! ## Content preservation of the span mutator -/

theorem wholeAtSite_concat (cls : String) (fresh j i : Nat) (k : List String)
    (before after : List DNode) (c : DNode)
    (hb : ∀ b ∈ before, DNode.nid b ≠ j) (hc : DNode.nid c = j) :
    leafConcat (wholeAtSite cls fresh j i k (before ++ c :: after)).1
      = leafConcatList (before ++ c :: after) := by
  have hwrap := wrapChild_splice cls fresh j before after c hb hc
  by_cases h1 : (before ++ c :: after).length = 1
  · simp [wholeAtSite, h1, leafConcat]
  · have h1' : ¬(before.length + (after.length + 1) = 1) := by simpa using h1
    simp [wholeAtSite, h1, h1', leafConcat, hwrap, leafConcatList_append,
      leafConcatList]

mutual
theorem wholeGo_concat (cls : String) (fresh j : Nat) :
    ∀ t : DNode, leafConcat (wholeGo cls fresh j t).1 = leafConcat t
  | .text i s => by simp [wholeGo, leafConcat]
  | .elem i k cs => by
    by_cases hany : cs.any (fun c => decide (DNode.nid c = j)) = true
    · obtain ⟨before, c, after, hcs, hc, hb⟩ := any_decomp hany
      subst hcs
      have hsite := wholeAtSite_concat cls fresh j i k before after c
        (by intro b hbm; have := hb b hbm; simpa using this)
        (by simpa using hc)
      simp only [wholeGo, hany, if_pos, leafConcat]
      simpa [leafConcat] using hsite
    · have hany' : cs.any (fun c => decide (DNode.nid c = j)) = false := by
        simpa using hany
      have hl := wholeGoList_concat cls fresh j cs
      simp [wholeGo, hany', leafConcat, hl]
theorem wholeGoList_concat (cls : String) (fresh j : Nat) :
    ∀ cs : List DNode, leafConcatList (wholeGoList cls fresh j cs).1 = leafConcatList cs
  | [] => by simp [wholeGoList]
  | c :: cs => by
    have hc := wholeGo_concat cls fresh j c
    have hcs := wholeGoList_concat cls fresh j cs
    rcases hw : wholeGo cls fresh j c with ⟨c', r⟩
    rw [hw] at hc
    cases r with
    | some x => simp [wholeGoList, hw, leafConcatList, hc]
    | none => simp [wholeGoList, hw, leafConcatList, hc, hcs]
end

theorem applyToWholeNode_concat (cls : String) (t : DNode) (fresh j : Nat) :
    leafConcat (applyToWholeNode cls t fresh j).1 = leafConcat t := by
  have h := wholeGo_concat cls fresh j t
  rcases hw : wholeGo cls fresh j t with ⟨t', r⟩
  rw [hw] at h
  cases r with
  | some x => simp [applyToWholeNode, hw, h]
  | none => simp [applyToWholeNode, hw]

theorem splitChildren_concat_site (cls : String) (fresh j s e : Nat)
    (v : List Char) (before after : List DNode)
    (hb : ∀ b ∈ before, DNode.nid b ≠ j)
    (h : s ≤ e ∨ v.length ≤ e) :
    leafConcatList (splitChildren cls fresh j s e (before ++ DNode.text j v :: after))
      = leafConcatList (before ++ DNode.text j v :: after) := by
  rw [splitChildren_splice cls fresh j s e v before after hb]
  by_cases hs0 : s = 0
  · subst hs0
    have h0 := jsSubstring_split_zero v e
    simp only [if_pos, leafConcatList_append, leafConcatList, leafConcat,
      List.append_nil]
    congr 1
    conv_rhs => rw [← h0]
    simp [List.append_assoc]
  · have h3 := jsSubstring_split_three v s e h
    rw [if_neg hs0]
    by_cases hel : e < v.length
    · rw [if_pos hel] at h3 ⊢
      have h3' : jsSubstring v 0 s ++ (jsSubstring v s e ++ jsSubstring v e v.length) = v := by
        rw [← List.append_assoc]
        exact h3
      simp only [leafConcatList_append, leafConcatList, leafConcat,
        List.append_nil]
      congr 1
      conv_rhs => rw [← h3']
      simp [List.append_assoc]
    · rw [if_neg hel] at h3 ⊢
      have h3' : jsSubstring v 0 s ++ jsSubstring v s e = v := by simpa using h3
      simp only [leafConcatList_append, leafConcatList, leafConcat,
        List.append_nil, List.nil_append]
      congr 1
      conv_rhs => rw [← h3']
      simp [List.append_assoc]

mutual
theorem applyGo_concat (cls : String) (fresh j s e : Nat) :
    ∀ t : DNode,
      (s ≤ e ∨ ∀ p ∈ walkTexts t, p.1 = j → p.2.length ≤ e) →
      leafConcat (applyGo cls fresh j s e t).1 = leafConcat t
  | .text i v => by intro hyp; simp [applyGo, leafConcat]
  | .elem i k cs => by
    intro hyp
    rcases hf : cs.find? (fun c => decide (DNode.nid c = j)) with _ | c
    · have hl := applyGoList_concat cls fresh j s e cs
        (by
          rcases hyp with h | h
          · exact Or.inl h
          · exact Or.inr (by
              intro p hp
              exact h p (by simpa [walkTexts] using hp)))
      rcases ha : applyGoList cls fresh j s e cs with ⟨cs', r⟩
      rw [ha] at hl
      simp [applyGo, hf, ha, leafConcat, hl]
    · obtain ⟨before, after, hcs, hcj, hbf⟩ := find_decomp hf
      subst hcs
      have hb : ∀ b ∈ before, DNode.nid b ≠ j := by
        intro b hbm
        have := hbf b hbm
        simpa using this
      have hc : DNode.nid c = j := by simpa using hcj
      cases c with
      | text ti w =>
        have htij : ti = j := by simpa [DNode.nid] using hc
        subst htij
        have hw : s ≤ e ∨ w.length ≤ e := by
          rcases hyp with h | h
          · exact Or.inl h
          · refine Or.inr ?_
            have hmem : (ti, w) ∈ walkTexts (DNode.elem i k (before ++ DNode.text ti w :: after)) := by
              simp [walkTexts, walkTextsList_append, walkTextsList]
            exact h (ti, w) hmem rfl
        by_cases hwhole : s = 0 ∧ e = w.length
        · have hsite := wholeAtSite_concat cls fresh ti i k before after
            (DNode.text ti w) hb rfl
          simp only [applyGo, hf, hwhole, if_pos, leafConcat]
          simpa [leafConcat] using hsite
        · have hsplit := splitChildren_concat_site cls fresh ti s e w before after hb hw
          simp only [applyGo, hf, hwhole, if_neg, not_false_iff, ite_false,
            if_false, leafConcat]
          simpa [leafConcat] using hsplit
      | elem ci ck ccs => simp [applyGo, hf, leafConcat]
theorem applyGoList_concat (cls : String) (fresh j s e : Nat) :
    ∀ cs : List DNode,
      (s ≤ e ∨ ∀ p ∈ walkTextsList cs, p.1 = j → p.2.length ≤ e) →
      leafConcatList (applyGoList cls fresh j s e cs).1 = leafConcatList cs
  | [] => by intro hyp; simp [applyGoList]
  | c :: cs => by
    intro hyp
    have hyp1 : s ≤ e ∨ ∀ p ∈ walkTexts c, p.1 = j → p.2.length ≤ e := by
      rcases hyp with h | h
      · exact Or.inl h
      · exact Or.inr (by
          intro p hp
          exact h p (by simp [walkTextsList, List.mem_append, hp]))
    have hyp2 : s ≤ e ∨ ∀ p ∈ walkTextsList cs, p.1 = j → p.2.length ≤ e := by
      rcases hyp with h | h
      · exact Or.inl h
      · exact Or.inr (by
          intro p hp
          exact h p (by simp [walkTextsList, List.mem_append, hp]))
    have hcg := applyGo_concat cls fresh j s e c hyp1
    have hcsg := applyGoList_concat cls fresh j s e cs hyp2
    rcases ha : applyGo cls fresh j s e c with ⟨c', r⟩
    rw [ha] at hcg
    cases r with
    | some x => simp [applyGoList, ha, leafConcatList, hcg]
    | none =>
      rcases hb : applyGoList cls fresh j s e cs with ⟨cs', r2⟩
      rw [hb] at hcsg
      simp [applyGoList, ha, hb, leafConcatList, hcg, hcsg]
end

theorem applyToNode_concat (cls : String) (t : DNode) (fresh j s e : Nat)
    (hyp : s ≤ e ∨ ∀ p ∈ walkTexts t, p.1 = j → p.2.length ≤ e) :
    leafConcat (applyToNode cls t fresh j s e).1 = leafConcat t := by
  by_cases hse : s = e
  · simp [applyToNode, hse]
  · have h := applyGo_concat cls fresh j s e t hyp
    rcases ha : applyGo cls fresh j s e t with ⟨t', r⟩
    rw [ha] at h
    cases r with
    | some x => simp [applyToNode, hse, ha, h]
    | none => simp [applyToNode, hse, ha]

/-! ## Identity well-formedness is preserved by the span mutator -/

theorem nodup_middle {l1 l2 ns : List Nat} (h : (l1 ++ l2).Nodup)
    (hn : ns.Nodup) (hd : ∀ x ∈ ns, x ∉ l1 ++ l2) :
    (l1 ++ (ns ++ l2)).Nodup := by
  have hperm : List.Perm (l1 ++ (ns ++ l2)) (ns ++ (l1 ++ l2)) := by
    have h2 : List.Perm ((l1 ++ ns) ++ l2) ((ns ++ l1) ++ l2) :=
      (List.perm_append_comm).append_right l2
    simpa [List.append_assoc] using h2
  exact (hperm.symm).nodup (hn.append h (fun x hx hx' => hd x hx hx'))

mutual
theorem walk_ids_sublist :
    ∀ t : DNode, ((walkTexts t).map Prod.fst).Sublist (idsOf t)
  | .text i s => by simp [walkTexts, idsOf]
  | .elem i k cs => by
    simpa [walkTexts, idsOf] using (walkList_ids_sublist cs).cons i
theorem walkList_ids_sublist :
    ∀ cs : List DNode, ((walkTextsList cs).map Prod.fst).Sublist (idsOfList cs)
  | [] => by simp [walkTextsList, idsOfList]
  | c :: cs => by
    simpa [walkTextsList, idsOfList, List.map_append] using
      (walk_ids_sublist c).append (walkList_ids_sublist cs)
end

theorem walk_ids_nodup {t : DNode} (h : (idsOf t).Nodup) :
    ((walkTexts t).map Prod.fst).Nodup :=
  h.sublist (walk_ids_sublist t)

theorem rootTexts_ids_nodup {t : DNode} (h : (idsOf t).Nodup) :
    ((rootTexts t).map Prod.fst).Nodup := by
  cases t with
  | text i s => simp [rootTexts]
  | elem i k cs =>
    have := @walk_ids_nodup (.elem i k cs) h
    simpa [walkTexts, rootTexts] using this

theorem splitChildren_ids (cls : String) (fresh j s e : Nat) (v : List Char)
    (before after : List DNode)
    (hb : ∀ b ∈ before, DNode.nid b ≠ j) :
    idsOfList (splitChildren cls fresh j s e (before ++ DNode.text j v :: after))
      = idsOfList before ++
        ((if s = 0 then [fresh, fresh + 1, j]
          else j :: fresh :: (fresh + 1) ::
            (if e < v.length then [fresh + 2] else [])) ++ idsOfList after) := by
  rw [splitChildren_splice cls fresh j s e v before after hb]
  by_cases hs0 : s = 0
  · subst hs0
    simp [idsOfList_append, idsOfList, idsOf]
  · rw [if_neg hs0, if_neg hs0]
    by_cases hel : e < v.length
    · simp [hel, idsOfList_append, idsOfList, idsOf]
    · simp [hel, idsOfList_append, idsOfList, idsOf]

theorem wholeAtSite_ids (cls : String) (fresh j i : Nat) (k : List String)
    (before after : List DNode) (c : DNode)
    (hb : ∀ b ∈ before, DNode.nid b ≠ j) (hc : DNode.nid c = j) :
    (¬(before ++ c :: after).length = 1 →
      idsOf (wholeAtSite cls fresh j i k (before ++ c :: after)).1
        = i :: (idsOfList before ++ ([fresh] ++ (idsOf c ++ idsOfList after))) ∧
      (wholeAtSite cls fresh j i k (before ++ c :: after)).2.1 = fresh + 1) ∧
    ((before ++ c :: after).length = 1 →
      idsOf (wholeAtSite cls fresh j i k (before ++ c :: after)).1
        = idsOf (DNode.elem i k (before ++ c :: after)) ∧
      (wholeAtSite cls fresh j i k (before ++ c :: after)).2.1 = fresh) := by
  constructor
  · intro h1
    have h1' : ¬(before.length + (after.length + 1) = 1) := by simpa using h1
    have hwrap := wrapChild_splice cls fresh j before after c hb hc
    simp [wholeAtSite, h1', hwrap, idsOf, idsOfList_append, idsOfList]
  · intro h1
    have h1' : before.length + (after.length + 1) = 1 := by simpa using h1
    simp [wholeAtSite, h1', idsOf]

/-! ## The rewrites either find their site or leave the tree unchanged -/

mutual
theorem wholeGo_none (cls : String) (fresh j : Nat) :
    ∀ {t t' : DNode}, wholeGo cls fresh j t = (t', none) → t' = t
  | .text i s, t' => by
    intro h
    simp only [wholeGo, Prod.mk.injEq] at h
    exact h.1.symm
  | .elem i k cs, t' => by
    intro h
    by_cases hany : cs.any (fun c => decide (DNode.nid c = j)) = true
    · simp [wholeGo, hany] at h
    · have hany' : cs.any (fun c => decide (DNode.nid c = j)) = false := by
        simpa using hany
      rcases hl : wholeGoList cls fresh j cs with ⟨cs', r⟩
      simp only [wholeGo, hany', Bool.false_eq_true, if_neg, not_false_iff,
        ite_false, if_false, hl, Prod.mk.injEq] at h
      obtain ⟨h1, h2⟩ := h
      have := wholeGoList_none cls fresh j (by rw [hl, h2])
      rw [← h1, this]
theorem wholeGoList_none (cls : String) (fresh j : Nat) :
    ∀ {cs cs' : List DNode}, wholeGoList cls fresh j cs = (cs', none) → cs' = cs
  | [], cs' => by
    intro h
    simp only [wholeGoList, Prod.mk.injEq] at h
    exact h.1.symm
  | c :: cs, cs' => by
    intro h
    rcases hw : wholeGo cls fresh j c with ⟨c', r⟩
    cases r with
    | some x => simp [wholeGoList, hw] at h
    | none =>
      rcases hl : wholeGoList cls fresh j cs with ⟨cs2, r2⟩
      simp only [wholeGoList, hw, hl, Prod.mk.injEq] at h
      obtain ⟨h1, h2⟩ := h
      have hc := wholeGo_none cls fresh j hw
      have hcs := wholeGoList_none cls fresh j (by rw [hl, h2])
      rw [← h1, hc, hcs]
end

mutual
theorem applyGo_none (cls : String) (fresh j s e : Nat) :
    ∀ {t t' : DNode}, applyGo cls fresh j s e t = (t', none) → t' = t
  | .text i v, t' => by
    intro h
    simp only [applyGo, Prod.mk.injEq] at h
    exact h.1.symm
  | .elem i k cs, t' => by
    intro h
    rcases hf : cs.find? (fun c => decide (DNode.nid c = j)) with _ | c
    · rcases hl : applyGoList cls fresh j s e cs with ⟨cs', r⟩
      simp only [applyGo, hf, hl, Prod.mk.injEq] at h
      obtain ⟨h1, h2⟩ := h
      have := applyGoList_none cls fresh j s e (by rw [hl, h2])
      rw [← h1, this]
    · cases c with
      | text ti w =>
        by_cases hwhole : s = 0 ∧ e = w.length
        · simp [applyGo, hf, hwhole] at h
        · simp [applyGo, hf, hwhole] at h
      | elem ci ck ccs => simp [applyGo, hf] at h
theorem applyGoList_none (cls : String) (fresh j s e : Nat) :
    ∀ {cs cs' : List DNode}, applyGoList cls fresh j s e cs = (cs', none) → cs' = cs
  | [], cs' => by
    intro h
    simp only [applyGoList, Prod.mk.injEq] at h
    exact h.1.symm
  | c :: cs, cs' => by
    intro h
    rcases hw : applyGo cls fresh j s e c with ⟨c', r⟩
    cases r with
    | some x => simp [applyGoList, hw] at h
    | none =>
      rcases hl : applyGoList cls fresh j s e cs with ⟨cs2, r2⟩
      simp only [applyGoList, hw, hl, Prod.mk.injEq] at h
      obtain ⟨h1, h2⟩ := h
      have hc := applyGo_none cls fresh j s e hw
      have hcs := applyGoList_none cls fresh j s e (by rw [hl, h2])
      rw [← h1, hc, hcs]
end

theorem nodup_insert_before {B A : List Nat} (j : Nat) (ns : List Nat)
    (h : (B ++ (j :: A)).Nodup) (hn : ns.Nodup)
    (hd : ∀ x ∈ ns, x ∉ B ++ (j :: A)) : (B ++ (ns ++ (j :: A))).Nodup :=
  nodup_middle h hn hd

theorem nodup_insert_after {B A : List Nat} (j : Nat) (ns : List Nat)
    (h : (B ++ (j :: A)).Nodup) (hn : ns.Nodup)
    (hd : ∀ x ∈ ns, x ∉ B ++ (j :: A)) : (B ++ (j :: (ns ++ A))).Nodup := by
  have h' : ((B ++ [j]) ++ A).Nodup := by simpa [List.append_assoc] using h
  have hd' : ∀ x ∈ ns, x ∉ (B ++ [j]) ++ A := by
    intro x hx
    have := hd x hx
    simpa [List.append_assoc] using this
  have := nodup_middle h' hn hd'
  simpa [List.append_assoc] using this

theorem wholeAtSite_wf (cls : String) (fresh j i : Nat) (k : List String)
    (before after : List DNode) (c : DNode)
    (hb : ∀ b ∈ before, DNode.nid b ≠ j) (hc : DNode.nid c = j)
    (hnd : (idsOf (DNode.elem i k (before ++ c :: after))).Nodup)
    (hbd : ∀ x ∈ idsOf (DNode.elem i k (before ++ c :: after)), x < fresh) :
    (idsOf (wholeAtSite cls fresh j i k (before ++ c :: after)).1).Nodup ∧
    (∀ x ∈ idsOf (wholeAtSite cls fresh j i k (before ++ c :: after)).1,
        x < (wholeAtSite cls fresh j i k (before ++ c :: after)).2.1) ∧
    fresh ≤ (wholeAtSite cls fresh j i k (before ++ c :: after)).2.1 ∧
    (∀ x ∈ idsOf (wholeAtSite cls fresh j i k (before ++ c :: after)).1,
        x ∈ idsOf (DNode.elem i k (before ++ c :: after)) ∨
          (fresh ≤ x ∧ x < (wholeAtSite cls fresh j i k (before ++ c :: after)).2.1)) := by
  obtain ⟨hne, heq⟩ := wholeAtSite_ids cls fresh j i k before after c hb hc
  have horig : idsOf (DNode.elem i k (before ++ c :: after))
      = i :: (idsOfList before ++ (idsOf c ++ idsOfList after)) := by
    simp [idsOf, idsOfList_append, idsOfList]
  by_cases h1 : (before ++ c :: after).length = 1
  · obtain ⟨hids, hf⟩ := heq h1
    rw [hids, hf]
    exact ⟨hnd, hbd, le_refl _, fun x hx => Or.inl hx⟩
  · obtain ⟨hids, hf⟩ := hne h1
    rw [hids, hf]
    rw [horig] at hnd hbd
    have hifr : i < fresh := hbd i (by simp)
    have hcons := List.nodup_cons.mp hnd
    have hifm : i ∉ idsOfList before ++ (idsOf c ++ idsOfList after) := hcons.1
    have htail : (idsOfList before ++ (idsOf c ++ idsOfList after)).Nodup := hcons.2
    have hbd' : ∀ x ∈ idsOfList before ++ (idsOf c ++ idsOfList after), x < fresh :=
      fun x hx => hbd x (by simp [hx])
    refine ⟨?_, ?_, Nat.le_succ fresh, ?_⟩
    · refine List.nodup_cons.mpr ⟨?_, nodup_middle htail (by simp) ?_⟩
      · intro hmem
        rcases List.mem_append.mp hmem with h' | h'
        · exact hifm (List.mem_append.mpr (Or.inl h'))
        · rcases List.mem_append.mp h' with h'' | h''
          · have hif : i = fresh := by simpa using h''
            omega
          · exact hifm (List.mem_append.mpr (Or.inr h''))
      · intro x hx hmem
        have hxf : x = fresh := by simpa using hx
        subst hxf
        exact absurd (hbd' _ hmem) (lt_irrefl _)
    · intro x hx
      rcases List.mem_cons.mp hx with rfl | h'
      · omega
      · rcases List.mem_append.mp h' with h'' | h''
        · have := hbd' x (List.mem_append.mpr (Or.inl h''))
          omega
        · rcases List.mem_append.mp h'' with h3 | h3
          · have hxf : x = fresh := by simpa using h3
            omega
          · have := hbd' x (List.mem_append.mpr (Or.inr h3))
            omega
    · intro x hx
      rcases List.mem_cons.mp hx with rfl | h'
      · exact Or.inl (by rw [horig]; simp)
      · rcases List.mem_append.mp h' with h'' | h''
        · exact Or.inl (by rw [horig]; simp [h''])
        · rcases List.mem_append.mp h'' with h3 | h3
          · have hxf : x = fresh := by simpa using h3
            subst hxf
            exact Or.inr ⟨le_refl _, Nat.lt_succ_self _⟩
          · refine Or.inl ?_
            rw [horig]
            simp only [List.mem_cons, List.mem_append]
            rcases List.mem_append.mp h3 with h4 | h4
            · tauto
            · tauto

theorem splitSite_wf (cls : String) (fresh j s e i : Nat) (k : List String)
    (v : List Char) (before after : List DNode)
    (hb : ∀ b ∈ before, DNode.nid b ≠ j)
    (hnd : (idsOf (DNode.elem i k (before ++ DNode.text j v :: after))).Nodup)
    (hbd : ∀ x ∈ idsOf (DNode.elem i k (before ++ DNode.text j v :: after)), x < fresh) :
    (idsOf (DNode.elem i k
        (splitChildren cls fresh j s e (before ++ DNode.text j v :: after)))).Nodup ∧
    (∀ x ∈ idsOf (DNode.elem i k
        (splitChildren cls fresh j s e (before ++ DNode.text j v :: after))),
        x < (if s = 0 then fresh + 2 else if e < v.length then fresh + 3 else fresh + 2)) ∧
    fresh ≤ (if s = 0 then fresh + 2 else if e < v.length then fresh + 3 else fresh + 2) ∧
    (∀ x ∈ idsOf (DNode.elem i k
        (splitChildren cls fresh j s e (before ++ DNode.text j v :: after))),
        x ∈ idsOf (DNode.elem i k (before ++ DNode.text j v :: after)) ∨
          (fresh ≤ x ∧
           x < (if s = 0 then fresh + 2 else if e < v.length then fresh + 3 else fresh + 2))) := by
  have hids := splitChildren_ids cls fresh j s e v before after hb
  have horig : idsOf (DNode.elem i k (before ++ DNode.text j v :: after))
      = i :: (idsOfList before ++ (j :: idsOfList after)) := by
    simp [idsOf, idsOfList_append, idsOfList]
  rw [horig] at hnd hbd
  have hifr : i < fresh := hbd i (by simp)
  have hjfr : j < fresh := hbd j (by simp)
  have hcons := List.nodup_cons.mp hnd
  have hifm : i ∉ idsOfList before ++ (j :: idsOfList after) := hcons.1
  have htail : (idsOfList before ++ (j :: idsOfList after)).Nodup := hcons.2
  have hbd' : ∀ x ∈ idsOfList before ++ (j :: idsOfList after), x < fresh :=
    fun x hx => hbd x (by simp [hx])
  have hnew : idsOf (DNode.elem i k
      (splitChildren cls fresh j s e (before ++ DNode.text j v :: after)))
      = i :: (idsOfList before ++
          ((if s = 0 then [fresh, fresh + 1, j]
            else j :: fresh :: (fresh + 1) ::
              (if e < v.length then [fresh + 2] else [])) ++ idsOfList after)) := by
    simp [idsOf, hids]
  rw [hnew, horig]
  have hfr2 : fresh ≤ (if s = 0 then fresh + 2
      else if e < v.length then fresh + 3 else fresh + 2) := by
    by_cases hs0 : s = 0 <;> by_cases hel : e < v.length <;> simp [hs0, hel] <;> omega
  have hmidmem : ∀ x, x ∈ (if s = 0 then [fresh, fresh + 1, j]
      else j :: fresh :: (fresh + 1) :: (if e < v.length then [fresh + 2] else [])) →
      x = j ∨ (fresh ≤ x ∧
        x < (if s = 0 then fresh + 2 else if e < v.length then fresh + 3 else fresh + 2)) := by
    intro x hx
    by_cases hs0 : s = 0 <;> by_cases hel : e < v.length <;>
      simp [hs0, hel] at hx ⊢ <;> omega
  refine ⟨?_, ?_, hfr2, ?_⟩
  · refine List.nodup_cons.mpr ⟨?_, ?_⟩
    · intro hmem
      simp only [List.mem_append] at hmem
      rcases hmem with h' | h' | h'
      · exact hifm (by simp [h'])
      · rcases hmidmem i h' with h'' | h''
        · subst h''
          exact hifm (by simp)
        · omega
      · exact hifm (by simp [h'])
    · by_cases hs0 : s = 0
      · subst hs0
        simp only [if_pos]
        have : (idsOfList before ++
            ([fresh, fresh + 1, j] ++ idsOfList after)).Nodup := by
          have hstep : (idsOfList before ++
              ([fresh, fresh + 1] ++ (j :: idsOfList after))).Nodup := by
            refine nodup_insert_before j [fresh, fresh + 1] htail ?_ ?_
            · have hfr : ¬ fresh = fresh + 1 := by omega
              simp [List.nodup_cons, hfr]
            · intro x hx hmem
              have := hbd' x hmem
              rcases List.mem_cons.mp hx with rfl | hx2
              · omega
              · have hxf : x = fresh + 1 := by simpa using hx2
                omega
          simpa using hstep
        exact this
      · rw [if_neg hs0]
        have hstep : (idsOfList before ++
            (j :: ((fresh :: (fresh + 1) ::
              (if e < v.length then [fresh + 2] else [])) ++ idsOfList after))).Nodup := by
          refine nodup_insert_after j _ htail ?_ ?_
          · by_cases hel : e < v.length <;> simp [hel] <;> omega
          · intro x hx hmem
            have := hbd' x hmem
            by_cases hel : e < v.length <;> simp [hel] at hx <;> omega
        simpa using hstep
  · intro x hx
    simp only [List.mem_cons, List.mem_append] at hx
    rcases hx with rfl | h' | h' | h'
    · omega
    · have := hbd' x (by simp [h'])
      omega
    · rcases hmidmem x h' with h'' | h''
      · subst h''
        omega
      · omega
    · have := hbd' x (by simp [h'])
      omega
  · intro x hx
    simp only [List.mem_cons, List.mem_append] at hx ⊢
    rcases hx with rfl | h' | h' | h'
    · exact Or.inl (Or.inl rfl)
    · exact Or.inl (Or.inr (Or.inl h'))
    · rcases hmidmem x h' with h'' | h''
      · subst h''
        exact Or.inl (Or.inr (Or.inr (Or.inl rfl)))
      · exact Or.inr h''
    · exact Or.inl (Or.inr (Or.inr (Or.inr h')))

mutual
theorem wholeGo_wf (cls : String) (fresh j : Nat) :
    ∀ {t t' : DNode} {f' a : Nat},
      wholeGo cls fresh j t = (t', some (f', a)) →
      (idsOf t).Nodup → (∀ x ∈ idsOf t, x < fresh) →
      (idsOf t').Nodup ∧ (∀ x ∈ idsOf t', x < f') ∧ fresh ≤ f' ∧
        (∀ x ∈ idsOf t', x ∈ idsOf t ∨ (fresh ≤ x ∧ x < f'))
  | .text i s, t', f', a => by
    intro h
    simp [wholeGo] at h
  | .elem i k cs, t', f', a => by
    intro h hnd hbd
    by_cases hany : cs.any (fun c => decide (DNode.nid c = j)) = true
    · obtain ⟨before, c, after, hcs, hc, hbf⟩ := any_decomp hany
      subst hcs
      have hb : ∀ b ∈ before, DNode.nid b ≠ j := fun b hbm => by
        simpa using hbf b hbm
      have hc' : DNode.nid c = j := by simpa using hc
      have hsite := wholeAtSite_wf cls fresh j i k before after c hb hc' hnd hbd
      have hred : wholeGo cls fresh j (.elem i k (before ++ c :: after))
          = ((wholeAtSite cls fresh j i k (before ++ c :: after)).1,
             some (wholeAtSite cls fresh j i k (before ++ c :: after)).2) := by
        simp [wholeGo, hany]
      rw [hred] at h
      injection h with h1 h2
      injection h2 with h2
      subst h1
      have hf := congrArg Prod.fst h2
      simp only at hf
      rw [← hf]
      exact ⟨hsite.1, hsite.2.1, hsite.2.2.1, hsite.2.2.2⟩
    · have hany' : cs.any (fun c => decide (DNode.nid c = j)) = false := by
        simpa using hany
      rcases hl : wholeGoList cls fresh j cs with ⟨cs', r⟩
      simp only [wholeGo, hany', Bool.false_eq_true, if_neg, not_false_iff,
        ite_false, if_false, hl, Prod.mk.injEq] at h
      obtain ⟨h1, h2⟩ := h
      have hnd' : (idsOfList cs).Nodup := by
        have := List.nodup_cons.mp (by simpa [idsOf] using hnd)
        exact this.2
      have hi : i ∉ idsOfList cs := by
        have := List.nodup_cons.mp (by simpa [idsOf] using hnd)
        exact this.1
      have hifr : i < fresh := hbd i (by simp [idsOf])
      have hbd' : ∀ x ∈ idsOfList cs, x < fresh := fun x hx =>
        hbd x (by simp [idsOf, hx])
      obtain ⟨n1, n2, n3, n4⟩ := wholeGoList_wf cls fresh j (by rw [hl, h2]) hnd' hbd'
      rw [← h1]
      refine ⟨?_, ?_, n3, ?_⟩
      · refine List.nodup_cons.mpr ⟨?_, n1⟩
        intro hmem
        rcases n4 i hmem with h' | h'
        · exact hi h'
        · omega
      · intro x hx
        rcases List.mem_cons.mp (by simpa [idsOf] using hx) with rfl | h'
        · omega
        · exact n2 x h'
      · intro x hx
        rcases List.mem_cons.mp (by simpa [idsOf] using hx) with rfl | h'
        · exact Or.inl (by simp [idsOf])
        · rcases n4 x h' with h'' | h''
          · exact Or.inl (by simp [idsOf, h''])
          · exact Or.inr h''
theorem wholeGoList_wf (cls : String) (fresh j : Nat) :
    ∀ {cs cs' : List DNode} {f' a : Nat},
      wholeGoList cls fresh j cs = (cs', some (f', a)) →
      (idsOfList cs).Nodup → (∀ x ∈ idsOfList cs, x < fresh) →
      (idsOfList cs').Nodup ∧ (∀ x ∈ idsOfList cs', x < f') ∧ fresh ≤ f' ∧
        (∀ x ∈ idsOfList cs', x ∈ idsOfList cs ∨ (fresh ≤ x ∧ x < f'))
  | [], cs', f', a => by
    intro h
    simp [wholeGoList] at h
  | c :: cs, cs', f', a => by
    intro h hnd hbd
    have hnd1 : (idsOf c).Nodup :=
      (List.nodup_append.mp (by simpa [idsOfList] using hnd)).1
    have hnd2 : (idsOfList cs).Nodup :=
      (List.nodup_append.mp (by simpa [idsOfList] using hnd)).2.1
    have hdisj : ∀ x ∈ idsOf c, x ∉ idsOfList cs := by
      have := (List.nodup_append.mp (by simpa [idsOfList] using hnd)).2.2
      intro x hx hx'
      exact this hx hx'
    have hbd1 : ∀ x ∈ idsOf c, x < fresh := fun x hx =>
      hbd x (by simp [idsOfList, hx])
    have hbd2 : ∀ x ∈ idsOfList cs, x < fresh := fun x hx =>
      hbd x (by simp [idsOfList, hx])
    rcases hw : wholeGo cls fresh j c with ⟨c', r⟩
    cases r with
    | some x0 =>
      rcases x0 with ⟨f2, a2⟩
      simp only [wholeGoList, hw, Prod.mk.injEq, Option.some.injEq] at h
      obtain ⟨h1, h2, h3⟩ := h
      obtain ⟨n1, n2, n3, n4⟩ := wholeGo_wf cls fresh j hw hnd1 hbd1
      rw [← h1, ← h2]
      refine ⟨?_, ?_, n3, ?_⟩
      · simp only [idsOfList]
        refine n1.append hnd2 ?_
        intro x hx hx'
        rcases n4 x hx with h' | h'
        · exact hdisj x h' hx'
        · have := hbd2 x hx'
          omega
      · intro x hx
        rcases List.mem_append.mp (by simpa [idsOfList] using hx) with h' | h'
        · exact n2 x h'
        · have := hbd2 x h'
          omega
      · intro x hx
        rcases List.mem_append.mp (by simpa [idsOfList] using hx) with h' | h'
        · rcases n4 x h' with h'' | h''
          · exact Or.inl (by simp [idsOfList, h''])
          · exact Or.inr h''
        · exact Or.inl (by simp [idsOfList, h'])
    | none =>
      have hcc : c' = c := wholeGo_none cls fresh j hw
      subst hcc
      rcases hl : wholeGoList cls fresh j cs with ⟨cs2, r2⟩
      simp only [wholeGoList, hw, hl, Prod.mk.injEq] at h
      obtain ⟨h1, h2⟩ := h
      obtain ⟨n1, n2, n3, n4⟩ := wholeGoList_wf cls fresh j (by rw [hl, h2]) hnd2 hbd2
      rw [← h1]
      refine ⟨?_, ?_, n3, ?_⟩
      · simp only [idsOfList]
        refine hnd1.append n1 ?_
        intro x hx hx'
        rcases n4 x hx' with h' | h'
        · exact hdisj x hx h'
        · have := hbd1 x hx
          omega
      · intro x hx
        rcases List.mem_append.mp (by simpa [idsOfList] using hx) with h' | h'
        · have := hbd1 x h'
          omega
        · exact n2 x h'
      · intro x hx
        rcases List.mem_append.mp (by simpa [idsOfList] using hx) with h' | h'
        · exact Or.inl (by simp [idsOfList, h'])
        · rcases n4 x h' with h'' | h''
          · exact Or.inl (by simp [idsOfList, h''])
          · exact Or.inr h''
end

theorem applyToWholeNode_wf (cls : String) (t : DNode) (fresh j : Nat)
    (hnd : (idsOf t).Nodup) (hbd : ∀ x ∈ idsOf t, x < fresh) :
    (idsOf (applyToWholeNode cls t fresh j).1).Nodup ∧
    (∀ x ∈ idsOf (applyToWholeNode cls t fresh j).1,
        x < (applyToWholeNode cls t fresh j).2.1) ∧
    fresh ≤ (applyToWholeNode cls t fresh j).2.1 := by
  rcases hw : wholeGo cls fresh j t with ⟨t', r⟩
  cases r with
  | some x0 =>
    rcases x0 with ⟨f2, a2⟩
    obtain ⟨n1, n2, n3, _⟩ := wholeGo_wf cls fresh j hw hnd hbd
    simp [applyToWholeNode, hw]
    exact ⟨n1, n2, n3⟩
  | none =>
    simp only [applyToWholeNode, hw]
    exact ⟨hnd, hbd, le_refl _⟩

mutual
theorem applyGo_wf (cls : String) (fresh j s e : Nat) :
    ∀ {t t' : DNode} {f' : Nat} {a : List Nat},
      applyGo cls fresh j s e t = (t', some (f', a)) →
      (idsOf t).Nodup → (∀ x ∈ idsOf t, x < fresh) →
      (idsOf t').Nodup ∧ (∀ x ∈ idsOf t', x < f') ∧ fresh ≤ f' ∧
        (∀ x ∈ idsOf t', x ∈ idsOf t ∨ (fresh ≤ x ∧ x < f'))
  | .text i v, t', f', a => by
    intro h
    simp [applyGo] at h
  | .elem i k cs, t', f', a => by
    intro h hnd hbd
    rcases hf : cs.find? (fun c => decide (DNode.nid c = j)) with _ | c
    · rcases hl : applyGoList cls fresh j s e cs with ⟨cs', r⟩
      simp only [applyGo, hf, hl, Prod.mk.injEq] at h
      obtain ⟨h1, h2⟩ := h
      have hnd' : (idsOfList cs).Nodup := by
        have := List.nodup_cons.mp (by simpa [idsOf] using hnd)
        exact this.2
      have hi : i ∉ idsOfList cs := by
        have := List.nodup_cons.mp (by simpa [idsOf] using hnd)
        exact this.1
      have hifr : i < fresh := hbd i (by simp [idsOf])
      have hbd' : ∀ x ∈ idsOfList cs, x < fresh := fun x hx =>
        hbd x (by simp [idsOf, hx])
      obtain ⟨n1, n2, n3, n4⟩ := applyGoList_wf cls fresh j s e (by rw [hl, h2]) hnd' hbd'
      rw [← h1]
      refine ⟨?_, ?_, n3, ?_⟩
      · refine List.nodup_cons.mpr ⟨?_, n1⟩
        intro hmem
        rcases n4 i hmem with h' | h'
        · exact hi h'
        · omega
      · intro x hx
        rcases List.mem_cons.mp (by simpa [idsOf] using hx) with rfl | h'
        · omega
        · exact n2 x h'
      · intro x hx
        rcases List.mem_cons.mp (by simpa [idsOf] using hx) with rfl | h'
        · exact Or.inl (by simp [idsOf])
        · rcases n4 x h' with h'' | h''
          · exact Or.inl (by simp [idsOf, h''])
          · exact Or.inr h''
    · obtain ⟨before, after, hcs, hcj, hbf⟩ := find_decomp hf
      subst hcs
      have hb : ∀ b ∈ before, DNode.nid b ≠ j := by
        intro b hbm
        have := hbf b hbm
        simpa using this
      have hc : DNode.nid c = j := by simpa using hcj
      cases c with
      | text ti w =>
        have htij : ti = j := by simpa [DNode.nid] using hc
        subst htij
        by_cases hwhole : s = 0 ∧ e = w.length
        · have hsite := wholeAtSite_wf cls fresh ti i k before after
            (DNode.text ti w) hb rfl hnd hbd
          have hred : applyGo cls fresh ti s e
              (.elem i k (before ++ DNode.text ti w :: after))
              = ((wholeAtSite cls fresh ti i k (before ++ DNode.text ti w :: after)).1,
                 some ((wholeAtSite cls fresh ti i k (before ++ DNode.text ti w :: after)).2.1,
                   [(wholeAtSite cls fresh ti i k (before ++ DNode.text ti w :: after)).2.2])) := by
            simp [applyGo, hf, hwhole]
          rw [hred] at h
          injection h with h1 h2
          injection h2 with h2
          subst h1
          have hff := congrArg Prod.fst h2
          simp only at hff
          rw [← hff]
          exact ⟨hsite.1, hsite.2.1, hsite.2.2.1, hsite.2.2.2⟩
        · have hsite := splitSite_wf cls fresh ti s e i k w before after hb hnd hbd
          have hred : applyGo cls fresh ti s e
              (.elem i k (before ++ DNode.text ti w :: after))
              = (.elem i k (splitChildren cls fresh ti s e
                  (before ++ DNode.text ti w :: after)),
                 some ((if s = 0 then fresh + 2
                        else if e < w.length then fresh + 3 else fresh + 2), [fresh])) := by
            simp [applyGo, hf, hwhole]
          rw [hred] at h
          injection h with h1 h2
          injection h2 with h2
          subst h1
          have hff := congrArg Prod.fst h2
          simp only at hff
          rw [← hff]
          exact ⟨hsite.1, hsite.2.1, hsite.2.2.1, hsite.2.2.2⟩
      | elem ci ck ccs =>
        have hred : applyGo cls fresh j s e (.elem i k (before ++ DNode.elem ci ck ccs :: after))
            = (.elem i k (before ++ DNode.elem ci ck ccs :: after), some (fresh, [])) := by
          simp [applyGo, hf]
        rw [hred] at h
        injection h with h1 h2
        injection h2 with h2
        subst h1
        have hff := congrArg Prod.fst h2
        simp only at hff
        rw [← hff]
        exact ⟨hnd, hbd, le_refl _, fun x hx => Or.inl hx⟩
theorem applyGoList_wf (cls : String) (fresh j s e : Nat) :
    ∀ {cs cs' : List DNode} {f' : Nat} {a : List Nat},
      applyGoList cls fresh j s e cs = (cs', some (f', a)) →
      (idsOfList cs).Nodup → (∀ x ∈ idsOfList cs, x < fresh) →
      (idsOfList cs').Nodup ∧ (∀ x ∈ idsOfList cs', x < f') ∧ fresh ≤ f' ∧
        (∀ x ∈ idsOfList cs', x ∈ idsOfList cs ∨ (fresh ≤ x ∧ x < f'))
  | [], cs', f', a => by
    intro h
    simp [applyGoList] at h
  | c :: cs, cs', f', a => by
    intro h hnd hbd
    have hnd1 : (idsOf c).Nodup :=
      (List.nodup_append.mp (by simpa [idsOfList] using hnd)).1
    have hnd2 : (idsOfList cs).Nodup :=
      (List.nodup_append.mp (by simpa [idsOfList] using hnd)).2.1
    have hdisj : ∀ x ∈ idsOf c, x ∉ idsOfList cs := by
      have := (List.nodup_append.mp (by simpa [idsOfList] using hnd)).2.2
      intro x hx hx'
      exact this hx hx'
    have hbd1 : ∀ x ∈ idsOf c, x < fresh := fun x hx =>
      hbd x (by simp [idsOfList, hx])
    have hbd2 : ∀ x ∈ idsOfList cs, x < fresh := fun x hx =>
      hbd x (by simp [idsOfList, hx])
    rcases hw : applyGo cls fresh j s e c with ⟨c', r⟩
    cases r with
    | some x0 =>
      rcases x0 with ⟨f2, a2⟩
      simp only [applyGoList, hw, Prod.mk.injEq, Option.some.injEq] at h
      obtain ⟨h1, h2, h3⟩ := h
      obtain ⟨n1, n2, n3, n4⟩ := applyGo_wf cls fresh j s e hw hnd1 hbd1
      rw [← h1, ← h2]
      refine ⟨?_, ?_, n3, ?_⟩
      · simp only [idsOfList]
        refine n1.append hnd2 ?_
        intro x hx hx'
        rcases n4 x hx with h' | h'
        · exact hdisj x h' hx'
        · have := hbd2 x hx'
          omega
      · intro x hx
        rcases List.mem_append.mp (by simpa [idsOfList] using hx) with h' | h'
        · exact n2 x h'
        · have := hbd2 x h'
          omega
      · intro x hx
        rcases List.mem_append.mp (by simpa [idsOfList] using hx) with h' | h'
        · rcases n4 x h' with h'' | h''
          · exact Or.inl (by simp [idsOfList, h''])
          · exact Or.inr h''
        · exact Or.inl (by simp [idsOfList, h'])
    | none =>
      have hcc : c' = c := applyGo_none cls fresh j s e hw
      subst hcc
      rcases hl : applyGoList cls fresh j s e cs with ⟨cs2, r2⟩
      simp only [applyGoList, hw, hl, Prod.mk.injEq] at h
      obtain ⟨h1, h2⟩ := h
      obtain ⟨n1, n2, n3, n4⟩ := applyGoList_wf cls fresh j s e (by rw [hl, h2]) hnd2 hbd2
      rw [← h1]
      refine ⟨?_, ?_, n3, ?_⟩
      · simp only [idsOfList]
        refine hnd1.append n1 ?_
        intro x hx hx'
        rcases n4 x hx' with h' | h'
        · exact hdisj x hx h'
        · have := hbd1 x hx
          omega
      · intro x hx
        rcases List.mem_append.mp (by simpa [idsOfList] using hx) with h' | h'
        · have := hbd1 x h'
          omega
        · exact n2 x h'
      · intro x hx
        rcases List.mem_append.mp (by simpa [idsOfList] using hx) with h' | h'
        · exact Or.inl (by simp [idsOfList, h'])
        · rcases n4 x h' with h'' | h''
          · exact Or.inl (by simp [idsOfList, h''])
          · exact Or.inr h''
end

theorem applyToNode_wf (cls : String) (t : DNode) (fresh j s e : Nat)
    (hnd : (idsOf t).Nodup) (hbd : ∀ x ∈ idsOf t, x < fresh) :
    (idsOf (applyToNode cls t fresh j s e).1).Nodup ∧
    (∀ x ∈ idsOf (applyToNode cls t fresh j s e).1,
        x < (applyToNode cls t fresh j s e).2.1) ∧
    fresh ≤ (applyToNode cls t fresh j s e).2.1 := by
  by_cases hse : s = e
  · simp only [applyToNode, hse, if_pos]
    exact ⟨hnd, hbd, le_refl _⟩
  · rcases ha : applyGo cls fresh j s e t with ⟨t', r⟩
    cases r with
    | some x0 =>
      rcases x0 with ⟨f2, a2⟩
      obtain ⟨n1, n2, n3, _⟩ := applyGo_wf cls fresh j s e ha hnd hbd
      simp [applyToNode, hse, ha]
      exact ⟨n1, n2, n3⟩
    | none =>
      simp only [applyToNode, hse, if_neg, not_false_iff, ite_false, if_false, ha]
      exact ⟨hnd, hbd, le_refl _⟩

/-! ## Content preservation and well-formedness through the group loop -/

theorem processMiddles_ok (cls : String) :
    ∀ (ms : List NAO) (t : DNode) (fresh : Nat),
      (idsOf t).Nodup → (∀ x ∈ idsOf t, x < fresh) →
      leafConcat (processMiddles cls t fresh ms).1 = leafConcat t ∧
      (idsOf (processMiddles cls t fresh ms).1).Nodup ∧
      (∀ x ∈ idsOf (processMiddles cls t fresh ms).1,
          x < (processMiddles cls t fresh ms).2.1) ∧
      fresh ≤ (processMiddles cls t fresh ms).2.1
  | [], t, fresh => by
    intro hnd hbd
    exact ⟨rfl, hnd, hbd, le_refl _⟩
  | m :: ms, t, fresh => by
    intro hnd hbd
    by_cases hnl : isNewlineAt t m.node = true
    · simpa [processMiddles, hnl] using processMiddles_ok cls ms t fresh hnd hbd
    · have hnl' : isNewlineAt t m.node = false := by simpa using hnl
      rcases hw : applyToWholeNode cls t fresh m.node with ⟨t1, f1, a1⟩
      have hcon := applyToWholeNode_concat cls t fresh m.node
      rw [hw] at hcon
      have hwf := applyToWholeNode_wf cls t fresh m.node hnd hbd
      rw [hw] at hwf
      obtain ⟨n1, n2, n3⟩ := hwf
      obtain ⟨c2, n4, n5, n6⟩ := processMiddles_ok cls ms t1 f1 n1 n2
      rcases hm : processMiddles cls t1 f1 ms with ⟨t2, f2, a2⟩
      rw [hm] at c2 n4 n5 n6
      simp only [processMiddles, hnl', Bool.false_eq_true, if_neg,
        not_false_iff, ite_false, if_false, hw, hm]
      exact ⟨by rw [c2, hcon], n4, n5, le_trans n3 n6⟩

theorem processMulti_ok (cls : String) (t : DNode) (fresh : Nat) (g : List NAO)
    (hnd : (idsOf t).Nodup) (hbd : ∀ x ∈ idsOf t, x < fresh) :
    leafConcat (processMulti cls t fresh g).1 = leafConcat t ∧
    (idsOf (processMulti cls t fresh g).1).Nodup ∧
    (∀ x ∈ idsOf (processMulti cls t fresh g).1,
        x < (processMulti cls t fresh g).2.1) ∧
    fresh ≤ (processMulti cls t fresh g).2.1 := by
  rcases hgl : g.getLast? with _ | tl
  · have hred : processMulti cls t fresh g = (t, fresh, []) := by
      unfold processMulti
      rw [hgl]
    rw [hred]
    exact ⟨rfl, hnd, hbd, le_refl _⟩
  · have step1 :
        leafConcat (if 0 < tl.offset then
            applyToNode cls t fresh tl.node 0 tl.offset else (t, fresh, [])).1
          = leafConcat t ∧
        (idsOf (if 0 < tl.offset then
            applyToNode cls t fresh tl.node 0 tl.offset else (t, fresh, [])).1).Nodup ∧
        (∀ x ∈ idsOf (if 0 < tl.offset then
            applyToNode cls t fresh tl.node 0 tl.offset else (t, fresh, [])).1,
            x < (if 0 < tl.offset then
              applyToNode cls t fresh tl.node 0 tl.offset else (t, fresh, [])).2.1) ∧
        fresh ≤ (if 0 < tl.offset then
            applyToNode cls t fresh tl.node 0 tl.offset else (t, fresh, [])).2.1 := by
      by_cases htl : 0 < tl.offset
      · rw [if_pos htl]
        have hcon := applyToNode_concat cls t fresh tl.node 0 tl.offset
          (Or.inl (Nat.zero_le _))
        have hwf := applyToNode_wf cls t fresh tl.node 0 tl.offset hnd hbd
        exact ⟨hcon, hwf.1, hwf.2.1, hwf.2.2⟩
      · rw [if_neg htl]
        exact ⟨rfl, hnd, hbd, le_refl _⟩
    rcases hr1 : (if 0 < tl.offset then
        applyToNode cls t fresh tl.node 0 tl.offset else (t, fresh, []))
      with ⟨t1, f1, a1⟩
    rw [hr1] at step1
    obtain ⟨c1, n1, n2, n3⟩ := step1
    obtain ⟨c2, n4, n5, n6⟩ :=
      processMiddles_ok cls ((g.drop 1).dropLast.reverse) t1 f1 n1 n2
    rcases hr2 : processMiddles cls t1 f1 ((g.drop 1).dropLast.reverse)
      with ⟨t2, f2, a2⟩
    rw [hr2] at c2 n4 n5 n6
    have hred : processMulti cls t fresh g
        = ((match g.head? with
            | some hd =>
              match getById t2 hd.node with
              | some (.text _ v) => applyToNode cls t2 f2 hd.node hd.offset v.length
              | _ => (t2, f2, [])
            | none => (t2, f2, [])).1,
           (match g.head? with
            | some hd =>
              match getById t2 hd.node with
              | some (.text _ v) => applyToNode cls t2 f2 hd.node hd.offset v.length
              | _ => (t2, f2, [])
            | none => (t2, f2, [])).2.1,
           a1 ++ a2 ++ (match g.head? with
            | some hd =>
              match getById t2 hd.node with
              | some (.text _ v) => applyToNode cls t2 f2 hd.node hd.offset v.length
              | _ => (t2, f2, [])
            | none => (t2, f2, [])).2.2) := by
      unfold processMulti
      rw [hgl]
      dsimp only
      rw [hr1]
      dsimp only
      rw [hr2]
    rw [hred]
    rcases hh : g.head? with _ | hd
    · simp only [hh]
      exact ⟨c2.trans c1, n4, n5, le_trans n3 n6⟩
    · rcases hg2 : getById t2 hd.node with _ | n0
      · simp only [hh, hg2]
        exact ⟨c2.trans c1, n4, n5, le_trans n3 n6⟩
      · cases n0 with
        | text a0 v =>
          have ha : a0 = hd.node := by
            have := getById_nid t2 hd.node _ hg2
            simpa [DNode.nid] using this
          subst ha
          have hyp : hd.offset ≤ v.length ∨
              ∀ p ∈ walkTexts t2, p.1 = hd.node → p.2.length ≤ v.length := by
            refine Or.inr ?_
            intro p hp hpj
            have := walk_text_unique t2 n4 hg2 p hp hpj
            rw [this]
          have hcon := applyToNode_concat cls t2 f2 hd.node hd.offset v.length hyp
          have hwf := applyToNode_wf cls t2 f2 hd.node hd.offset v.length n4 n5
          simp only [hh, hg2]
          exact ⟨hcon.trans (c2.trans c1), hwf.1, hwf.2.1,
            le_trans n3 (le_trans n6 hwf.2.2)⟩
        | elem a0 k0 cs0 =>
          simp only [hh, hg2]
          exact ⟨c2.trans c1, n4, n5, le_trans n3 n6⟩

theorem processGroup_ok (cls : String) (t : DNode) (fresh : Nat) (g : List NAO)
    (hp : ∀ x y : NAO, g = [x, y] → x.node = y.node → x.offset ≤ y.offset)
    (hnd : (idsOf t).Nodup) (hbd : ∀ x ∈ idsOf t, x < fresh) :
    leafConcat (processGroup cls t fresh g).1 = leafConcat t ∧
    (idsOf (processGroup cls t fresh g).1).Nodup ∧
    (∀ x ∈ idsOf (processGroup cls t fresh g).1,
        x < (processGroup cls t fresh g).2.1) ∧
    fresh ≤ (processGroup cls t fresh g).2.1 := by
  have main :
      leafConcat (processGroupRaw cls t fresh g).1 = leafConcat t ∧
      (idsOf (processGroupRaw cls t fresh g).1).Nodup ∧
      (∀ x ∈ idsOf (processGroupRaw cls t fresh g).1,
          x < (processGroupRaw cls t fresh g).2.1) ∧
      fresh ≤ (processGroupRaw cls t fresh g).2.1 := by
    match g with
    | [] => exact ⟨rfl, hnd, hbd, le_refl _⟩
    | [a] => exact ⟨rfl, hnd, hbd, le_refl _⟩
    | [a, b] =>
      by_cases hab : a.node = b.node
      · have hred : processGroupRaw cls t fresh [a, b]
            = applyToNode cls t fresh a.node a.offset b.offset := by
          show (if a.node = b.node then
              applyToNode cls t fresh a.node a.offset b.offset
            else processMulti cls t fresh [a, b]) = _
          rw [if_pos hab]
        rw [hred]
        have hoff : a.offset ≤ b.offset := hp a b rfl hab
        have hcon := applyToNode_concat cls t fresh a.node a.offset b.offset
          (Or.inl hoff)
        have hwf := applyToNode_wf cls t fresh a.node a.offset b.offset hnd hbd
        exact ⟨hcon, hwf.1, hwf.2.1, hwf.2.2⟩
      · have hred : processGroupRaw cls t fresh [a, b]
            = processMulti cls t fresh [a, b] := by
          show (if a.node = b.node then
              applyToNode cls t fresh a.node a.offset b.offset
            else processMulti cls t fresh [a, b]) = _
          rw [if_neg hab]
        rw [hred]
        exact processMulti_ok cls t fresh [a, b] hnd hbd
    | a :: b :: c0 :: gs =>
      exact processMulti_ok cls t fresh (a :: b :: c0 :: gs) hnd hbd
  rcases hr : processGroupRaw cls t fresh g with ⟨t1, f1, a1⟩
  rw [hr] at main
  have hred : processGroup cls t fresh g = (t1, f1, a1.reverse) := by
    unfold processGroup
    rw [hr]
  rw [hred]
  exact main

theorem applyGroups_ok (cls : String) :
    ∀ (gs : List (List NAO)) (t : DNode) (fresh : Nat),
      (∀ g ∈ gs, ∀ x y : NAO, g = [x, y] → x.node = y.node → x.offset ≤ y.offset) →
      (idsOf t).Nodup → (∀ x ∈ idsOf t, x < fresh) →
      leafConcat (applyGroups cls t fresh gs).1 = leafConcat t ∧
      (idsOf (applyGroups cls t fresh gs).1).Nodup ∧
      (∀ x ∈ idsOf (applyGroups cls t fresh gs).1,
          x < (applyGroups cls t fresh gs).2.1) ∧
      fresh ≤ (applyGroups cls t fresh gs).2.1
  | [], t, fresh => by
    intro _ hnd hbd
    exact ⟨rfl, hnd, hbd, le_refl _⟩
  | g :: gs, t, fresh => by
    intro hps hnd hbd
    obtain ⟨c1, n1, n2, n3⟩ := applyGroups_ok cls gs t fresh
      (fun g' hg' => hps g' (by simp [hg'])) hnd hbd
    rcases hr : applyGroups cls t fresh gs with ⟨t1, f1, as1⟩
    rw [hr] at c1 n1 n2 n3
    obtain ⟨c2, n4, n5, n6⟩ := processGroup_ok cls t1 f1 g
      (hps g (by simp)) n1 n2
    rcases hr2 : processGroup cls t1 f1 g with ⟨t2, f2, a2⟩
    rw [hr2] at c2 n4 n5 n6
    have hred : applyGroups cls t fresh (g :: gs) = (t2, f2, a2 :: as1) := by
      unfold applyGroups
      rw [hr]
      dsimp only
      rw [hr2]
    rw [hred]
    exact ⟨by rw [c2, c1], n4, n5, le_trans n3 n6⟩

/-! ## The range grouper only produces offset-ordered single-node pairs -/

theorem append_singleton_eq_pair {l : List NAO} {a x y : NAO}
    (h : l ++ [a] = [x, y]) : l = [x] ∧ a = y := by
  rcases l with _ | ⟨b, l2⟩
  · simp at h
  · rcases l2 with _ | ⟨c, l3⟩
    · simpa using h
    · exfalso
      have := congrArg List.length h
      simp at this

theorem innerLoop_ok (nid wps len : Nat) :
    ∀ (positions : List Nat) (position : Nat) (fEnd : Bool) (cur : List NAO)
      (done : List (List NAO)),
      (fEnd = false → cur = [] ∧
        ∃ rest : List (Nat × Nat), position :: positions = flattenRanges rest ∧
          ∀ r ∈ rest, r.1 ≤ r.2) →
      (fEnd = true →
        (∃ er rest, position :: positions = er :: flattenRanges rest ∧
          ∀ r ∈ rest, r.1 ≤ r.2) ∧
        (∀ x : NAO, cur = [x] → x.node = nid → x.offset ≤ position - wps)) →
      (∀ g ∈ done, ∀ x y : NAO, g = [x, y] → x.node = y.node →
        x.offset ≤ y.offset) →
      (match innerLoop nid wps len position positions fEnd cur done with
       | .ret groups => ∀ g ∈ groups, ∀ x y : NAO, g = [x, y] →
          x.node = y.node → x.offset ≤ y.offset
       | .next p' ps' fEnd' cur' done' =>
          (∀ g ∈ done', ∀ x y : NAO, g = [x, y] → x.node = y.node →
            x.offset ≤ y.offset) ∧
          (fEnd' = false → cur' = [] ∧
            ∃ rest, p' :: ps' = flattenRanges rest ∧ ∀ r ∈ rest, r.1 ≤ r.2) ∧
          (fEnd' = true →
            (∃ er rest, p' :: ps' = er :: flattenRanges rest ∧
              ∀ r ∈ rest, r.1 ≤ r.2) ∧
            (∀ x : NAO, cur' = [x] → x.node = nid → x.offset ≤ p' - wps)) ∧
          (∀ x ∈ cur', x ∈ cur ∨ (x.node = nid ∧ x.offset ≤ len)))
  | positions, position, fEnd, cur, done => by
    intro hfalse htrue hdone
    by_cases hin : wps ≤ position ∧ position < wps + len
    · have hPclose : ∀ x y : NAO,
          cur ++ [⟨nid, position - wps⟩] = [x, y] → x.node = y.node →
          x.offset ≤ y.offset := by
        intro x y hxy hnode
        obtain ⟨hcur, hy⟩ := append_singleton_eq_pair hxy
        cases fEnd with
        | false =>
          exfalso
          have := (hfalse rfl).1
          rw [this] at hcur
          simp at hcur
        | true =>
          have hynode : y.node = nid := by rw [← hy]
          have hyoff : y.offset = position - wps := by rw [← hy]
          have := (htrue rfl).2 x hcur (by rw [hnode, hynode])
          rw [hyoff]
          exact this
      cases fEnd with
      | true =>
        rcases positions with _ | ⟨p, ps⟩
        · have hred : innerLoop nid wps len position [] true cur done
              = .ret (done ++ [cur ++ [⟨nid, position - wps⟩], []]) := by
            unfold innerLoop
            rw [if_pos hin]
            rfl
          rw [hred]
          intro g hg
          simp only [List.mem_append, List.mem_cons, List.mem_singleton,
            List.not_mem_nil, or_false] at hg
          rcases hg with hg | hg | hg
          · exact hdone g hg
          · intro x y hxy
            rw [hg] at hxy
            exact hPclose x y hxy
          · intro x y hxy
            rw [hg] at hxy
            simp at hxy
        · have hred : innerLoop nid wps len position (p :: ps) true cur done
              = innerLoop nid wps len p ps false []
                  (done ++ [cur ++ [⟨nid, position - wps⟩]]) := by
            conv_lhs => unfold innerLoop
            rw [if_pos hin]
            rfl
          rw [hred]
          have hrec := innerLoop_ok nid wps len ps p false []
            (done ++ [cur ++ [⟨nid, position - wps⟩]])
            (by
              refine fun _ => ⟨rfl, ?_⟩
              obtain ⟨⟨er, rest, heq, hrest⟩, _⟩ := htrue rfl
              have htl2 : p :: ps = flattenRanges rest := by
                have := congrArg List.tail heq
                simpa using this
              exact ⟨rest, htl2, hrest⟩)
            (by intro h; cases h)
            (by
              intro g hg
              rcases List.mem_append.mp hg with hg | hg
              · exact hdone g hg
              · have hgc : g = cur ++ [⟨nid, position - wps⟩] := by simpa using hg
                intro x y hxy
                rw [hgc] at hxy
                exact hPclose x y hxy)
          cases hi : innerLoop nid wps len p ps false []
              (done ++ [cur ++ [⟨nid, position - wps⟩]]) with
          | ret groups =>
            rw [hi] at hrec
            exact hrec
          | next p2 ps2 f2 cur2 done2 =>
            rw [hi] at hrec
            refine ⟨hrec.1, hrec.2.1, hrec.2.2.1, ?_⟩
            intro x hx
            rcases hrec.2.2.2 x hx with hx' | hx'
            · simp at hx'
            · exact Or.inr hx'
      | false =>
        have hc0 : cur = [] := (hfalse rfl).1
        rcases positions with _ | ⟨p, ps⟩
        · have hred : innerLoop nid wps len position [] false cur done
              = .ret (done ++ [cur ++ [⟨nid, position - wps⟩]]) := by
            unfold innerLoop
            rw [if_pos hin]
            rfl
          rw [hred]
          intro g hg
          rcases List.mem_append.mp hg with hg | hg
          · exact hdone g hg
          · have hgc : g = cur ++ [⟨nid, position - wps⟩] := by simpa using hg
            intro x y hxy
            rw [hgc, hc0] at hxy
            simp at hxy
        · obtain ⟨rest, heq, hrest⟩ := (hfalse rfl).2
          rcases rest with _ | ⟨⟨ra, rb⟩, rest2⟩
          · simp [flattenRanges] at heq
          · simp only [flattenRanges, List.cons.injEq] at heq
            obtain ⟨hpa, hpb, hps⟩ := heq
            have hred : innerLoop nid wps len position (p :: ps) false cur done
                = innerLoop nid wps len p ps true
                    (cur ++ [⟨nid, position - wps⟩]) done := by
              conv_lhs => unfold innerLoop
              rw [if_pos hin]
              rfl
            rw [hred]
            have hrec := innerLoop_ok nid wps len ps p true
              (cur ++ [⟨nid, position - wps⟩]) done
              (by intro h; cases h)
              (by
                refine fun _ => ⟨⟨rb, rest2, ?_, ?_⟩, ?_⟩
                · rw [← hpb, ← hps]
                · intro r hr
                  exact hrest r (by simp [hr])
                · intro x hx hxnode
                  rw [hc0] at hx
                  simp only [List.nil_append] at hx
                  have hxe : (⟨nid, position - wps⟩ : NAO) = x := by
                    simpa using hx
                  rw [← hxe]
                  have hab : ra ≤ rb := hrest ⟨ra, rb⟩ (by simp)
                  have hpz : position ≤ p := by
                    rw [hpa, hpb]
                    exact hab
                  exact Nat.sub_le_sub_right hpz wps)
              hdone
            cases hi : innerLoop nid wps len p ps true
                (cur ++ [⟨nid, position - wps⟩]) done with
            | ret groups =>
              rw [hi] at hrec
              exact hrec
            | next p2 ps2 f2 cur2 done2 =>
              rw [hi] at hrec
              refine ⟨hrec.1, hrec.2.1, hrec.2.2.1, ?_⟩
              intro x hx
              rcases hrec.2.2.2 x hx with hx' | hx'
              · rcases List.mem_append.mp hx' with hx2 | hx2
                · exact Or.inl hx2
                · have hxe : x = (⟨nid, position - wps⟩ : NAO) := by
                    simpa using hx2
                  refine Or.inr ⟨by rw [hxe], ?_⟩
                  rw [hxe]
                  simp only
                  omega
              · exact Or.inr hx'
    · have hred : innerLoop nid wps len position positions fEnd cur done
          = .next position positions fEnd cur done := by
        unfold innerLoop
        rw [if_neg hin]
      rw [hred]
      exact ⟨hdone, hfalse, htrue, fun x hx => Or.inl hx⟩

theorem resolveLeaves_ok :
    ∀ (leaves : List (Nat × List Char)) (wps position : Nat)
      (positions : List Nat) (fEnd : Bool) (cur : List NAO)
      (done : List (List NAO)) (last : Nat × Nat),
      (leaves.map Prod.fst).Nodup →
      (fEnd = false → cur = [] ∧
        ∃ rest, position :: positions = flattenRanges rest ∧
          ∀ r ∈ rest, r.1 ≤ r.2) →
      (fEnd = true →
        ∃ er rest, position :: positions = er :: flattenRanges rest ∧
          ∀ r ∈ rest, r.1 ≤ r.2) →
      (∀ g ∈ done, ∀ x y : NAO, g = [x, y] → x.node = y.node →
        x.offset ≤ y.offset) →
      (∀ x ∈ cur, x.node ∉ leaves.map Prod.fst) →
      (∀ x ∈ cur, x.node = last.1 → x.offset ≤ last.2) →
      ∀ g ∈ resolveLeaves leaves wps position positions fEnd cur done last,
        ∀ x y : NAO, g = [x, y] → x.node = y.node → x.offset ≤ y.offset
  | [], wps, position, positions, fEnd, cur, done, last => by
    intro _ _ _ hdone _ hlast g hg
    simp only [resolveLeaves] at hg
    rcases List.mem_append.mp hg with hg | hg
    · exact hdone g hg
    · have hgc : g = cur ++ [⟨last.1, last.2⟩] := by simpa using hg
      intro x y hxy hnode
      rw [hgc] at hxy
      obtain ⟨hcur, hy⟩ := append_singleton_eq_pair hxy
      have hynode : y.node = last.1 := by rw [← hy]
      have hyoff : y.offset = last.2 := by rw [← hy]
      rw [hyoff]
      exact hlast x (by rw [hcur]; simp) (by rw [hnode, hynode])
  | (nid, v) :: rest, wps, position, positions, fEnd, cur, done, last => by
    intro hndl hfalse htrue hdone hnotin hlast
    have hcons : (nid :: rest.map Prod.fst).Nodup := by
      have h := hndl
      rw [List.map_cons] at h
      exact h
    have hndrest : (rest.map Prod.fst).Nodup := (List.nodup_cons.mp hcons).2
    have hnidrest : nid ∉ rest.map Prod.fst := (List.nodup_cons.mp hcons).1
    simp only [resolveLeaves]
    have hcur1 :
        ∀ x ∈ (if fEnd ∧ wps + v.length ≤ position then
            cur ++ [⟨nid, 0⟩] else cur),
          x ∈ cur ∨ x = (⟨nid, 0⟩ : NAO) := by
      intro x hx
      by_cases hc : fEnd ∧ wps + v.length ≤ position
      · rw [if_pos hc] at hx
        rcases List.mem_append.mp hx with h | h
        · exact Or.inl h
        · exact Or.inr (by simpa using h)
      · rw [if_neg hc] at hx
        exact Or.inl hx
    have hcur1end : fEnd = true →
        ∀ x : NAO, (if fEnd ∧ wps + v.length ≤ position then
            cur ++ [⟨nid, 0⟩] else cur) = [x] →
          x.node = nid → x.offset ≤ position - wps := by
      intro hf x hx hxnode
      by_cases hc : fEnd ∧ wps + v.length ≤ position
      · rw [if_pos hc] at hx
        have hce : cur = [] := by
          have hlen := congrArg List.length hx
          simp only [List.length_append, List.length_cons, List.length_nil,
            List.length_singleton] at hlen
          exact List.eq_nil_of_length_eq_zero (by omega)
        rw [hce] at hx
        simp only [List.nil_append, List.cons.injEq, and_true] at hx
        rw [← hx]
        exact Nat.zero_le _
      · rw [if_neg hc] at hx
        exfalso
        have hxc : x ∈ cur := by rw [hx]; simp
        have := hnotin x hxc
        exact this (by rw [hxnode]; simp)
    have hcur1false : fEnd = false →
        (if fEnd ∧ wps + v.length ≤ position then cur ++ [⟨nid, 0⟩] else cur)
          = [] := by
      intro hf
      rw [hf]
      simp only [Bool.false_eq_true, false_and, if_neg, not_false_iff,
        ite_false, if_false]
      exact (hfalse hf).1
    have hrec := innerLoop_ok nid wps v.length positions position fEnd
      (if fEnd ∧ wps + v.length ≤ position then cur ++ [⟨nid, 0⟩] else cur) done
      (by
        intro hf
        exact ⟨hcur1false hf, (hfalse hf).2⟩)
      (by
        intro hf
        exact ⟨htrue hf, hcur1end hf⟩)
      hdone
    cases hi : innerLoop nid wps v.length position positions fEnd
        (if fEnd ∧ wps + v.length ≤ position then cur ++ [⟨nid, 0⟩] else cur)
        done with
    | ret groups =>
      rw [hi] at hrec
      exact hrec
    | next p2 ps2 f2 cur2 done2 =>
      rw [hi] at hrec
      refine resolveLeaves_ok rest (wps + v.length) p2 ps2 f2 cur2 done2
        (nid, v.length) hndrest hrec.2.1 (fun hf => (hrec.2.2.1 hf).1)
        hrec.1 ?_ ?_
      · intro x hx
        rcases hrec.2.2.2 x hx with hx' | hx'
        · rcases hcur1 x hx' with h | h
          · intro hmem
            exact hnotin x h (by simp [hmem])
          · intro hmem
            rw [h] at hmem
            exact hnidrest (by simpa using hmem)
        · intro hmem
          rw [hx'.1] at hmem
          exact hnidrest (by simpa using hmem)
      · intro x hx hxnode
        rcases hrec.2.2.2 x hx with hx' | hx'
        · rcases hcur1 x hx' with h | h
          · exfalso
            exact hnotin x h (by rw [hxnode]; simp)
          · rw [h]
            exact Nat.zero_le _
        · exact hx'.2

theorem findGroups_pairs_sorted (t : DNode) (rs : List (Nat × Nat))
    (hnd : ((rootTexts t).map Prod.fst).Nodup)
    (hr : ∀ r ∈ rs, r.1 ≤ r.2) :
    ∀ g ∈ findNodeAndOffsetGroups t rs,
      ∀ x y : NAO, g = [x, y] → x.node = y.node → x.offset ≤ y.offset := by
  rw [findNodeAndOffsetGroups]
  rcases hfl : flattenRanges rs with _ | ⟨p, ps⟩
  · intro g hg
    simp at hg
  · exact resolveLeaves_ok (rootTexts t) 0 p ps false [] []
      (DNode.nid t, DNode.valueLen t) hnd
      (fun _ => ⟨rfl, ⟨rs, hfl.symm, hr⟩⟩)
      (by intro h; cases h)
      (by intro g hg; simp at hg)
      (by intro x hx; simp at hx)
      (by intro x hx; simp at hx)

/-! ## Group counting for the resolver -/

theorem lastOfWalk_cons (nid : Nat) (v : List Char)
    (rest : List (Nat × List Char)) (last : Nat × Nat) :
    lastOfWalk ((nid, v) :: rest) last = lastOfWalk rest (nid, v.length) := by
  rcases rest with _ | ⟨p, rest2⟩
  · rfl
  · rcases hl : (p :: rest2).getLast? with _ | ⟨i, w⟩
    · exfalso
      have h2 := @List.getLast?_isSome (Nat × List Char) (p :: rest2)
      rw [hl] at h2
      simp at h2
    · simp [lastOfWalk, List.getLast?_cons_cons, hl]

/-- When every remaining pending position lies at or beyond the text spanned
by the remaining leaves, the walk consumes nothing, visits every leaf, and
the base case appends one single clamp entry for the whole pending list. -/
theorem resolveLeaves_skip_all :
    ∀ (leaves : List (Nat × List Char)) (wps s : Nat) (positions : List Nat)
      (cur : List NAO) (done : List (List NAO)) (last : Nat × Nat),
      wps + sumLens leaves ≤ s →
      resolveLeaves leaves wps s positions false cur done last
        = done ++ [cur ++ [⟨(lastOfWalk leaves last).1, (lastOfWalk leaves last).2⟩]]
  | [], wps, s, positions, cur, done, last => by
    intro h
    simp [resolveLeaves, lastOfWalk]
  | (nid, v) :: rest, wps, s, positions, cur, done, last => by
    intro h
    have hs : wps + v.length ≤ s := by
      simp only [sumLens, List.map_cons, List.sum_cons] at h
      omega
    have hnin : ¬(wps ≤ s ∧ s < wps + v.length) := by omega
    have hred : innerLoop nid wps v.length s positions false cur done
        = .next s positions false cur done := by
      unfold innerLoop
      rw [if_neg hnin]
    simp only [resolveLeaves, Bool.false_eq_true, false_and, if_false, hred]
    have hrest : (wps + v.length) + sumLens rest ≤ s := by
      simp only [sumLens, List.map_cons, List.sum_cons] at h
      simp only [sumLens]
      omega
    rw [resolveLeaves_skip_all rest (wps + v.length) s positions cur done
      (nid, v.length) hrest, lastOfWalk_cons]

/-- C5 (amended): when a range lies entirely at or beyond the total text
length, the walk ends with both its target offsets unconsumed; the resolver
then closes the current group with a single clamp entry
`(lastVisitedLeaf, lastVisitedLeaf.payloadLength)` — an exclusive
one-past-the-end local offset — for the first pending offset, and drops the
remaining pending offsets rather than resolving each of them; no error is
ever raised (the resolver is a total function). -/
theorem c5_clamp_tail (t : DNode) (s e : Nat)
    (hs : sumLens (rootTexts t) ≤ s) (hse : s ≤ e) :
    findNodeAndOffsetGroups t [(s, e)]
      = [[⟨(lastLeafInfo t).1, (lastLeafInfo t).2⟩]] := by
  have hfg : findNodeAndOffsetGroups t [(s, e)]
      = resolveLeaves (rootTexts t) 0 s [e] false [] []
          (DNode.nid t, DNode.valueLen t) := rfl
  have hlw : lastOfWalk (rootTexts t) (DNode.nid t, DNode.valueLen t)
      = lastLeafInfo t := by
    rcases hl : (rootTexts t).getLast? with _ | ⟨i, v⟩
    · simp [lastLeafInfo, lastOfWalk, hl]
    · simp [lastLeafInfo, lastOfWalk, hl]
  rw [hfg, resolveLeaves_skip_all (rootTexts t) 0 s [e] [] []
    (DNode.nid t, DNode.valueLen t) (by omega), hlw]
  simp

/-- C5 witness: on a two-character one-leaf tree, the out-of-bounds range
(5, 6) resolves to the single clamped entry at the last leaf's length. -/
theorem c5_clamp_tail_witness :
    findNodeAndOffsetGroups (DNode.elem 0 [] [DNode.text 1 "ab".toList])
        [(5, 6)]
      = [[⟨1, 2⟩]] := by
  have h := c5_clamp_tail (DNode.elem 0 [] [DNode.text 1 "ab".toList]) 5 6
    (by decide) (by decide)
  exact h.trans (by decide)

/-! ## Adjacent-text bookkeeping -/

theorem adjOkList_cons (c : DNode) (cs : List DNode) :
    adjOkList (c :: cs) = true ↔
      noAdjTexts c = true ∧ adjOkList cs = true ∧ adjSeam [c] cs = true := by
  rcases cs with _ | ⟨c2, cs2⟩
  · simp [adjOkList, adjSeam]
  · simp only [adjOkList, adjSeam, List.getLast?_singleton, List.head?_cons,
      Bool.and_eq_true, Bool.not_eq_true']
    constructor
    · rintro ⟨⟨h1, h2⟩, h3⟩
      exact ⟨h2, h3, by simp [h1]⟩
    · rintro ⟨h2, h3, h1⟩
      refine ⟨⟨?_, h2⟩, h3⟩
      simpa using h1

theorem adjSeam_empty_left (ys : List DNode) : adjSeam [] ys = true := by
  simp [adjSeam]

theorem adjSeam_empty_right (xs : List DNode) : adjSeam xs [] = true := by
  rcases hl : xs.getLast? with _ | a <;> simp [adjSeam, hl]

theorem adjSeam_head_congr (xs ys ys2 : List DNode)
    (h : ys.head?.map DNode.isText = ys2.head?.map DNode.isText) :
    adjSeam xs ys = adjSeam xs ys2 := by
  rcases h1 : ys.head? with _ | b
  · rcases h2 : ys2.head? with _ | b2
    · rcases hl : xs.getLast? with _ | a <;> simp [adjSeam, hl, h1, h2]
    · rw [h1, h2] at h
      exact Option.noConfusion h
  · rcases h2 : ys2.head? with _ | b2
    · rw [h1, h2] at h
      exact Option.noConfusion h
    · rw [h1, h2] at h
      have hb : DNode.isText b = DNode.isText b2 := by
        injection h
      rcases hl : xs.getLast? with _ | a <;> simp [adjSeam, hl, h1, h2, hb]

theorem adjSeam_last_congr (xs xs2 ys : List DNode)
    (h : xs.getLast?.map DNode.isText = xs2.getLast?.map DNode.isText) :
    adjSeam xs ys = adjSeam xs2 ys := by
  rcases h1 : xs.getLast? with _ | a
  · rcases h2 : xs2.getLast? with _ | a2
    · simp [adjSeam, h1, h2]
    · rw [h1, h2] at h
      exact Option.noConfusion h
  · rcases h2 : xs2.getLast? with _ | a2
    · rw [h1, h2] at h
      exact Option.noConfusion h
    · rw [h1, h2] at h
      have ha : DNode.isText a = DNode.isText a2 := by
        injection h
      rcases hh : ys.head? with _ | b <;> simp [adjSeam, h1, h2, hh, ha]

theorem adjSeam_of_head_nonText (xs : List DNode) {ys : List DNode} {b : DNode}
    (hh : ys.head? = some b) (hb : DNode.isText b = false) :
    adjSeam xs ys = true := by
  rcases hl : xs.getLast? with _ | a <;> simp [adjSeam, hl, hh, hb]

theorem adjSeam_of_last_nonText {xs : List DNode} (ys : List DNode) {a : DNode}
    (hl : xs.getLast? = some a) (ha : DNode.isText a = false) :
    adjSeam xs ys = true := by
  rcases hh : ys.head? with _ | b <;> simp [adjSeam, hl, hh, ha]

theorem adjSeam_break {xs ys : List DNode} {a b : DNode}
    (hl : xs.getLast? = some a) (hh : ys.head? = some b)
    (hs : adjSeam xs ys = true) (hb : DNode.isText b = true) :
    DNode.isText a = false := by
  simp only [adjSeam, hl, hh, Bool.not_eq_true', Bool.and_eq_false_iff] at hs
  rcases hs with h | h
  · exact h
  · rw [hb] at h
    cases h

theorem adjOkList_append (xs : List DNode) :
    ∀ ys : List DNode,
      adjOkList (xs ++ ys) = true ↔
        adjOkList xs = true ∧ adjOkList ys = true ∧ adjSeam xs ys = true := by
  induction xs with
  | nil =>
    intro ys
    simp [adjOkList, adjSeam_empty_left]
  | cons c xs ih =>
    intro ys
    rw [List.cons_append, adjOkList_cons, ih ys, adjOkList_cons]
    rcases xs with _ | ⟨x, xs2⟩
    · have h1 : adjOkList ([] : List DNode) = true := rfl
      have h2 : adjSeam ([] : List DNode) ys = true := adjSeam_empty_left ys
      have h3 : adjSeam [c] ([] : List DNode) = true := adjSeam_empty_right [c]
      simp only [List.nil_append, h1, h2, h3, eq_self_iff_true, true_and,
        and_true]
    · have hseam1 : adjSeam [c] ((x :: xs2) ++ ys) = adjSeam [c] (x :: xs2) := by
        apply adjSeam_head_congr
        simp
      have hseam2 : adjSeam (c :: x :: xs2) ys = adjSeam (x :: xs2) ys := by
        apply adjSeam_last_congr
        simp
      rw [hseam1, hseam2]
      tauto

theorem splitChildren_adj_site (cls : String) (fresh j s e : Nat)
    (v : List Char) (before after : List DNode)
    (hb : ∀ b ∈ before, DNode.nid b ≠ j)
    (hadj : adjOkList (before ++ DNode.text j v :: after) = true) :
    adjOkList (splitChildren cls fresh j s e (before ++ DNode.text j v :: after))
      = true := by
  obtain ⟨h0, hy, hseam⟩ := (adjOkList_append before _).mp hadj
  obtain ⟨_, hafter, hsA⟩ := (adjOkList_cons _ _).mp hy
  rw [splitChildren_splice cls fresh j s e v before after hb]
  by_cases hs0 : s = 0
  · rw [if_pos hs0]
    refine (adjOkList_append before _).mpr ⟨h0, ?_, ?_⟩
    · refine (adjOkList_cons _ _).mpr ⟨rfl, ?_, ?_⟩
      · refine (adjOkList_cons _ _).mpr ⟨rfl, hafter, ?_⟩
        rw [adjSeam_last_congr _ [DNode.text j v] after (by simp [DNode.isText])]
        exact hsA
      · exact adjSeam_of_last_nonText _ rfl rfl
    · exact adjSeam_of_head_nonText _ rfl rfl
  · rw [if_neg hs0]
    refine (adjOkList_append before _).mpr ⟨h0, ?_, ?_⟩
    · refine (adjOkList_cons _ _).mpr ⟨rfl, ?_, ?_⟩
      · refine (adjOkList_cons _ _).mpr ⟨rfl, ?_, ?_⟩
        · by_cases hel : e < v.length
          · rw [if_pos hel]
            refine (adjOkList_append _ after).mpr ⟨rfl, hafter, ?_⟩
            rw [adjSeam_last_congr _ [DNode.text j v] after (by simp [DNode.isText])]
            exact hsA
          · rw [if_neg hel]
            simpa using hafter
        · exact adjSeam_of_last_nonText _ rfl rfl
      · exact adjSeam_of_head_nonText _ rfl rfl
    · rw [adjSeam_head_congr before _ (DNode.text j v :: after) (by simp [DNode.isText])]
      exact hseam

theorem wholeAtSite_adj (cls : String) (fresh j i : Nat) (k : List String)
    (before after : List DNode) (c : DNode)
    (hb : ∀ b ∈ before, DNode.nid b ≠ j) (hc : DNode.nid c = j)
    (hadj : adjOkList (before ++ c :: after) = true) :
    noAdjTexts (wholeAtSite cls fresh j i k (before ++ c :: after)).1 = true := by
  obtain ⟨h0, hy, hseam⟩ := (adjOkList_append before _).mp hadj
  obtain ⟨hnc, hafter, hsA⟩ := (adjOkList_cons _ _).mp hy
  by_cases h1 : (before ++ c :: after).length = 1
  · simp only [wholeAtSite, h1, if_pos]
    exact hadj
  · have h1x : ¬(before.length + (after.length + 1) = 1) := by simpa using h1
    simp only [wholeAtSite, List.length_append, List.length_cons, h1x,
      if_false, ite_false, if_neg, not_false_iff]
    show adjOkList (wrapChild cls fresh j (before ++ c :: after)) = true
    rw [wrapChild_splice cls fresh j before after c hb hc]
    refine (adjOkList_append before _).mpr ⟨h0, ?_, ?_⟩
    · refine (adjOkList_cons _ _).mpr ⟨?_, hafter, ?_⟩
      · show adjOkList [c] = true
        simpa [adjOkList] using hnc
      · exact adjSeam_of_last_nonText _ rfl rfl
    · exact adjSeam_of_head_nonText _ rfl rfl

mutual
theorem wholeGo_adj (cls : String) (fresh j : Nat) :
    ∀ t : DNode,
      (noAdjTexts t = true → noAdjTexts (wholeGo cls fresh j t).1 = true) ∧
      DNode.isText (wholeGo cls fresh j t).1 = DNode.isText t
  | .text i s => by simp [wholeGo]
  | .elem i k cs => by
    by_cases hany : cs.any (fun c => decide (DNode.nid c = j)) = true
    · obtain ⟨before, c, after, hcs, hc, hbf⟩ := any_decomp hany
      subst hcs
      constructor
      · intro hadj
        have hsite := wholeAtSite_adj cls fresh j i k before after c
          (by intro b hbm; have := hbf b hbm; simpa using this)
          (by simpa using hc) (by simpa [noAdjTexts] using hadj)
        simp only [wholeGo, hany, if_pos]
        exact hsite
      · simp only [wholeGo, hany, if_pos]
        unfold wholeAtSite
        by_cases h1 : before.length + (after.length + 1) = 1 <;>
          simp [h1, DNode.isText]
    · have hany2 : cs.any (fun c => decide (DNode.nid c = j)) = false := by
        simpa using hany
      have hl := wholeGoList_adj cls fresh j cs
      constructor
      · intro hadj
        simp only [wholeGo, hany2, Bool.false_eq_true, if_false, ite_false,
          if_neg, not_false_iff]
        show adjOkList (wholeGoList cls fresh j cs).1 = true
        exact hl.1 (by simpa [noAdjTexts] using hadj)
      · simp [wholeGo, hany2, DNode.isText]
theorem wholeGoList_adj (cls : String) (fresh j : Nat) :
    ∀ cs : List DNode,
      (adjOkList cs = true → adjOkList (wholeGoList cls fresh j cs).1 = true) ∧
      (wholeGoList cls fresh j cs).1.head?.map DNode.isText
        = cs.head?.map DNode.isText
  | [] => by simp [wholeGoList]
  | c :: cs => by
    obtain ⟨hadjc, htextc⟩ := wholeGo_adj cls fresh j c
    obtain ⟨hadjcs, hheadcs⟩ := wholeGoList_adj cls fresh j cs
    rcases hw : wholeGo cls fresh j c with ⟨c2, r⟩
    rw [hw] at hadjc htextc
    cases r with
    | some x =>
      constructor
      · intro h
        obtain ⟨hn, hcs, hs⟩ := (adjOkList_cons c cs).mp h
        simp only [wholeGoList, hw]
        refine (adjOkList_cons c2 cs).mpr ⟨hadjc hn, hcs, ?_⟩
        rw [adjSeam_last_congr [c2] [c] cs (by simp [htextc])]
        exact hs
      · simp [wholeGoList, hw, htextc]
    | none =>
      constructor
      · intro h
        obtain ⟨hn, hcs, hs⟩ := (adjOkList_cons c cs).mp h
        simp only [wholeGoList, hw]
        refine (adjOkList_cons _ _).mpr ⟨hadjc hn, hadjcs hcs, ?_⟩
        rw [adjSeam_last_congr [c2] [c] _ (by simp [htextc]),
          adjSeam_head_congr [c] _ cs hheadcs]
        exact hs
      · simp [wholeGoList, hw, htextc]
end

mutual
theorem applyGo_adj (cls : String) (fresh j s e : Nat) :
    ∀ t : DNode,
      (noAdjTexts t = true → noAdjTexts (applyGo cls fresh j s e t).1 = true) ∧
      DNode.isText (applyGo cls fresh j s e t).1 = DNode.isText t
  | .text i v => by simp [applyGo]
  | .elem i k cs => by
    rcases hf : cs.find? (fun c => decide (DNode.nid c = j)) with _ | c
    · have hl := applyGoList_adj cls fresh j s e cs
      constructor
      · intro hadj
        simp only [applyGo, hf]
        show adjOkList (applyGoList cls fresh j s e cs).1 = true
        exact hl.1 (by simpa [noAdjTexts] using hadj)
      · simp [applyGo, hf, DNode.isText]
    · obtain ⟨before, after, hcs, hcj, hbf⟩ := find_decomp hf
      subst hcs
      have hb : ∀ b ∈ before, DNode.nid b ≠ j := by
        intro b hbm
        have := hbf b hbm
        simpa using this
      have hc : DNode.nid c = j := by simpa using hcj
      cases c with
      | text ti w =>
        have htij : ti = j := by simpa [DNode.nid] using hc
        subst htij
        by_cases hwhole : s = 0 ∧ e = w.length
        · constructor
          · intro hadj
            have hsite := wholeAtSite_adj cls fresh ti i k before after
              (DNode.text ti w) hb rfl (by simpa [noAdjTexts] using hadj)
            simp only [applyGo, hf, hwhole, if_pos]
            exact hsite
          · simp only [applyGo, hf, hwhole, if_pos]
            unfold wholeAtSite
            by_cases h1 : before.length + (after.length + 1) = 1 <;>
              simp [h1, DNode.isText]
        · constructor
          · intro hadj
            have hsplit := splitChildren_adj_site cls fresh ti s e w before
              after hb (by simpa [noAdjTexts] using hadj)
            simp only [applyGo, hf, hwhole, if_neg, not_false_iff, ite_false,
              if_false]
            exact hsplit
          · simp [applyGo, hf, hwhole, DNode.isText]
      | elem ci ck ccs =>
        constructor
        · intro hadj
          simpa [applyGo, hf] using hadj
        · simp [applyGo, hf, DNode.isText]
theorem applyGoList_adj (cls : String) (fresh j s e : Nat) :
    ∀ cs : List DNode,
      (adjOkList cs = true → adjOkList (applyGoList cls fresh j s e cs).1 = true) ∧
      (applyGoList cls fresh j s e cs).1.head?.map DNode.isText
        = cs.head?.map DNode.isText
  | [] => by simp [applyGoList]
  | c :: cs => by
    obtain ⟨hadjc, htextc⟩ := applyGo_adj cls fresh j s e c
    obtain ⟨hadjcs, hheadcs⟩ := applyGoList_adj cls fresh j s e cs
    rcases hw : applyGo cls fresh j s e c with ⟨c2, r⟩
    rw [hw] at hadjc htextc
    cases r with
    | some x =>
      constructor
      · intro h
        obtain ⟨hn, hcs, hs⟩ := (adjOkList_cons c cs).mp h
        simp only [applyGoList, hw]
        refine (adjOkList_cons c2 cs).mpr ⟨hadjc hn, hcs, ?_⟩
        rw [adjSeam_last_congr [c2] [c] cs (by simp [htextc])]
        exact hs
      · simp [applyGoList, hw, htextc]
    | none =>
      constructor
      · intro h
        obtain ⟨hn, hcs, hs⟩ := (adjOkList_cons c cs).mp h
        simp only [applyGoList, hw]
        refine (adjOkList_cons _ _).mpr ⟨hadjc hn, hadjcs hcs, ?_⟩
        rw [adjSeam_last_congr [c2] [c] _ (by simp [htextc]),
          adjSeam_head_congr [c] _ cs hheadcs]
        exact hs
      · simp [applyGoList, hw, htextc]
end

theorem applyToWholeNode_adj (cls : String) (t : DNode) (fresh j : Nat)
    (hadj : noAdjTexts t = true) :
    noAdjTexts (applyToWholeNode cls t fresh j).1 = true := by
  have h := (wholeGo_adj cls fresh j t).1 hadj
  rcases hw : wholeGo cls fresh j t with ⟨t2, r⟩
  rw [hw] at h
  cases r with
  | some x => simpa [applyToWholeNode, hw] using h
  | none => simpa [applyToWholeNode, hw] using hadj

theorem applyToNode_adj (cls : String) (t : DNode) (fresh j s e : Nat)
    (hadj : noAdjTexts t = true) :
    noAdjTexts (applyToNode cls t fresh j s e).1 = true := by
  by_cases hse : s = e
  · simpa [applyToNode, hse] using hadj
  · have h := (applyGo_adj cls fresh j s e t).1 hadj
    rcases ha : applyGo cls fresh j s e t with ⟨t2, r⟩
    rw [ha] at h
    cases r with
    | some x =>
      rcases x with ⟨f2, a2⟩
      simpa [applyToNode, hse, ha] using h
    | none => simpa [applyToNode, hse, ha] using hadj

theorem processMiddles_adj (cls : String) :
    ∀ (ms : List NAO) (t : DNode) (fresh : Nat), noAdjTexts t = true →
      noAdjTexts (processMiddles cls t fresh ms).1 = true
  | [], t, fresh => fun h => h
  | m :: ms, t, fresh => by
    intro h
    by_cases hnl : isNewlineAt t m.node = true
    · simp only [processMiddles, hnl, if_pos]
      exact processMiddles_adj cls ms t fresh h
    · have hnl2 : isNewlineAt t m.node = false := by simpa using hnl
      simp only [processMiddles, hnl2, Bool.false_eq_true, if_false,
        ite_false, if_neg, not_false_iff]
      exact processMiddles_adj cls ms _ _
        (applyToWholeNode_adj cls t fresh m.node h)

theorem processMulti_adj (cls : String) (t : DNode) (fresh : Nat) (g : List NAO)
    (h : noAdjTexts t = true) :
    noAdjTexts (processMulti cls t fresh g).1 = true := by
  rcases hg : g.getLast? with _ | tl
  · simpa [processMulti, hg] using h
  · have h1 : noAdjTexts (if 0 < tl.offset then
        applyToNode cls t fresh tl.node 0 tl.offset else (t, fresh, [])).1 = true := by
      by_cases ho : 0 < tl.offset
      · simpa [ho] using applyToNode_adj cls t fresh tl.node 0 tl.offset h
      · simpa [ho] using h
    rcases hr1 : (if 0 < tl.offset then
        applyToNode cls t fresh tl.node 0 tl.offset else (t, fresh, [])) with ⟨t1, f1, a1⟩
    rw [hr1] at h1
    have h2 := processMiddles_adj cls ((g.drop 1).dropLast.reverse) t1 f1 h1
    rcases hr2 : processMiddles cls t1 f1 ((g.drop 1).dropLast.reverse) with ⟨t2, f2, a2⟩
    rw [hr2] at h2
    rcases hh : g.head? with _ | hd
    · simp only [processMulti, hg, hr1, hr2, hh]
      exact h2
    · rcases hgb : getById t2 hd.node with _ | c
      · simp only [processMulti, hg, hr1, hr2, hh, hgb]
        exact h2
      · cases c with
        | text ci cv =>
          simp only [processMulti, hg, hr1, hr2, hh, hgb]
          exact applyToNode_adj cls t2 f2 hd.node hd.offset cv.length h2
        | elem ci ck ccs =>
          simp only [processMulti, hg, hr1, hr2, hh, hgb]
          exact h2

theorem processGroup_adj (cls : String) (t : DNode) (fresh : Nat) (g : List NAO)
    (h : noAdjTexts t = true) :
    noAdjTexts (processGroup cls t fresh g).1 = true := by
  have hraw : noAdjTexts (processGroupRaw cls t fresh g).1 = true := by
    match g with
    | [a, b] =>
      by_cases hab : a.node = b.node
      · simp only [processGroupRaw, hab, if_pos]
        exact applyToNode_adj cls t fresh b.node a.offset b.offset h
      · simp only [processGroupRaw, hab, if_neg, not_false_iff, ite_false,
          if_false]
        exact processMulti_adj cls t fresh [a, b] h
    | a :: b :: c :: gs => exact processMulti_adj cls t fresh _ h
    | [] => exact h
    | [a] => exact h
  simpa [processGroup] using hraw

theorem applyGroups_adj (cls : String) :
    ∀ (gs : List (List NAO)) (t : DNode) (fresh : Nat), noAdjTexts t = true →
      noAdjTexts (applyGroups cls t fresh gs).1 = true
  | [], t, fresh => fun h => h
  | g :: gs, t, fresh => by
    intro h
    have h1 := applyGroups_adj cls gs t fresh h
    rcases hr : applyGroups cls t fresh gs with ⟨t1, f1, as1⟩
    rw [hr] at h1
    have h2 := processGroup_adj cls t1 f1 g h1
    have hred : applyGroups cls t fresh (g :: gs)
        = ((processGroup cls t1 f1 g).1, (processGroup cls t1 f1 g).2.1,
           (processGroup cls t1 f1 g).2.2 :: as1) := by
      unfold applyGroups
      rw [hr]
    rw [hred]
    exact h2

theorem applyToRanges_adj (cls : String) (t : DNode) (fresh : Nat)
    (rs : List (Nat × Nat)) (h : noAdjTexts t = true) :
    noAdjTexts (applyToRanges cls t fresh rs).1 = true := by
  rcases rs with _ | ⟨r0, rs2⟩
  · exact h
  · exact applyGroups_adj cls (findNodeAndOffsetGroups t (r0 :: rs2)) t fresh h

/-! ## The clear path: merge and unwrap bookkeeping -/

theorem getLast?_none_nil {α : Type} (l : List α) (h : l.getLast? = none) :
    l = [] := by
  rcases l with _ | ⟨x, xs⟩
  · rfl
  · exfalso
    have h2 := @List.getLast?_isSome α (x :: xs)
    rw [h] at h2
    simp at h2

theorem dropLast_append_last {α : Type} :
    ∀ (l : List α) (a : α), l.getLast? = some a → l = l.dropLast ++ [a]
  | [], a, h => by cases h
  | [x], a, h => by
    have hx : x = a := by simpa using h
    simp [hx]
  | x :: y :: ys, a, h => by
    have h2 : (y :: ys).getLast? = some a := by
      simpa [List.getLast?_cons_cons] using h
    have ih := dropLast_append_last (y :: ys) a h2
    calc x :: y :: ys = x :: ((y :: ys).dropLast ++ [a]) := by rw [← ih]
    _ = (x :: y :: ys).dropLast ++ [a] := by simp

theorem adjSeam_of_head_none (xs ys : List DNode) (h : ys.head? = none) :
    adjSeam xs ys = true := by
  rcases hl : xs.getLast? with _ | a <;> simp [adjSeam, hl, h]

theorem adjSeam_of_last_none (xs ys : List DNode) (h : xs.getLast? = none) :
    adjSeam xs ys = true := by
  rcases hh : ys.head? with _ | b <;> simp [adjSeam, h, hh]

theorem adjOk_concat_last_text (p1 : List DNode) (pi : Nat) (pv : List Char)
    (h : adjOkList (p1 ++ [DNode.text pi pv]) = true) :
    adjOkList p1 = true ∧ ∀ a, p1.getLast? = some a → a.isText = false := by
  obtain ⟨h1, _, hs⟩ := (adjOkList_append p1 _).mp h
  exact ⟨h1, fun a hl => adjSeam_break hl
    (show ([DNode.text pi pv] : List DNode).head? = some (DNode.text pi pv)
      from rfl) hs rfl⟩

theorem adjOk_cons_head_text (ni : Nat) (nv : List Char) (rest : List DNode)
    (h : adjOkList (DNode.text ni nv :: rest) = true) :
    adjOkList rest = true ∧ ∀ b, rest.head? = some b → b.isText = false := by
  obtain ⟨_, h2, hs⟩ := (adjOkList_cons _ _).mp h
  refine ⟨h2, ?_⟩
  intro b hh
  by_cases ht : b.isText = true
  · have h3 := adjSeam_break (show [DNode.text ni nv].getLast?
        = some (DNode.text ni nv) by simp) hh hs ht
    simp [DNode.isText] at h3
  · simpa using ht

theorem adjOk_sandwich (p1 : List DNode) (ti : Nat) (w : List Char)
    (q2 : List DNode)
    (h1 : adjOkList p1 = true) (h2 : adjOkList q2 = true)
    (hL : ∀ a, p1.getLast? = some a → a.isText = false)
    (hH : ∀ b, q2.head? = some b → b.isText = false) :
    adjOkList (p1 ++ [DNode.text ti w] ++ q2) = true := by
  rw [List.append_assoc]
  refine (adjOkList_append p1 _).mpr ⟨h1, ?_, ?_⟩
  · refine (adjOkList_cons _ _).mpr ⟨rfl, h2, ?_⟩
    rcases hh : q2.head? with _ | b
    · exact adjSeam_of_head_none _ _ hh
    · exact adjSeam_of_head_nonText _ hh (hH b hh)
  · rcases hl : p1.getLast? with _ | a
    · exact adjSeam_of_last_none _ _ hl
    · exact adjSeam_of_last_nonText _ hl (hL a hl)

/-- All structural facts about the unwrap-and-merge step at once: it keeps
the concatenated text (with the moved payload `tv` where the container
stood), neither removes nor adds styled elements outside the container,
reuses only surrounding identities plus `ti`, and restores the
no-adjacent-texts property of the sibling list. -/
theorem mergePrevNext_props (cls : String) (before : List DNode) (ti : Nat)
    (tv : List Char) (after : List DNode) :
    leafConcatList (mergePrevNext before ti tv after)
        = leafConcatList before ++ tv ++ leafConcatList after ∧
    styledOfList cls (mergePrevNext before ti tv after)
        = styledOfList cls before ++ styledOfList cls after ∧
    (idsOfList (mergePrevNext before ti tv after)).Sublist
        (idsOfList before ++ ti :: idsOfList after) ∧
    (adjOkList before = true → adjOkList after = true →
      adjOkList (mergePrevNext before ti tv after) = true) := by
  rcases hlb : before.getLast? with _ | pb
  · -- no previous sibling at all
    have hbe : before = [] := getLast?_none_nil before hlb
    subst hbe
    rcases after with _ | ⟨a0, rest⟩
    · refine ⟨by simp [mergePrevNext, leafConcatList, leafConcat],
        by simp [mergePrevNext, styledOfList, styledOf],
        by simp [mergePrevNext, idsOfList, idsOf], ?_⟩
      intro _ _
      show adjOkList [DNode.text ti tv] = true
      rfl
    · cases a0 with
      | text ni nv =>
        have hred : mergePrevNext [] ti tv (DNode.text ni nv :: rest)
            = [DNode.text ti (tv ++ nv)] ++ rest := by
          simp [mergePrevNext]
        rw [hred]
        refine ⟨by simp [leafConcatList_append, leafConcatList, leafConcat],
          by simp [styledOfList_append, styledOfList, styledOf],
          ?_, ?_⟩
        · simp only [idsOfList_append, idsOfList, idsOf, List.nil_append,
            List.append_nil]
          show (ti :: idsOfList rest).Sublist (ti :: ni :: idsOfList rest)
          exact List.Sublist.cons₂ ti (List.sublist_cons_self ni _)
        · intro _ hafter
          obtain ⟨hrest, hH⟩ := adjOk_cons_head_text ni nv rest hafter
          refine (adjOkList_cons _ _).mpr ⟨rfl, hrest, ?_⟩
          rcases hh : rest.head? with _ | b
          · exact adjSeam_of_head_none _ _ hh
          · exact adjSeam_of_head_nonText _ hh (hH b hh)
      | elem ne nk ncs =>
        have hred : mergePrevNext [] ti tv (DNode.elem ne nk ncs :: rest)
            = [DNode.text ti tv] ++ (DNode.elem ne nk ncs :: rest) := by
          simp [mergePrevNext]
        rw [hred]
        refine ⟨by simp [leafConcatList_append, leafConcatList, leafConcat],
          by simp [styledOfList_append, styledOfList, styledOf],
          ?_, ?_⟩
        · simp only [idsOfList_append, idsOfList, idsOf, List.nil_append]
          exact List.Sublist.cons₂ ti (List.Sublist.refl _)
        · intro _ hafter
          refine (adjOkList_cons _ _).mpr ⟨rfl, hafter, ?_⟩
          exact adjSeam_of_head_nonText _ rfl rfl
  · have hbd := dropLast_append_last before pb hlb
    cases pb with
    | text pi pv =>
      -- previous sibling is a text leaf: it is merged away
      have hLb : leafConcatList before = leafConcatList before.dropLast ++ pv := by
        conv_lhs => rw [hbd]
        simp [leafConcatList_append, leafConcatList, leafConcat]
      have hSb : styledOfList cls before = styledOfList cls before.dropLast := by
        conv_lhs => rw [hbd]
        simp [styledOfList_append, styledOfList, styledOf]
      have hIb : idsOfList before = idsOfList before.dropLast ++ [pi] := by
        conv_lhs => rw [hbd]
        simp [idsOfList_append, idsOfList, idsOf]
      have hAb : adjOkList before = true →
          adjOkList before.dropLast = true ∧
          ∀ a, before.dropLast.getLast? = some a → a.isText = false := by
        intro h
        exact adjOk_concat_last_text before.dropLast pi pv (by rw [← hbd]; exact h)
      rcases after with _ | ⟨a0, rest⟩
      · have hred : mergePrevNext before ti tv []
            = before.dropLast ++ [DNode.text ti (pv ++ tv)] ++ [] := by
          simp [mergePrevNext, hlb]
        rw [hred]
        refine ⟨?_, ?_, ?_, ?_⟩
        · simp [leafConcatList_append, leafConcatList, leafConcat, hLb,
            List.append_assoc]
        · simp [styledOfList_append, styledOfList, styledOf, hSb]
        · simp only [idsOfList_append, idsOfList, idsOf, hIb,
            List.append_nil, List.append_assoc, List.singleton_append]
          refine List.Sublist.append_left ?_ _
          exact (List.sublist_cons_self pi _).trans (List.Sublist.refl _)
        · intro hbefore _
          obtain ⟨hdl, hL⟩ := hAb hbefore
          exact adjOk_sandwich _ ti (pv ++ tv) [] hdl rfl hL (by intro b hb; cases hb)
      · cases a0 with
        | text ni nv =>
          have hred : mergePrevNext before ti tv (DNode.text ni nv :: rest)
              = before.dropLast ++ [DNode.text ti ((pv ++ tv) ++ nv)] ++ rest := by
            simp [mergePrevNext, hlb]
          rw [hred]
          refine ⟨?_, ?_, ?_, ?_⟩
          · simp [leafConcatList_append, leafConcatList, leafConcat, hLb,
              List.append_assoc]
          · simp [styledOfList_append, styledOfList, styledOf, hSb]
          · simp only [idsOfList_append, idsOfList, idsOf, hIb,
              List.append_assoc, List.singleton_append, List.nil_append]
            refine List.Sublist.append_left ?_ _
            show (ti :: idsOfList rest).Sublist (pi :: ti :: ni :: idsOfList rest)
            exact List.Sublist.cons pi
              (List.Sublist.cons₂ ti (List.sublist_cons_self ni _))
          · intro hbefore hafter
            obtain ⟨hdl, hL⟩ := hAb hbefore
            obtain ⟨hrest, hH⟩ := adjOk_cons_head_text ni nv rest hafter
            exact adjOk_sandwich _ ti _ rest hdl hrest hL hH
        | elem ne nk ncs =>
          have hred : mergePrevNext before ti tv (DNode.elem ne nk ncs :: rest)
              = before.dropLast ++ [DNode.text ti (pv ++ tv)]
                  ++ (DNode.elem ne nk ncs :: rest) := by
            simp [mergePrevNext, hlb]
          rw [hred]
          refine ⟨?_, ?_, ?_, ?_⟩
          · simp [leafConcatList_append, leafConcatList, leafConcat, hLb,
              List.append_assoc]
          · simp [styledOfList_append, styledOfList, styledOf, hSb]
          · simp only [idsOfList_append, idsOfList, idsOf, hIb,
              List.append_assoc, List.singleton_append]
            refine List.Sublist.append_left ?_ _
            show (ti :: (ne :: idsOfList ncs ++ idsOfList rest)).Sublist
                (pi :: ti :: (ne :: idsOfList ncs ++ idsOfList rest))
            exact List.sublist_cons_self pi _
          · intro hbefore hafter
            obtain ⟨hdl, hL⟩ := hAb hbefore
            refine adjOk_sandwich _ ti (pv ++ tv) _ hdl hafter hL ?_
            intro b hb
            have hb2 : DNode.elem ne nk ncs = b := by simpa using hb
            rw [← hb2]
            rfl
    | elem pe pk pcs =>
      -- previous sibling is an element: kept in place
      have hL : ∀ a, before.getLast? = some a → a.isText = false := by
        intro a hl
        rw [hlb] at hl
        have h2 : DNode.elem pe pk pcs = a := by simpa using hl
        rw [← h2]
        rfl
      rcases after with _ | ⟨a0, rest⟩
      · have hred : mergePrevNext before ti tv []
            = before ++ [DNode.text ti tv] ++ [] := by
          simp [mergePrevNext, hlb]
        rw [hred]
        refine ⟨by simp [leafConcatList_append, leafConcatList, leafConcat],
          by simp [styledOfList_append, styledOfList, styledOf],
          ?_, ?_⟩
        · simp only [idsOfList_append, idsOfList, idsOf, List.append_nil,
            List.singleton_append]
          exact List.Sublist.refl _
        · intro hbefore _
          exact adjOk_sandwich _ ti tv [] hbefore rfl hL (by intro b hb; cases hb)
      · cases a0 with
        | text ni nv =>
          have hred : mergePrevNext before ti tv (DNode.text ni nv :: rest)
              = before ++ [DNode.text ti (tv ++ nv)] ++ rest := by
            simp [mergePrevNext, hlb]
          rw [hred]
          refine ⟨?_, ?_, ?_, ?_⟩
          · simp [leafConcatList_append, leafConcatList, leafConcat,
              List.append_assoc]
          · simp [styledOfList_append, styledOfList, styledOf]
          · simp only [idsOfList_append, idsOfList, idsOf,
              List.singleton_append, List.nil_append, List.append_assoc]
            refine List.Sublist.append_left ?_ _
            exact List.Sublist.cons₂ ti (List.sublist_cons_self ni _)
          · intro hbefore hafter
            obtain ⟨hrest, hH⟩ := adjOk_cons_head_text ni nv rest hafter
            exact adjOk_sandwich _ ti _ rest hbefore hrest hL hH
        | elem ne nk ncs =>
          have hred : mergePrevNext before ti tv (DNode.elem ne nk ncs :: rest)
              = before ++ [DNode.text ti tv] ++ (DNode.elem ne nk ncs :: rest) := by
            simp [mergePrevNext, hlb]
          rw [hred]
          refine ⟨by simp [leafConcatList_append, leafConcatList, leafConcat],
            by simp [styledOfList_append, styledOfList, styledOf],
            ?_, ?_⟩
          · simp only [idsOfList_append, idsOfList, idsOf,
              List.singleton_append, List.append_assoc]
            exact List.Sublist.refl _
          · intro hbefore hafter
            refine adjOk_sandwich _ ti tv _ hbefore hafter hL ?_
            intro b hb
            have hb2 : DNode.elem ne nk ncs = b := by simpa using hb
            rw [← hb2]
            rfl

theorem classListRemove_not_mem (cls : String) (k : List String) :
    cls ∉ classListRemove cls k := by
  simp [classListRemove, List.mem_filter]

mutual
theorem styledOf_sublist (cls : String) :
    ∀ t : DNode, (styledOf cls t).Sublist (idsOf t)
  | .text i s => by simp [styledOf, idsOf]
  | .elem i k cs => by
    have h := styledOfList_sublist cls cs
    by_cases hk : cls ∈ k
    · simp only [styledOf, idsOf, hk, if_pos, List.singleton_append]
      exact List.Sublist.cons₂ i h
    · simp only [styledOf, idsOf, hk, if_neg, not_false_iff, ite_false,
        if_false, List.nil_append]
      exact List.Sublist.cons i h
theorem styledOfList_sublist (cls : String) :
    ∀ cs : List DNode, (styledOfList cls cs).Sublist (idsOfList cs)
  | [] => by simp [styledOfList, idsOfList]
  | c :: cs => by
    simp only [styledOfList, idsOfList]
    exact (styledOf_sublist cls c).append (styledOfList_sublist cls cs)
end

/-- All structural facts about one `clearElement` surgery at the parent's
child list: text is preserved, exactly the target's occurrence in the
styled-element list disappears, node identities are only dropped, never
added, and the no-adjacent-texts property is preserved. -/
theorem clearChildren_props (cls : String) (j : Nat)
    (before after : List DNode) (c : DNode)
    (hb : ∀ b ∈ before, DNode.nid b ≠ j) (hc : DNode.nid c = j)
    (hnd : (idsOfList (before ++ c :: after)).Nodup) :
    leafConcatList (clearChildren cls j (before ++ c :: after))
        = leafConcatList (before ++ c :: after) ∧
    styledOfList cls (clearChildren cls j (before ++ c :: after))
        = (styledOfList cls (before ++ c :: after)).erase j ∧
    (idsOfList (clearChildren cls j (before ++ c :: after))).Sublist
        (idsOfList (before ++ c :: after)) ∧
    (adjOkList (before ++ c :: after) = true →
      adjOkList (clearChildren cls j (before ++ c :: after)) = true) := by
  have hsp := splitAtFirst_splice j before after c hb hc
  have hndm : (idsOfList before ++ (idsOf c ++ idsOfList after)).Nodup := by
    simpa [idsOfList_append, idsOfList] using hnd
  have hSeq : styledOfList cls (before ++ c :: after)
      = styledOfList cls before ++ (styledOf cls c ++ styledOfList cls after) := by
    simp [styledOfList_append, styledOfList]
  cases c with
  | text ci cv =>
    have hji : ci = j := by simpa [DNode.nid] using hc
    subst hji
    have hred : clearChildren cls ci (before ++ DNode.text ci cv :: after)
        = before ++ [DNode.text ci cv] ++ after := by
      simp [clearChildren, hsp]
    have hfix : before ++ [DNode.text ci cv] ++ after
        = before ++ DNode.text ci cv :: after := by simp
    rw [hred, hfix]
    have hjnb : ci ∉ idsOfList before := by
      have h2 : (idsOfList before ++ ci :: idsOfList after).Nodup := by
        simpa [idsOf] using hndm
      have := (List.nodup_middle.mp h2)
      exact fun hmem => (List.nodup_cons.mp this).1 (by simp [hmem])
    have hjna : ci ∉ idsOfList after := by
      have h2 : (idsOfList before ++ ci :: idsOfList after).Nodup := by
        simpa [idsOf] using hndm
      have := (List.nodup_middle.mp h2)
      exact fun hmem => (List.nodup_cons.mp this).1 (by simp [hmem])
    refine ⟨rfl, ?_, List.Sublist.refl _, fun h => h⟩
    rw [hSeq]
    have hnot : ci ∉ styledOfList cls before ++ (styledOf cls (DNode.text ci cv)
        ++ styledOfList cls after) := by
      intro hmem
      rcases List.mem_append.mp hmem with h | h
      · exact hjnb ((styledOfList_sublist cls before).mem h)
      · rcases List.mem_append.mp h with h | h
        · simp [styledOf] at h
        · exact hjna ((styledOfList_sublist cls after).mem h)
    rw [List.erase_of_not_mem hnot]
  | elem ci k0 kids =>
    have hji : ci = j := by simpa [DNode.nid] using hc
    subst hji
    have hndc : (idsOfList before ++ ci :: (idsOfList kids ++ idsOfList after)).Nodup := by
      simpa [idsOf, List.append_assoc] using hndm
    have hmid := List.nodup_middle.mp hndc
    have hcin : ci ∉ idsOfList before ++ (idsOfList kids ++ idsOfList after) :=
      (List.nodup_cons.mp hmid).1
    have hjnb : ci ∉ idsOfList before := fun h => hcin (by simp [h])
    have hjnk : ci ∉ idsOfList kids := fun h => hcin (by simp [h])
    have hjna : ci ∉ idsOfList after := fun h => hcin (by simp [h])
    have hjnsb : ci ∉ styledOfList cls before :=
      fun h => hjnb ((styledOfList_sublist cls before).mem h)
    have hjnsk : ci ∉ styledOfList cls kids :=
      fun h => hjnk ((styledOfList_sublist cls kids).mem h)
    have hjnsa : ci ∉ styledOfList cls after :=
      fun h => hjna ((styledOfList_sublist cls after).mem h)
    have herase : (styledOfList cls (before ++ DNode.elem ci k0 kids :: after)).erase ci
        = styledOfList cls before ++ (styledOfList cls kids
            ++ styledOfList cls after) := by
      rw [hSeq, List.erase_append_right _ hjnsb]
      congr 1
      show ((if cls ∈ k0 then [ci] else []) ++ styledOfList cls kids
          ++ styledOfList cls after).erase ci
        = styledOfList cls kids ++ styledOfList cls after
      by_cases hk : cls ∈ k0
      · rw [if_pos hk]
        show ((ci :: styledOfList cls kids) ++ styledOfList cls after).erase ci
          = styledOfList cls kids ++ styledOfList cls after
        rw [List.erase_append_left _ (by simp), List.erase_cons_head]
      · rw [if_neg hk]
        show ((styledOfList cls kids) ++ styledOfList cls after).erase ci
          = styledOfList cls kids ++ styledOfList cls after
        rw [List.erase_of_not_mem (by
          intro hmem
          rcases List.mem_append.mp hmem with h | h
          · exact hjnsk h
          · exact hjnsa h)]
    -- the per-branch results
    have hgen : ∀ k2 kids2, kids2 = kids →
        leafConcatList (before ++ [DNode.elem ci k2 kids2] ++ after)
          = leafConcatList (before ++ DNode.elem ci k0 kids :: after) := by
      intro k2 kids2 hk2
      subst hk2
      simp [leafConcatList_append, leafConcatList, leafConcat]
    rcases kids with _ | ⟨k1, krest⟩
    · -- no children at all: only the class is removed
      have hred : clearChildren cls ci (before ++ DNode.elem ci k0 [] :: after)
          = before ++ [DNode.elem ci (classListRemove cls k0) []] ++ after := by
        simp [clearChildren, hsp]
      rw [hred]
      refine ⟨hgen _ _ rfl, ?_, ?_, ?_⟩
      · rw [herase]
        simp [styledOfList_append, styledOfList, styledOf,
          classListRemove_not_mem cls k0]
      · simp [idsOfList_append, idsOfList, idsOf]
      · intro hadj
        obtain ⟨h1, hy, hseam⟩ := (adjOkList_append before _).mp hadj
        obtain ⟨hnc, hafter, hsA⟩ := (adjOkList_cons _ _).mp hy
        rw [List.append_assoc]
        simp only [List.singleton_append]
        refine (adjOkList_append before _).mpr ⟨h1, ?_, ?_⟩
        · refine (adjOkList_cons _ _).mpr ⟨rfl, hafter, ?_⟩
          rw [adjSeam_last_congr _ [DNode.elem ci k0 []] after (by simp [DNode.isText])]
          exact hsA
        · exact adjSeam_of_head_nonText _ rfl rfl
    · cases k1 with
      | text ti tv =>
        rcases krest with _ | ⟨k2, krest2⟩
        · -- exactly one text child: unwrap or strip the class
          by_cases hcls : k0 = [cls]
          · subst hcls
            have hred : clearChildren cls ci
                (before ++ DNode.elem ci [cls] [DNode.text ti tv] :: after)
                = mergePrevNext before ti tv after := by
              simp [clearChildren, hsp]
            rw [hred]
            obtain ⟨hm1, hm2, hm3, hm4⟩ := mergePrevNext_props cls before ti tv after
            refine ⟨?_, ?_, ?_, ?_⟩
            · rw [hm1]
              simp [leafConcatList_append, leafConcatList, leafConcat]
            · rw [hm2, herase]
              simp [styledOfList, styledOf]
            · refine hm3.trans ?_
              simp only [idsOfList_append, idsOfList, idsOf, List.append_nil]
              refine List.Sublist.append_left ?_ _
              show (ti :: idsOfList after).Sublist (ci :: ti :: idsOfList after)
              exact List.sublist_cons_self ci _
            · intro hadj
              obtain ⟨h1, hy, _⟩ := (adjOkList_append before _).mp hadj
              obtain ⟨_, hafter, _⟩ := (adjOkList_cons _ _).mp hy
              exact hm4 h1 hafter
          · have hred : clearChildren cls ci
                (before ++ DNode.elem ci k0 [DNode.text ti tv] :: after)
                = before ++ [DNode.elem ci (classListRemove cls k0)
                    [DNode.text ti tv]] ++ after := by
              simp [clearChildren, hsp, hcls]
            rw [hred]
            refine ⟨hgen _ _ rfl, ?_, ?_, ?_⟩
            · rw [herase]
              simp [styledOfList_append, styledOfList, styledOf,
                classListRemove_not_mem cls k0]
            · simp [idsOfList_append, idsOfList, idsOf]
            · intro hadj
              obtain ⟨h1, hy, hseam⟩ := (adjOkList_append before _).mp hadj
              obtain ⟨hnc, hafter, hsA⟩ := (adjOkList_cons _ _).mp hy
              rw [List.append_assoc]
              simp only [List.singleton_append]
              refine (adjOkList_append before _).mpr ⟨h1, ?_, ?_⟩
              · refine (adjOkList_cons _ _).mpr ⟨?_, hafter, ?_⟩
                · simpa [noAdjTexts] using hnc
                · rw [adjSeam_last_congr _ [DNode.elem ci k0 [DNode.text ti tv]]
                    after (by simp [DNode.isText])]
                  exact hsA
              · exact adjSeam_of_head_nonText _ rfl rfl
        · -- more than one child: only the class is removed
          have hred : clearChildren cls ci
              (before ++ DNode.elem ci k0 (DNode.text ti tv :: k2 :: krest2) :: after)
              = before ++ [DNode.elem ci (classListRemove cls k0)
                  (DNode.text ti tv :: k2 :: krest2)] ++ after := by
            simp [clearChildren, hsp]
          rw [hred]
          refine ⟨hgen _ _ rfl, ?_, ?_, ?_⟩
          · rw [herase]
            simp [styledOfList_append, styledOfList, styledOf,
              classListRemove_not_mem cls k0]
          · simp [idsOfList_append, idsOfList, idsOf]
          · intro hadj
            obtain ⟨h1, hy, hseam⟩ := (adjOkList_append before _).mp hadj
            obtain ⟨hnc, hafter, hsA⟩ := (adjOkList_cons _ _).mp hy
            rw [List.append_assoc]
            simp only [List.singleton_append]
            refine (adjOkList_append before _).mpr ⟨h1, ?_, ?_⟩
            · refine (adjOkList_cons _ _).mpr ⟨?_, hafter, ?_⟩
              · simpa [noAdjTexts] using hnc
              · rw [adjSeam_last_congr _
                  [DNode.elem ci k0 (DNode.text ti tv :: k2 :: krest2)] after
                  (by simp [DNode.isText])]
                exact hsA
            · exact adjSeam_of_head_nonText _ rfl rfl
      | elem e1 ek1 ecs1 =>
        have hred : clearChildren cls ci
            (before ++ DNode.elem ci k0 (DNode.elem e1 ek1 ecs1 :: krest) :: after)
            = before ++ [DNode.elem ci (classListRemove cls k0)
                (DNode.elem e1 ek1 ecs1 :: krest)] ++ after := by
          simp [clearChildren, hsp]
        rw [hred]
        refine ⟨hgen _ _ rfl, ?_, ?_, ?_⟩
        · rw [herase]
          simp [styledOfList_append, styledOfList, styledOf,
            classListRemove_not_mem cls k0]
        · simp [idsOfList_append, idsOfList, idsOf]
        · intro hadj
          obtain ⟨h1, hy, hseam⟩ := (adjOkList_append before _).mp hadj
          obtain ⟨hnc, hafter, hsA⟩ := (adjOkList_cons _ _).mp hy
          rw [List.append_assoc]
          simp only [List.singleton_append]
          refine (adjOkList_append before _).mpr ⟨h1, ?_, ?_⟩
          · refine (adjOkList_cons _ _).mpr ⟨?_, hafter, ?_⟩
            · simpa [noAdjTexts] using hnc
            · rw [adjSeam_last_congr _
                [DNode.elem ci k0 (DNode.elem e1 ek1 ecs1 :: krest)] after
                (by simp [DNode.isText])]
              exact hsA
          · exact adjSeam_of_head_nonText _ rfl rfl

theorem nid_mem_idsOf (c : DNode) : DNode.nid c ∈ idsOf c := by
  cases c with
  | text i s => simp [DNode.nid, idsOf]
  | elem i k cs => simp [DNode.nid, idsOf]

mutual
/-- Structural facts about `clearElement`'s tree traversal: the document
text is unchanged, node identities are only dropped, the styled-element
list loses exactly the processed occurrence when the target was found
(flag true), and the no-adjacent-texts property is preserved. -/
theorem clearGo_props (cls : String) (j : Nat) :
    ∀ t : DNode, (idsOf t).Nodup →
      leafConcat (clearGo cls j t).1 = leafConcat t ∧
      (idsOf (clearGo cls j t).1).Sublist (idsOf t) ∧
      styledOf cls (clearGo cls j t).1
        = (if (clearGo cls j t).2 = true then (styledOf cls t).erase j
           else styledOf cls t) ∧
      ((clearGo cls j t).2 = true → j ∈ idsOf t) ∧
      (noAdjTexts t = true → noAdjTexts (clearGo cls j t).1 = true) ∧
      DNode.isText (clearGo cls j t).1 = DNode.isText t
  | .text i s => by
    intro _
    refine ⟨rfl, List.Sublist.refl _, ?_, ?_, fun h => h, rfl⟩
    · simp [clearGo]
    · intro h
      simp [clearGo] at h
  | .elem i k cs => by
    intro hnd
    have hndl : (idsOfList cs).Nodup := by
      have := List.nodup_cons.mp (by simpa [idsOf] using hnd)
      exact this.2
    have hinotl : i ∉ idsOfList cs := by
      have := List.nodup_cons.mp (by simpa [idsOf] using hnd)
      exact this.1
    by_cases hany : cs.any (fun c => decide (DNode.nid c = j)) = true
    · obtain ⟨before, c, after, hcs, hcj, hbf⟩ := any_decomp hany
      subst hcs
      have hb : ∀ b ∈ before, DNode.nid b ≠ j := by
        intro b hbm
        have := hbf b hbm
        simpa using this
      have hc : DNode.nid c = j := by simpa using hcj
      obtain ⟨cc1, cc2, cc3, cc4⟩ := clearChildren_props cls j before after c
        hb hc hndl
      have hjcs : j ∈ idsOfList (before ++ c :: after) := by
        rw [← hc]
        have := nid_mem_idsOf c
        simp [idsOfList_append, idsOfList]
        right
        left
        exact this
      have hji : j ≠ i := by
        intro h
        rw [h] at hjcs
        exact hinotl hjcs
      have hred : clearGo cls j (DNode.elem i k (before ++ c :: after))
          = (.elem i k (clearChildren cls j (before ++ c :: after)), true) := by
        simp [clearGo, hany]
      rw [hred]
      refine ⟨?_, ?_, ?_, ?_, ?_, rfl⟩
      · simpa [leafConcat] using cc1
      · simp only [idsOf]
        exact List.Sublist.cons₂ i cc3
      · simp only [styledOf, if_pos]
        rw [cc2]
        have hjh : j ∉ (if cls ∈ k then [i] else []) := by
          by_cases hk : cls ∈ k <;> simp [hk, hji]
        rw [List.erase_append_right _ hjh]
      · intro _
        simp [idsOf, hjcs]
      · intro hadj
        simp only [noAdjTexts]
        exact cc4 (by simpa [noAdjTexts] using hadj)
    · have hl := clearGoList_props cls j cs hndl
      rcases hp : clearGoList cls j cs with ⟨cs2, flag⟩
      rw [hp] at hl
      obtain ⟨l1, l2, l3, l4, l5, l6⟩ := hl
      have hany3 : cs.any (fun c => decide (DNode.nid c = j)) = false := by
        simpa using hany
      have hred : clearGo cls j (DNode.elem i k cs)
          = (.elem i k cs2, flag) := by
        simp [clearGo, hany3, hp]
      rw [hred]
      refine ⟨by simpa [leafConcat] using l1, ?_, ?_, ?_, ?_, rfl⟩
      · simp only [idsOf]
        exact List.Sublist.cons₂ i l2
      · cases flag with
        | false =>
          simp only [Bool.false_eq_true, if_false, ite_false]
          simp only [styledOf]
          rw [l3]
          simp
        | true =>
          simp only [if_pos]
          simp only [styledOf]
          rw [l3]
          simp only [if_pos]
          have hjh : j ∉ (if cls ∈ k then [i] else []) := by
            have hjcs := l4 rfl
            have hji : j ≠ i := by
              intro h
              rw [h] at hjcs
              exact hinotl hjcs
            by_cases hk : cls ∈ k <;> simp [hk, hji]
          rw [List.erase_append_right _ hjh]
      · intro hf
        have := l4 hf
        simp [idsOf, this]
      · intro hadj
        simp only [noAdjTexts]
        exact l5 (by simpa [noAdjTexts] using hadj)
theorem clearGoList_props (cls : String) (j : Nat) :
    ∀ cs : List DNode, (idsOfList cs).Nodup →
      leafConcatList (clearGoList cls j cs).1 = leafConcatList cs ∧
      (idsOfList (clearGoList cls j cs).1).Sublist (idsOfList cs) ∧
      styledOfList cls (clearGoList cls j cs).1
        = (if (clearGoList cls j cs).2 = true then (styledOfList cls cs).erase j
           else styledOfList cls cs) ∧
      ((clearGoList cls j cs).2 = true → j ∈ idsOfList cs) ∧
      (adjOkList cs = true → adjOkList (clearGoList cls j cs).1 = true) ∧
      (clearGoList cls j cs).1.head?.map DNode.isText = cs.head?.map DNode.isText
  | [] => by
    intro _
    refine ⟨rfl, List.Sublist.refl _, by simp [clearGoList, styledOfList], ?_,
      fun h => h, rfl⟩
    intro h
    simp [clearGoList] at h
  | c :: cs => by
    intro hnd
    have hndc : (idsOf c).Nodup := by
      have h2 : (idsOf c ++ idsOfList cs).Nodup := by
        simpa [idsOfList] using hnd
      exact h2.of_append_left
    have hndcs : (idsOfList cs).Nodup := by
      have h2 : (idsOf c ++ idsOfList cs).Nodup := by
        simpa [idsOfList] using hnd
      exact h2.of_append_right
    have hdisj : ∀ x, x ∈ idsOf c → x ∈ idsOfList cs → False := by
      have h2 : (idsOf c ++ idsOfList cs).Nodup := by
        simpa [idsOfList] using hnd
      intro x hx1 hx2
      exact (List.disjoint_of_nodup_append h2) hx1 hx2
    obtain ⟨t1, t2, t3, t4, t5, t6⟩ := clearGo_props cls j c hndc
    rcases hg : clearGo cls j c with ⟨c2, fl⟩
    rw [hg] at t1 t2 t3 t4 t5 t6
    cases fl with
    | true =>
      have hred : clearGoList cls j (c :: cs) = (c2 :: cs, true) := by
        simp [clearGoList, hg]
      rw [hred]
      simp only [if_pos] at t3
      refine ⟨?_, ?_, ?_, ?_, ?_, ?_⟩
      · simp [leafConcatList, t1]
      · simp only [idsOfList]
        exact t2.append (List.Sublist.refl _)
      · simp only [styledOfList, if_pos, t3]
        have hjncs : j ∉ styledOfList cls cs := by
          intro hmem
          exact hdisj j (t4 rfl) ((styledOfList_sublist cls cs).mem hmem)
        by_cases hjc : j ∈ styledOf cls c
        · rw [List.erase_append_left _ hjc]
        · rw [List.erase_of_not_mem hjc,
            List.erase_of_not_mem (by
              intro hmem
              rcases List.mem_append.mp hmem with h | h
              · exact hjc h
              · exact hjncs h)]
      · intro _
        simp [idsOfList, List.mem_append]
        exact Or.inl (t4 rfl)
      · intro hadj
        obtain ⟨hn, hcs, hs⟩ := (adjOkList_cons c cs).mp hadj
        refine (adjOkList_cons c2 cs).mpr ⟨t5 hn, hcs, ?_⟩
        rw [adjSeam_last_congr [c2] [c] cs (by simp [t6])]
        exact hs
      · simp [t6]
    | false =>
      obtain ⟨l1, l2, l3, l4, l5, l6⟩ := clearGoList_props cls j cs hndcs
      rcases hp : clearGoList cls j cs with ⟨cs2, flag⟩
      rw [hp] at l1 l2 l3 l4 l5 l6
      have hred : clearGoList cls j (c :: cs) = (c2 :: cs2, flag) := by
        simp [clearGoList, hg, hp]
      rw [hred]
      simp only [Bool.false_eq_true, if_false, ite_false] at t3
      refine ⟨?_, ?_, ?_, ?_, ?_, ?_⟩
      · simp [leafConcatList, t1, l1]
      · simp only [idsOfList]
        exact t2.append l2
      · simp only [styledOfList, t3]
        cases flag with
        | false =>
          simp only [Bool.false_eq_true, if_false, ite_false] at l3 ⊢
          rw [l3]
        | true =>
          simp only [if_pos] at l3 ⊢
          rw [l3]
          have hjnc : j ∉ styledOf cls c := by
            intro hmem
            exact hdisj j ((styledOf_sublist cls c).mem hmem) (l4 rfl)
          rw [List.erase_append_right _ hjnc]
      · intro hf
        have := l4 hf
        simp [idsOfList, List.mem_append, this]
      · intro hadj
        obtain ⟨hn, hcs, hs⟩ := (adjOkList_cons c cs).mp hadj
        refine (adjOkList_cons c2 cs2).mpr ⟨t5 hn, l5 hcs, ?_⟩
        rw [adjSeam_last_congr [c2] [c] cs2 (by simp [t6]),
          adjSeam_head_congr [c] cs2 cs l6]
        exact hs
      · simp [t6]
end

mutual
/-- Completeness of the parent search: a styled element below the subtree
root is always found (the traversal flag comes back true). -/
theorem clearGo_flag (cls : String) (j : Nat) :
    ∀ t : DNode, j ∈ styledOf cls t → DNode.nid t ≠ j →
      (clearGo cls j t).2 = true
  | .text i s => by
    intro hj _
    simp [styledOf] at hj
  | .elem i k cs => by
    intro hj hne
    by_cases hany : cs.any (fun c => decide (DNode.nid c = j)) = true
    · simp [clearGo, hany]
    · have hany2 : cs.any (fun c => decide (DNode.nid c = j)) = false := by
        simpa using hany
      have hmem : j ∈ styledOfList cls cs := by
        have hj2 : (cls ∈ k ∧ j = i) ∨ j ∈ styledOfList cls cs := by
          simpa [styledOf] using hj
        rcases hj2 with ⟨hk, hji⟩ | h
        · exact absurd (by simpa [DNode.nid] using hji.symm) hne
        · exact h
      have htop : ∀ c ∈ cs, DNode.nid c ≠ j := by
        intro c hcm heq
        have : cs.any (fun c => decide (DNode.nid c = j)) = true := by
          simp only [List.any_eq_true]
          exact ⟨c, hcm, by simp [heq]⟩
        rw [this] at hany2
        cases hany2
      have hflag := clearGoList_flag cls j cs hmem htop
      rcases hp : clearGoList cls j cs with ⟨cs2, flag⟩
      rw [hp] at hflag
      simp [clearGo, hany2, hp, hflag]
theorem clearGoList_flag (cls : String) (j : Nat) :
    ∀ cs : List DNode, j ∈ styledOfList cls cs →
      (∀ c ∈ cs, DNode.nid c ≠ j) → (clearGoList cls j cs).2 = true
  | [] => by
    intro hj _
    simp [styledOfList] at hj
  | c :: cs => by
    intro hj htop
    rcases hg : clearGo cls j c with ⟨c2, fl⟩
    cases fl with
    | true => simp [clearGoList, hg]
    | false =>
      rcases List.mem_append.mp (by simpa [styledOfList] using hj) with h | h
      · exfalso
        have := clearGo_flag cls j c h (htop c (by simp))
        rw [hg] at this
        cases this
      · have hrec := clearGoList_flag cls j cs h
          (fun x hx => htop x (by simp [hx]))
        rcases hp : clearGoList cls j cs with ⟨cs2, flag⟩
        rw [hp] at hrec
        simp [clearGoList, hg, hp, hrec]
end

theorem clearGo_elem_shape (cls : String) (j i : Nat) (k : List String)
    (cs : List DNode) :
    ∃ cs2, (clearGo cls j (DNode.elem i k cs)).1 = DNode.elem i k cs2 := by
  by_cases hany : cs.any (fun c => decide (DNode.nid c = j)) = true
  · exact ⟨clearChildren cls j cs, by simp [clearGo, hany]⟩
  · have hany2 : cs.any (fun c => decide (DNode.nid c = j)) = false := by
      simpa using hany
    exact ⟨(clearGoList cls j cs).1, by simp [clearGo, hany2]⟩

/-- One `clearElement` call keeps the text and the identity discipline,
removes exactly the processed element from the styled list below the root,
and preserves the no-adjacent-texts property. -/
theorem clearElement_props (cls : String) (t : DNode) (j : Nat)
    (hnd : (idsOf t).Nodup) (hj : j ∈ styledUnderRoot cls t) :
    leafConcat (clearElement cls t j) = leafConcat t ∧
    (idsOf (clearElement cls t j)).Sublist (idsOf t) ∧
    styledUnderRoot cls (clearElement cls t j)
      = (styledUnderRoot cls t).erase j ∧
    (noAdjTexts t = true → noAdjTexts (clearElement cls t j) = true) := by
  cases t with
  | text i s =>
    exact absurd hj (by simp [styledUnderRoot])
  | elem i k cs =>
    have hjcs : j ∈ styledOfList cls cs := by simpa [styledUnderRoot] using hj
    have hndl : (idsOfList cs).Nodup := by
      have := List.nodup_cons.mp (by simpa [idsOf] using hnd)
      exact this.2
    have hinotl : i ∉ idsOfList cs := by
      have := List.nodup_cons.mp (by simpa [idsOf] using hnd)
      exact this.1
    have hji : j ≠ i := by
      intro h
      rw [h] at hjcs
      exact hinotl ((styledOfList_sublist cls cs).mem hjcs)
    obtain ⟨g1, g2, g3, _, g5, _⟩ := clearGo_props cls j (DNode.elem i k cs) hnd
    have hflag : (clearGo cls j (DNode.elem i k cs)).2 = true :=
      clearGo_flag cls j _ (by
        simp only [styledOf, List.mem_append]
        exact Or.inr hjcs)
        (by simpa [DNode.nid] using hji.symm)
    rw [hflag, if_pos rfl] at g3
    obtain ⟨cs2, hshape⟩ := clearGo_elem_shape cls j i k cs
    refine ⟨g1, g2, ?_, g5⟩
    show styledUnderRoot cls (clearGo cls j (DNode.elem i k cs)).1 = _
    rw [hshape]
    rw [hshape] at g3
    have hjh : j ∉ (if cls ∈ k then [i] else []) := by
      by_cases hk : cls ∈ k <;> simp [hk, hji]
    rw [show styledOf cls (DNode.elem i k cs2)
        = (if cls ∈ k then [i] else []) ++ styledOfList cls cs2 from rfl,
      show styledOf cls (DNode.elem i k cs)
        = (if cls ∈ k then [i] else []) ++ styledOfList cls cs from rfl,
      List.erase_append_right _ hjh] at g3
    have := List.append_cancel_left g3
    simpa [styledUnderRoot] using this

theorem clearFold_props (cls : String) :
    ∀ (js : List Nat) (t : DNode), (idsOf t).Nodup →
      (∀ x ∈ js, x ∈ styledUnderRoot cls t) → js.Nodup →
      leafConcat (clearFold cls t js) = leafConcat t ∧
      (idsOf (clearFold cls t js)).Sublist (idsOf t) ∧
      styledUnderRoot cls (clearFold cls t js)
        = js.foldl (fun l x => l.erase x) (styledUnderRoot cls t) ∧
      (noAdjTexts t = true → noAdjTexts (clearFold cls t js) = true)
  | [], t => by
    intro _ _ _
    exact ⟨rfl, List.Sublist.refl _, rfl, fun h => h⟩
  | j :: js, t => by
    intro hnd hmem hjsnd
    obtain ⟨e1, e2, e3, e4⟩ := clearElement_props cls t j hnd (hmem j (by simp))
    have hnd2 : (idsOf (clearElement cls t j)).Nodup := hnd.sublist e2
    have hjnotjs : j ∉ js := (List.nodup_cons.mp hjsnd).1
    have hmem2 : ∀ x ∈ js, x ∈ styledUnderRoot cls (clearElement cls t j) := by
      intro x hx
      rw [e3]
      exact (List.mem_erase_of_ne (by
        intro hxe
        rw [hxe] at hx
        exact hjnotjs hx)).mpr (hmem x (by simp [hx]))
    obtain ⟨f1, f2, f3, f4⟩ := clearFold_props cls js (clearElement cls t j)
      hnd2 hmem2 (List.nodup_cons.mp hjsnd).2
    have hred : clearFold cls t (j :: js)
        = clearFold cls (clearElement cls t j) js := rfl
    rw [hred]
    refine ⟨f1.trans e1, f2.trans e2, ?_, fun h => f4 (e4 h)⟩
    rw [f3, e3]
    rfl

theorem foldl_erase_all :
    ∀ (js L : List Nat), L.Nodup → (∀ x ∈ L, x ∈ js) →
      js.foldl (fun l x => l.erase x) L = []
  | [], L => by
    intro _ hsub
    rcases L with _ | ⟨x, xs⟩
    · rfl
    · exact absurd (hsub x (by simp)) (by simp)
  | j :: js, L => by
    intro hnd hsub
    show js.foldl (fun l x => l.erase x) (L.erase j) = []
    refine foldl_erase_all js (L.erase j) (hnd.erase j) ?_
    intro x hx
    have hxm := (hnd.mem_erase_iff).mp hx
    rcases List.mem_cons.mp (hsub x hxm.2) with h | h
    · exact absurd h hxm.1
    · exact h

theorem styledUnderRoot_nodup (cls : String) (t : DNode)
    (hnd : (idsOf t).Nodup) : (styledUnderRoot cls t).Nodup := by
  cases t with
  | text i s => simp [styledUnderRoot]
  | elem i k cs =>
    have hndl : (idsOfList cs).Nodup := by
      have := List.nodup_cons.mp (by simpa [idsOf] using hnd)
      exact this.2
    exact hndl.sublist (styledOfList_sublist cls cs)

/-! ## Claim C4 -/

/-- C4: clearing restores the document.  For every well-formed tree with no
adjacent text leaves and every valid range list, running `clear` on the
tree produced by `applyToRanges` yields a tree in which no container under
the root carries the style class, whose leaf-text concatenation equals the
original, and in which no element has two adjacent text-leaf children (all
text leaves made adjacent by unwrapping have been merged). -/
theorem c4_clear_restores (cls : String) (t : DNode) (fresh : Nat)
    (rs : List (Nat × Nat))
    (hr : ∀ r ∈ rs, r.1 ≤ r.2)
    (hnd : (idsOf t).Nodup) (hbd : ∀ x ∈ idsOf t, x < fresh)
    (hadj : noAdjTexts t = true) :
    styledUnderRoot cls (clear cls (applyToRanges cls t fresh rs).1).1 = [] ∧
    leafConcat (clear cls (applyToRanges cls t fresh rs).1).1 = leafConcat t ∧
    noAdjTexts (clear cls (applyToRanges cls t fresh rs).1).1 = true := by
  have happly : leafConcat (applyToRanges cls t fresh rs).1 = leafConcat t ∧
      (idsOf (applyToRanges cls t fresh rs).1).Nodup := by
    rcases rs with _ | ⟨r0, rs2⟩
    · exact ⟨rfl, hnd⟩
    · have hps := findGroups_pairs_sorted t (r0 :: rs2)
        (rootTexts_ids_nodup hnd) hr
      have h := applyGroups_ok cls (findNodeAndOffsetGroups t (r0 :: rs2))
        t fresh hps hnd hbd
      exact ⟨h.1, h.2.1⟩
  have hadj2 : noAdjTexts (applyToRanges cls t fresh rs).1 = true :=
    applyToRanges_adj cls t fresh rs hadj
  set t2 := (applyToRanges cls t fresh rs).1 with ht2
  have hnd2 : (idsOf t2).Nodup := happly.2
  have hclear : (clear cls t2).1
      = clearFold cls t2 (styledUnderRoot cls t2).reverse := rfl
  obtain ⟨f1, _, f3, f4⟩ := clearFold_props cls
    (styledUnderRoot cls t2).reverse t2 hnd2
    (by intro x hx; simpa using hx)
    (List.nodup_reverse.mpr (styledUnderRoot_nodup cls t2 hnd2))
  rw [hclear]
  refine ⟨?_, f1.trans happly.1, f4 hadj2⟩
  rw [f3]
  exact foldl_erase_all _ _ (styledUnderRoot_nodup cls t2 hnd2)
    (by intro x hx; simpa using hx)

/-- C4 witness: applying style "foo" to (1,3) of a one-leaf document and
clearing it restores an unstyled tree with the original text. -/
theorem c4_clear_restores_witness :
    styledUnderRoot "foo" (clear "foo"
        (applyToRanges "foo" (DNode.elem 0 [] [DNode.text 1 "abcde".toList]) 2
          [(1, 3)]).1).1 = [] ∧
    leafConcat (clear "foo"
        (applyToRanges "foo" (DNode.elem 0 [] [DNode.text 1 "abcde".toList]) 2
          [(1, 3)]).1).1
      = leafConcat (DNode.elem 0 [] [DNode.text 1 "abcde".toList]) ∧
    noAdjTexts (clear "foo"
        (applyToRanges "foo" (DNode.elem 0 [] [DNode.text 1 "abcde".toList]) 2
          [(1, 3)]).1).1 = true :=
  c4_clear_restores "foo" (DNode.elem 0 [] [DNode.text 1 "abcde".toList]) 2
    [(1, 3)] (by decide) (by decide) (by decide) (by decide)

/-! ## Reference lookups under sibling splices -/

theorem getByIdList_append (l1 l2 : List DNode) (j : Nat) :
    getByIdList (l1 ++ l2) j
      = match getByIdList l1 j with
        | some n => some n
        | none => getByIdList l2 j := by
  induction l1 with
  | nil => simp [getByIdList]
  | cons c cs ih =>
    simp only [List.cons_append, getByIdList]
    rcases hg : getById c j with _ | n
    · simpa [hg] using ih
    · simp [hg]

theorem parentOfList_append (l1 l2 : List DNode) (j : Nat) :
    parentOfList (l1 ++ l2) j
      = match parentOfList l1 j with
        | some p => some p
        | none => parentOfList l2 j := by
  induction l1 with
  | nil => simp [parentOfList]
  | cons c cs ih =>
    simp only [List.cons_append, parentOfList]
    rcases hg : parentOf c j with _ | p
    · simpa [hg] using ih
    · simp [hg]

theorem mem_idsOfList_of_mem (c : DNode) :
    ∀ cs : List DNode, c ∈ cs → ∀ x ∈ idsOf c, x ∈ idsOfList cs
  | [], hc => by cases hc
  | d :: cs, hc => by
    intro x hx
    rcases List.mem_cons.mp hc with h | h
    · subst h
      simp [idsOfList, hx]
    · simp [idsOfList, mem_idsOfList_of_mem c cs h x hx]

theorem getById_not_mem_none (t : DNode) (j : Nat) (h : j ∉ idsOf t) :
    getById t j = none := by
  rcases hg : getById t j with _ | n
  · rfl
  · exact absurd (getById_mem_ids t j n hg) h

theorem getByIdList_not_mem_none (cs : List DNode) (j : Nat)
    (h : j ∉ idsOfList cs) :
    getByIdList cs j = none := by
  rcases hg : getByIdList cs j with _ | n
  · rfl
  · exact absurd (getByIdList_mem_ids cs j n hg) h

mutual
theorem parentOf_not_mem_none (j : Nat) :
    ∀ t : DNode, j ∉ idsOf t → parentOf t j = none
  | .text i s => fun _ => rfl
  | .elem i k cs => by
    intro h
    have hncs : j ∉ idsOfList cs := fun hm => h (by simp [idsOf, hm])
    have hany : cs.any (fun c => decide (DNode.nid c = j)) = false := by
      simp only [List.any_eq_false]
      intro c hcm hdec
      have heq : DNode.nid c = j := of_decide_eq_true hdec
      exact hncs (mem_idsOfList_of_mem c cs hcm j (by
        have := nid_mem_idsOf c
        rw [heq] at this
        exact this))
    simp [parentOf, hany, parentOfList_not_mem_none j cs hncs]
theorem parentOfList_not_mem_none (j : Nat) :
    ∀ cs : List DNode, j ∉ idsOfList cs → parentOfList cs j = none
  | [] => fun _ => rfl
  | c :: cs => by
    intro h
    have h1 : j ∉ idsOf c := fun hm => h (by simp [idsOfList, hm])
    have h2 : j ∉ idsOfList cs := fun hm => h (by simp [idsOfList, hm])
    simp [parentOfList, parentOf_not_mem_none j c h1,
      parentOfList_not_mem_none j cs h2]
end

theorem any_nid_eq_of_map_eq :
    ∀ (l1 l2 : List DNode), l1.map DNode.nid = l2.map DNode.nid →
      ∀ q : Nat, (l1.any fun x => decide (DNode.nid x = q))
        = (l2.any fun x => decide (DNode.nid x = q))
  | [], [], _, q => rfl
  | [], c :: l2, h, q => by simp at h
  | c :: l1, [], h, q => by simp at h
  | c :: l1, d :: l2, h, q => by
    simp only [List.map_cons, List.cons.injEq] at h
    simp only [List.any_cons, h.1, any_nid_eq_of_map_eq l1 l2 h.2 q]

mutual
/-- The whole-node wrap never touches a distinct pre-existing text leaf `q`,
nor the identity or class list of `q`'s parent element. -/
theorem wholeGo_pres (cls : String) (fresh j q : Nat)
    (hqj : q ≠ j) (hqf : q < fresh) :
    ∀ t : DNode, (idsOf t).Nodup → (∀ x ∈ idsOf t, x < fresh) →
      DNode.nid (wholeGo cls fresh j t).1 = DNode.nid t ∧
      (∀ qv : List Char, getById t q = some (.text q qv) →
        getById (wholeGo cls fresh j t).1 q = some (.text q qv)) ∧
      parentSig (parentOf (wholeGo cls fresh j t).1 q)
        = parentSig (parentOf t q) ∧
      (parentOf (wholeGo cls fresh j t).1 q).isSome = (parentOf t q).isSome
  | .text i s => by
    intro _ _
    exact ⟨rfl, fun qv h => h, rfl, rfl⟩
  | .elem i k cs => by
    intro hnd hbd
    have hfq : fresh ≠ q := Nat.ne_of_gt hqf
    by_cases hany : cs.any (fun c => decide (DNode.nid c = j)) = true
    · obtain ⟨before, c, after, hcs, hcj, hbf⟩ := any_decomp hany
      subst hcs
      have hc : DNode.nid c = j := by simpa using hcj
      have hb : ∀ b ∈ before, DNode.nid b ≠ j := by
        intro b hbm
        have := hbf b hbm
        simpa using this
      have hred : (wholeGo cls fresh j (DNode.elem i k (before ++ c :: after))).1
          = (wholeAtSite cls fresh j i k (before ++ c :: after)).1 := by
        simp [wholeGo, hany]
      rw [hred]
      by_cases h1 : (before ++ c :: after).length = 1
      · have hb0 : before = [] := by
          refine List.eq_nil_of_length_eq_zero ?_
          have := h1
          simp only [List.length_append, List.length_cons] at this
          omega
        have ha0 : after = [] := by
          refine List.eq_nil_of_length_eq_zero ?_
          have := h1
          simp only [List.length_append, List.length_cons] at this
          omega
        subst hb0
        subst ha0
        have hshape : (wholeAtSite cls fresh j i k ([] ++ c :: [])).1
            = DNode.elem i (classListAdd cls k) [c] := by
          simp [wholeAtSite]
        rw [hshape]
        have hcq : DNode.nid c ≠ q := by
          rw [hc]
          exact fun h => hqj h.symm
        refine ⟨rfl, ?_, ?_, ?_⟩
        · intro qv hg
          simp only [getById] at hg ⊢
          by_cases hiq : i = q
          · rw [if_pos hiq] at hg
            cases hg
          · rw [if_neg hiq] at hg ⊢
            simpa using hg
        · simp [parentOf, parentOfList, List.any_cons, hcq]
        · simp [parentOf, parentOfList, List.any_cons, hcq]
      · have h1x : ¬(before.length + (after.length + 1) = 1) := by simpa using h1
        have hshape : (wholeAtSite cls fresh j i k (before ++ c :: after)).1
            = DNode.elem i k (before ++ DNode.elem fresh [cls] [c] :: after) := by
          simp only [wholeAtSite, List.length_append, List.length_cons, h1x,
            if_false, ite_false, if_neg, not_false_iff]
          rw [wrapChild_splice cls fresh j before after c hb hc]
        rw [hshape]
        have hcq : DNode.nid c ≠ q := by
          rw [hc]
          exact fun h => hqj h.symm
        have hgetmid : getByIdList (before ++ DNode.elem fresh [cls] [c] :: after) q
            = getByIdList (before ++ c :: after) q := by
          rw [getByIdList_append, getByIdList_append]
          rcases hgb : getByIdList before q with _ | n
          · simp only [getByIdList]
            have hw : getById (DNode.elem fresh [cls] [c]) q = getById c q := by
              simp only [getById, hfq, if_neg, not_false_iff, ite_false,
                if_false, getByIdList]
              rcases hgc : getById c q with _ | m <;> simp [hgc]
            rw [hw]
          · rfl
        have hanyq : ((before ++ DNode.elem fresh [cls] [c] :: after).any
              (fun x => decide (DNode.nid x = q)))
            = ((before ++ c :: after).any (fun x => decide (DNode.nid x = q))) := by
          simp only [List.any_append, List.any_cons]
          have hcq2 : decide (DNode.nid c = q) = false := by
            simp only [decide_eq_false_iff_not]
            exact hcq
          have hfq2 : decide (DNode.nid (DNode.elem fresh [cls] [c]) = q) = false := by
            simp only [decide_eq_false_iff_not, DNode.nid]
            exact hfq
          rw [hcq2, hfq2]
        have hparmid : parentOfList (before ++ DNode.elem fresh [cls] [c] :: after) q
            = parentOfList (before ++ c :: after) q := by
          rw [parentOfList_append, parentOfList_append]
          rcases hpb : parentOfList before q with _ | p
          · simp only [parentOfList]
            have hw : parentOf (DNode.elem fresh [cls] [c]) q = parentOf c q := by
              have hcq2 : (([c] : List DNode).any
                  (fun x => decide (DNode.nid x = q))) = false := by
                simp only [List.any_cons, List.any_nil, Bool.or_false,
                  decide_eq_false_iff_not]
                exact hcq
              simp only [parentOf, hcq2, Bool.false_eq_true, if_false,
                ite_false, if_neg, not_false_iff, parentOfList]
              rcases hpc : parentOf c q with _ | m <;> simp [hpc]
            rw [hw]
          · rfl
        refine ⟨rfl, ?_, ?_, ?_⟩
        · intro qv hg
          simp only [getById] at hg ⊢
          by_cases hiq : i = q
          · rw [if_pos hiq] at hg
            cases hg
          · rw [if_neg hiq] at hg ⊢
            rw [hgetmid]
            exact hg
        · simp only [parentOf, hanyq]
          by_cases ha : ((before ++ c :: after).any
              (fun x => decide (DNode.nid x = q))) = true
          · rw [ha]
            simp [parentSig]
          · have ha2 : ((before ++ c :: after).any
                (fun x => decide (DNode.nid x = q))) = false := by simpa using ha
            rw [ha2]
            simp only [Bool.false_eq_true, if_false, ite_false, if_neg,
              not_false_iff]
            rw [hparmid]
        · simp only [parentOf, hanyq]
          by_cases ha : ((before ++ c :: after).any
              (fun x => decide (DNode.nid x = q))) = true
          · rw [ha]
            simp
          · have ha2 : ((before ++ c :: after).any
                (fun x => decide (DNode.nid x = q))) = false := by simpa using ha
            rw [ha2]
            simp only [Bool.false_eq_true, if_false, ite_false, if_neg,
              not_false_iff]
            rw [hparmid]
    · have hany2 : cs.any (fun c => decide (DNode.nid c = j)) = false := by
        simpa using hany
      have hndl : (idsOfList cs).Nodup := by
        have := List.nodup_cons.mp (by simpa [idsOf] using hnd)
        exact this.2
      have hbdl : ∀ x ∈ idsOfList cs, x < fresh := by
        intro x hx
        exact hbd x (by simp [idsOf, hx])
      obtain ⟨l0, l1, l2, l3⟩ := wholeGoList_pres cls fresh j q hqj hqf cs hndl hbdl
      rcases hw : wholeGoList cls fresh j cs with ⟨cs2, r⟩
      rw [hw] at l0 l1 l2 l3
      have hred : (wholeGo cls fresh j (DNode.elem i k cs)).1
          = DNode.elem i k cs2 := by
        rcases r with _ | x <;> simp [wholeGo, hany2, hw]
      rw [hred]
      have hanyq : (cs2.any (fun x => decide (DNode.nid x = q)))
          = (cs.any (fun x => decide (DNode.nid x = q))) :=
        any_nid_eq_of_map_eq cs2 cs l0 q
      refine ⟨rfl, ?_, ?_, ?_⟩
      · intro qv hg
        simp only [getById] at hg ⊢
        by_cases hiq : i = q
        · rw [if_pos hiq] at hg
          cases hg
        · rw [if_neg hiq] at hg ⊢
          exact l1 qv hg
      · simp only [parentOf, hanyq]
        by_cases ha : (cs.any (fun x => decide (DNode.nid x = q))) = true
        · rw [ha]
          simp [parentSig]
        · have ha2 : (cs.any (fun x => decide (DNode.nid x = q))) = false := by
            simpa using ha
          rw [ha2]
          simp only [Bool.false_eq_true, if_false, ite_false, if_neg,
            not_false_iff]
          exact l2
      · simp only [parentOf, hanyq]
        by_cases ha : (cs.any (fun x => decide (DNode.nid x = q))) = true
        · rw [ha]
          simp
        · have ha2 : (cs.any (fun x => decide (DNode.nid x = q))) = false := by
            simpa using ha
          rw [ha2]
          simp only [Bool.false_eq_true, if_false, ite_false, if_neg,
            not_false_iff]
          exact l3
theorem wholeGoList_pres (cls : String) (fresh j q : Nat)
    (hqj : q ≠ j) (hqf : q < fresh) :
    ∀ cs : List DNode, (idsOfList cs).Nodup → (∀ x ∈ idsOfList cs, x < fresh) →
      (wholeGoList cls fresh j cs).1.map DNode.nid = cs.map DNode.nid ∧
      (∀ qv : List Char, getByIdList cs q = some (.text q qv) →
        getByIdList (wholeGoList cls fresh j cs).1 q = some (.text q qv)) ∧
      parentSig (parentOfList (wholeGoList cls fresh j cs).1 q)
        = parentSig (parentOfList cs q) ∧
      (parentOfList (wholeGoList cls fresh j cs).1 q).isSome
        = (parentOfList cs q).isSome
  | [] => by
    intro _ _
    exact ⟨rfl, fun qv h => h, rfl, rfl⟩
  | c :: cs => by
    intro hnd hbd
    have hndc : (idsOf c).Nodup := by
      have h2 : (idsOf c ++ idsOfList cs).Nodup := by
        simpa [idsOfList] using hnd
      exact h2.of_append_left
    have hndcs : (idsOfList cs).Nodup := by
      have h2 : (idsOf c ++ idsOfList cs).Nodup := by
        simpa [idsOfList] using hnd
      exact h2.of_append_right
    have hbdc : ∀ x ∈ idsOf c, x < fresh := by
      intro x hx
      exact hbd x (by simp [idsOfList, hx])
    have hbdcs : ∀ x ∈ idsOfList cs, x < fresh := by
      intro x hx
      exact hbd x (by simp [idsOfList, hx])
    obtain ⟨t0, t1, t2, t3⟩ := wholeGo_pres cls fresh j q hqj hqf c hndc hbdc
    rcases hw : wholeGo cls fresh j c with ⟨c2, r⟩
    rw [hw] at t0 t1 t2 t3
    have hgnone : getById c q = none → getById c2 q = none := by
      intro hn
      refine getById_not_mem_none c2 q ?_
      intro hmem
      cases r with
      | none =>
        have := wholeGo_none cls fresh j hw
        subst this
        exact (getById_none_not_mem hn) hmem
      | some x =>
        rcases x with ⟨f2, a2⟩
        obtain ⟨_, _, _, hsub⟩ := wholeGo_wf cls fresh j hw hndc hbdc
        rcases hsub q hmem with h | ⟨h, _⟩
        · exact (getById_none_not_mem hn) h
        · omega
    cases r with
    | some x =>
      have hred : wholeGoList cls fresh j (c :: cs) = (c2 :: cs, some x) := by
        simp [wholeGoList, hw]
      rw [hred]
      refine ⟨by simp [t0], ?_, ?_, ?_⟩
      · intro qv hg
        simp only [getByIdList] at hg ⊢
        rcases hgc : getById c q with _ | n
        · rw [hgc] at hg
          rw [hgnone hgc]
          exact hg
        · rw [hgc] at hg
          have hn : n = DNode.text q qv := by
            simpa using hg
          subst hn
          rw [t1 qv hgc]
      · simp only [parentOfList]
        rcases hpc : parentOf c q with _ | p
        · have hnone : parentOf c2 q = none := by
            have := t3
            rw [hpc] at this
            simp only [Option.isSome_none] at this
            rcases hpc2 : parentOf c2 q with _ | p2
            · rfl
            · rw [hpc2] at this
              simp at this
          rw [hnone]
        · have hsome : ∃ p2, parentOf c2 q = some p2 := by
            have := t3
            rw [hpc] at this
            simp only [Option.isSome_some] at this
            rcases hpc2 : parentOf c2 q with _ | p2
            · rw [hpc2] at this
              simp at this
            · exact ⟨p2, rfl⟩
          obtain ⟨p2, hp2⟩ := hsome
          rw [hp2]
          have := t2
          rw [hpc, hp2] at this
          exact this
      · simp only [parentOfList]
        rcases hpc : parentOf c q with _ | p
        · have hnone : parentOf c2 q = none := by
            have := t3
            rw [hpc] at this
            simp only [Option.isSome_none] at this
            rcases hpc2 : parentOf c2 q with _ | p2
            · rfl
            · rw [hpc2] at this
              simp at this
          rw [hnone]
        · have hsome : ∃ p2, parentOf c2 q = some p2 := by
            have := t3
            rw [hpc] at this
            simp only [Option.isSome_some] at this
            rcases hpc2 : parentOf c2 q with _ | p2
            · rw [hpc2] at this
              simp at this
            · exact ⟨p2, rfl⟩
          obtain ⟨p2, hp2⟩ := hsome
          rw [hp2]
          rfl
    | none =>
      obtain ⟨l0, l1, l2, l3⟩ := wholeGoList_pres cls fresh j q hqj hqf cs
        hndcs hbdcs
      rcases hp : wholeGoList cls fresh j cs with ⟨cs2, r2⟩
      rw [hp] at l0 l1 l2 l3
      have hct : c2 = c := wholeGo_none cls fresh j hw
      rw [hct] at hw t0 t1 t2 t3
      have hred : wholeGoList cls fresh j (c :: cs) = (c :: cs2, r2) := by
        simp [wholeGoList, hw, hp]
      rw [hred]
      refine ⟨by simp [l0], ?_, ?_, ?_⟩
      · intro qv hg
        simp only [getByIdList] at hg ⊢
        rcases hgc : getById c q with _ | n
        · rw [hgc] at hg
          exact l1 qv hg
        · rw [hgc] at hg
          exact hg
      · simp only [parentOfList]
        rcases hpc : parentOf c q with _ | p
        · exact l2
        · rfl
      · simp only [parentOfList]
        rcases hpc : parentOf c q with _ | p
        · exact l3
        · rfl
end

mutual
/-- The single-node split never touches a distinct pre-existing text leaf
`q`, nor the identity or class list of `q`'s parent element. -/
theorem applyGo_pres (cls : String) (fresh j s e q : Nat)
    (hqj : q ≠ j) (hqf : q < fresh) :
    ∀ t : DNode, (idsOf t).Nodup → (∀ x ∈ idsOf t, x < fresh) →
      DNode.nid (applyGo cls fresh j s e t).1 = DNode.nid t ∧
      (∀ qv : List Char, getById t q = some (.text q qv) →
        getById (applyGo cls fresh j s e t).1 q = some (.text q qv)) ∧
      parentSig (parentOf (applyGo cls fresh j s e t).1 q)
        = parentSig (parentOf t q) ∧
      (parentOf (applyGo cls fresh j s e t).1 q).isSome = (parentOf t q).isSome
  | .text i v => by
    intro _ _
    exact ⟨rfl, fun qv h => h, rfl, rfl⟩
  | .elem i k cs => by
    intro hnd hbd
    have hfq : fresh ≠ q := Nat.ne_of_gt hqf
    have hf1q : fresh + 1 ≠ q := by omega
    have hf2q : fresh + 2 ≠ q := by omega
    have hjq : j ≠ q := fun h => hqj h.symm
    rcases hf : cs.find? (fun c => decide (DNode.nid c = j)) with _ | c
    · have hndl : (idsOfList cs).Nodup := by
        have := List.nodup_cons.mp (by simpa [idsOf] using hnd)
        exact this.2
      have hbdl : ∀ x ∈ idsOfList cs, x < fresh := by
        intro x hx
        exact hbd x (by simp [idsOf, hx])
      obtain ⟨l0, l1, l2, l3⟩ := applyGoList_pres cls fresh j s e q hqj hqf cs
        hndl hbdl
      rcases hw : applyGoList cls fresh j s e cs with ⟨cs2, r⟩
      rw [hw] at l0 l1 l2 l3
      have hred : (applyGo cls fresh j s e (DNode.elem i k cs)).1
          = DNode.elem i k cs2 := by
        simp [applyGo, hf, hw]
      rw [hred]
      have hanyq : (cs2.any (fun x => decide (DNode.nid x = q)))
          = (cs.any (fun x => decide (DNode.nid x = q))) :=
        any_nid_eq_of_map_eq cs2 cs l0 q
      refine ⟨rfl, ?_, ?_, ?_⟩
      · intro qv hg
        simp only [getById] at hg ⊢
        by_cases hiq : i = q
        · rw [if_pos hiq] at hg
          cases hg
        · rw [if_neg hiq] at hg ⊢
          exact l1 qv hg
      · simp only [parentOf, hanyq]
        by_cases ha : (cs.any (fun x => decide (DNode.nid x = q))) = true
        · rw [ha]
          simp [parentSig]
        · have ha2 : (cs.any (fun x => decide (DNode.nid x = q))) = false := by
            simpa using ha
          rw [ha2]
          simp only [Bool.false_eq_true, if_false, ite_false, if_neg,
            not_false_iff]
          exact l2
      · simp only [parentOf, hanyq]
        by_cases ha : (cs.any (fun x => decide (DNode.nid x = q))) = true
        · rw [ha]
          simp
        · have ha2 : (cs.any (fun x => decide (DNode.nid x = q))) = false := by
            simpa using ha
          rw [ha2]
          simp only [Bool.false_eq_true, if_false, ite_false, if_neg,
            not_false_iff]
          exact l3
    · obtain ⟨before, after, hcs, hcj, hbf⟩ := find_decomp hf
      subst hcs
      have hb : ∀ b ∈ before, DNode.nid b ≠ j := by
        intro b hbm
        have := hbf b hbm
        simpa using this
      have hc : DNode.nid c = j := by simpa using hcj
      have hany : (before ++ c :: after).any
          (fun x => decide (DNode.nid x = j)) = true := by
        simp only [List.any_append, List.any_cons]
        have : decide (DNode.nid c = j) = true := by simp [hc]
        rw [this]
        simp
      cases c with
      | text ti w =>
        have htij : ti = j := by simpa [DNode.nid] using hc
        subst htij
        by_cases hwhole : s = 0 ∧ e = w.length
        · have heq : (applyGo cls fresh ti s e
              (DNode.elem i k (before ++ DNode.text ti w :: after))).1
              = (wholeGo cls fresh ti
                  (DNode.elem i k (before ++ DNode.text ti w :: after))).1 := by
            simp [applyGo, hf, hwhole, wholeGo, hany]
          rw [heq]
          have h := wholeGo_pres cls fresh ti q hqj hqf
            (DNode.elem i k (before ++ DNode.text ti w :: after)) hnd hbd
          exact h
        · have hred : (applyGo cls fresh ti s e
              (DNode.elem i k (before ++ DNode.text ti w :: after))).1
              = DNode.elem i k (splitChildren cls fresh ti s e
                  (before ++ DNode.text ti w :: after)) := by
            simp [applyGo, hf, hwhole]
          rw [hred, splitChildren_splice cls fresh ti s e w before after hb]
          have htiq : decide (ti = q) = false := by
            simp only [decide_eq_false_iff_not]
            exact hjq
          by_cases hs0 : s = 0
          · rw [if_pos hs0]
            have hE : getById (DNode.elem fresh [cls]
                [DNode.text (fresh + 1) (jsSubstring w 0 e)]) q = none := by
              simp [getById, getByIdList, hfq, hf1q]
            have hT : getById (DNode.text ti (jsSubstring w e w.length)) q
                = none := by
              simp [getById, hjq]
            have hT0 : getById (DNode.text ti w) q = none := by
              simp [getById, hjq]
            have hget : getByIdList (before ++ DNode.elem fresh [cls]
                  [DNode.text (fresh + 1) (jsSubstring w 0 e)]
                  :: DNode.text ti (jsSubstring w e w.length) :: after) q
                = getByIdList (before ++ DNode.text ti w :: after) q := by
              rw [getByIdList_append, getByIdList_append]
              rcases hgb : getByIdList before q with _ | n
              · simp only [getByIdList, hE, hT, hT0]
              · rfl
            have hanyq : ((before ++ DNode.elem fresh [cls]
                  [DNode.text (fresh + 1) (jsSubstring w 0 e)]
                  :: DNode.text ti (jsSubstring w e w.length) :: after).any
                  (fun x => decide (DNode.nid x = q)))
                = ((before ++ DNode.text ti w :: after).any
                  (fun x => decide (DNode.nid x = q))) := by
              simp only [List.any_append, List.any_cons, DNode.nid]
              have hfd : decide (fresh = q) = false := by
                simp only [decide_eq_false_iff_not]
                exact hfq
              rw [hfd, htiq]
              simp
            have hpar : parentOfList (before ++ DNode.elem fresh [cls]
                  [DNode.text (fresh + 1) (jsSubstring w 0 e)]
                  :: DNode.text ti (jsSubstring w e w.length) :: after) q
                = parentOfList (before ++ DNode.text ti w :: after) q := by
              rw [parentOfList_append, parentOfList_append]
              rcases hpb : parentOfList before q with _ | p
              · have hEp : parentOf (DNode.elem fresh [cls]
                    [DNode.text (fresh + 1) (jsSubstring w 0 e)]) q = none := by
                  simp [parentOf, parentOfList, hf1q, DNode.nid]
                have hPT : ∀ (a : Nat) (v2 : List Char),
                    parentOf (DNode.text a v2) q = none := fun a v2 => rfl
                simp only [parentOfList, hEp, hPT]
              · rfl
            refine ⟨rfl, ?_, ?_, ?_⟩
            · intro qv hg
              simp only [getById] at hg ⊢
              by_cases hiq : i = q
              · rw [if_pos hiq] at hg
                cases hg
              · rw [if_neg hiq] at hg ⊢
                rw [hget]
                exact hg
            · simp only [parentOf, hanyq]
              by_cases ha : ((before ++ DNode.text ti w :: after).any
                  (fun x => decide (DNode.nid x = q))) = true
              · rw [ha]
                simp [parentSig]
              · have ha2 : ((before ++ DNode.text ti w :: after).any
                    (fun x => decide (DNode.nid x = q))) = false := by
                  simpa using ha
                rw [ha2]
                simp only [Bool.false_eq_true, if_false, ite_false, if_neg,
                  not_false_iff]
                rw [hpar]
            · simp only [parentOf, hanyq]
              by_cases ha : ((before ++ DNode.text ti w :: after).any
                  (fun x => decide (DNode.nid x = q))) = true
              · rw [ha]
                simp
              · have ha2 : ((before ++ DNode.text ti w :: after).any
                    (fun x => decide (DNode.nid x = q))) = false := by
                  simpa using ha
                rw [ha2]
                simp only [Bool.false_eq_true, if_false, ite_false, if_neg,
                  not_false_iff]
                rw [hpar]
          · rw [if_neg hs0]
            have hE : getById (DNode.elem fresh [cls]
                [DNode.text (fresh + 1) (jsSubstring w s e)]) q = none := by
              simp [getById, getByIdList, hfq, hf1q]
            have hT1 : getById (DNode.text ti (jsSubstring w 0 s)) q = none := by
              simp [getById, hjq]
            have hT0 : getById (DNode.text ti w) q = none := by
              simp [getById, hjq]
            have hoptget : getByIdList ((if e < w.length then
                  [DNode.text (fresh + 2) (jsSubstring w e w.length)]
                 else []) ++ after) q = getByIdList after q := by
              by_cases hel : e < w.length
              · rw [if_pos hel]
                simp [getByIdList, getById, hf2q]
              · rw [if_neg hel]
                simp
            have hoptpar : parentOfList ((if e < w.length then
                  [DNode.text (fresh + 2) (jsSubstring w e w.length)]
                 else []) ++ after) q = parentOfList after q := by
              by_cases hel : e < w.length
              · rw [if_pos hel]
                simp [parentOfList, parentOf]
              · rw [if_neg hel]
                simp
            have hoptany : ((if e < w.length then
                  [DNode.text (fresh + 2) (jsSubstring w e w.length)]
                 else []).any (fun x => decide (DNode.nid x = q))) = false := by
              by_cases hel : e < w.length
              · rw [if_pos hel]
                simp only [List.any_cons, List.any_nil, DNode.nid]
                simp [hf2q]
              · rw [if_neg hel]
                simp
            have hget : getByIdList (before ++ DNode.text ti (jsSubstring w 0 s)
                  :: DNode.elem fresh [cls]
                    [DNode.text (fresh + 1) (jsSubstring w s e)]
                  :: ((if e < w.length then
                      [DNode.text (fresh + 2) (jsSubstring w e w.length)]
                     else []) ++ after)) q
                = getByIdList (before ++ DNode.text ti w :: after) q := by
              rw [getByIdList_append, getByIdList_append]
              rcases hgb : getByIdList before q with _ | n
              · simp only [getByIdList, hE, hT1, hT0, hoptget]
              · rfl
            have hanyq : ((before ++ DNode.text ti (jsSubstring w 0 s)
                  :: DNode.elem fresh [cls]
                    [DNode.text (fresh + 1) (jsSubstring w s e)]
                  :: ((if e < w.length then
                      [DNode.text (fresh + 2) (jsSubstring w e w.length)]
                     else []) ++ after)).any (fun x => decide (DNode.nid x = q)))
                = ((before ++ DNode.text ti w :: after).any
                  (fun x => decide (DNode.nid x = q))) := by
              simp only [List.any_append, List.any_cons]
              rw [hoptany]
              simp only [Bool.false_or]
              simp only [DNode.nid]
              have hfd : decide (fresh = q) = false := by
                simp only [decide_eq_false_iff_not]
                exact hfq
              rw [hfd, htiq]
              simp
            have hpar : parentOfList (before ++ DNode.text ti (jsSubstring w 0 s)
                  :: DNode.elem fresh [cls]
                    [DNode.text (fresh + 1) (jsSubstring w s e)]
                  :: ((if e < w.length then
                      [DNode.text (fresh + 2) (jsSubstring w e w.length)]
                     else []) ++ after)) q
                = parentOfList (before ++ DNode.text ti w :: after) q := by
              rw [parentOfList_append, parentOfList_append]
              rcases hpb : parentOfList before q with _ | p
              · have hEp : parentOf (DNode.elem fresh [cls]
                    [DNode.text (fresh + 1) (jsSubstring w s e)]) q = none := by
                  simp [parentOf, parentOfList, hf1q, DNode.nid]
                have hPT : ∀ (a : Nat) (v2 : List Char),
                    parentOf (DNode.text a v2) q = none := fun a v2 => rfl
                simp only [parentOfList, hEp, hPT, hoptpar]
              · rfl
            refine ⟨rfl, ?_, ?_, ?_⟩
            · intro qv hg
              simp only [getById] at hg ⊢
              by_cases hiq : i = q
              · rw [if_pos hiq] at hg
                cases hg
              · rw [if_neg hiq] at hg ⊢
                rw [hget]
                exact hg
            · simp only [parentOf, hanyq]
              by_cases ha : ((before ++ DNode.text ti w :: after).any
                  (fun x => decide (DNode.nid x = q))) = true
              · rw [ha]
                simp [parentSig]
              · have ha2 : ((before ++ DNode.text ti w :: after).any
                    (fun x => decide (DNode.nid x = q))) = false := by
                  simpa using ha
                rw [ha2]
                simp only [Bool.false_eq_true, if_false, ite_false, if_neg,
                  not_false_iff]
                rw [hpar]
            · simp only [parentOf, hanyq]
              by_cases ha : ((before ++ DNode.text ti w :: after).any
                  (fun x => decide (DNode.nid x = q))) = true
              · rw [ha]
                simp
              · have ha2 : ((before ++ DNode.text ti w :: after).any
                    (fun x => decide (DNode.nid x = q))) = false := by
                  simpa using ha
                rw [ha2]
                simp only [Bool.false_eq_true, if_false, ite_false, if_neg,
                  not_false_iff]
                rw [hpar]
      | elem ci ck ccs =>
        have hred : (applyGo cls fresh j s e
            (DNode.elem i k (before ++ DNode.elem ci ck ccs :: after))).1
            = DNode.elem i k (before ++ DNode.elem ci ck ccs :: after) := by
          simp [applyGo, hf]
        rw [hred]
        exact ⟨rfl, fun qv h => h, rfl, rfl⟩
theorem applyGoList_pres (cls : String) (fresh j s e q : Nat)
    (hqj : q ≠ j) (hqf : q < fresh) :
    ∀ cs : List DNode, (idsOfList cs).Nodup → (∀ x ∈ idsOfList cs, x < fresh) →
      (applyGoList cls fresh j s e cs).1.map DNode.nid = cs.map DNode.nid ∧
      (∀ qv : List Char, getByIdList cs q = some (.text q qv) →
        getByIdList (applyGoList cls fresh j s e cs).1 q = some (.text q qv)) ∧
      parentSig (parentOfList (applyGoList cls fresh j s e cs).1 q)
        = parentSig (parentOfList cs q) ∧
      (parentOfList (applyGoList cls fresh j s e cs).1 q).isSome
        = (parentOfList cs q).isSome
  | [] => by
    intro _ _
    exact ⟨rfl, fun qv h => h, rfl, rfl⟩
  | c :: cs => by
    intro hnd hbd
    have hndc : (idsOf c).Nodup := by
      have h2 : (idsOf c ++ idsOfList cs).Nodup := by
        simpa [idsOfList] using hnd
      exact h2.of_append_left
    have hndcs : (idsOfList cs).Nodup := by
      have h2 : (idsOf c ++ idsOfList cs).Nodup := by
        simpa [idsOfList] using hnd
      exact h2.of_append_right
    have hbdc : ∀ x ∈ idsOf c, x < fresh := by
      intro x hx
      exact hbd x (by simp [idsOfList, hx])
    have hbdcs : ∀ x ∈ idsOfList cs, x < fresh := by
      intro x hx
      exact hbd x (by simp [idsOfList, hx])
    obtain ⟨t0, t1, t2, t3⟩ := applyGo_pres cls fresh j s e q hqj hqf c hndc hbdc
    rcases hw : applyGo cls fresh j s e c with ⟨c2, r⟩
    rw [hw] at t0 t1 t2 t3
    have hgnone : getById c q = none → getById c2 q = none := by
      intro hn
      refine getById_not_mem_none c2 q ?_
      intro hmem
      cases r with
      | none =>
        have := applyGo_none cls fresh j s e hw
        subst this
        exact (getById_none_not_mem hn) hmem
      | some x =>
        rcases x with ⟨f2, a2⟩
        obtain ⟨_, _, _, hsub⟩ := applyGo_wf cls fresh j s e hw hndc hbdc
        rcases hsub q hmem with h | ⟨h, _⟩
        · exact (getById_none_not_mem hn) h
        · omega
    cases r with
    | some x =>
      have hred : applyGoList cls fresh j s e (c :: cs) = (c2 :: cs, some x) := by
        simp [applyGoList, hw]
      rw [hred]
      refine ⟨by simp [t0], ?_, ?_, ?_⟩
      · intro qv hg
        simp only [getByIdList] at hg ⊢
        rcases hgc : getById c q with _ | n
        · rw [hgc] at hg
          rw [hgnone hgc]
          exact hg
        · rw [hgc] at hg
          have hn : n = DNode.text q qv := by
            simpa using hg
          subst hn
          rw [t1 qv hgc]
      · simp only [parentOfList]
        rcases hpc : parentOf c q with _ | p
        · have hnone : parentOf c2 q = none := by
            have := t3
            rw [hpc] at this
            simp only [Option.isSome_none] at this
            rcases hpc2 : parentOf c2 q with _ | p2
            · rfl
            · rw [hpc2] at this
              simp at this
          rw [hnone]
        · have hsome : ∃ p2, parentOf c2 q = some p2 := by
            have := t3
            rw [hpc] at this
            simp only [Option.isSome_some] at this
            rcases hpc2 : parentOf c2 q with _ | p2
            · rw [hpc2] at this
              simp at this
            · exact ⟨p2, rfl⟩
          obtain ⟨p2, hp2⟩ := hsome
          rw [hp2]
          have := t2
          rw [hpc, hp2] at this
          exact this
      · simp only [parentOfList]
        rcases hpc : parentOf c q with _ | p
        · have hnone : parentOf c2 q = none := by
            have := t3
            rw [hpc] at this
            simp only [Option.isSome_none] at this
            rcases hpc2 : parentOf c2 q with _ | p2
            · rfl
            · rw [hpc2] at this
              simp at this
          rw [hnone]
        · have hsome : ∃ p2, parentOf c2 q = some p2 := by
            have := t3
            rw [hpc] at this
            simp only [Option.isSome_some] at this
            rcases hpc2 : parentOf c2 q with _ | p2
            · rw [hpc2] at this
              simp at this
            · exact ⟨p2, rfl⟩
          obtain ⟨p2, hp2⟩ := hsome
          rw [hp2]
          rfl
    | none =>
      obtain ⟨l0, l1, l2, l3⟩ := applyGoList_pres cls fresh j s e q hqj hqf cs
        hndcs hbdcs
      rcases hp : applyGoList cls fresh j s e cs with ⟨cs2, r2⟩
      rw [hp] at l0 l1 l2 l3
      have hct : c2 = c := applyGo_none cls fresh j s e hw
      rw [hct] at hw t0 t1 t2 t3
      have hred : applyGoList cls fresh j s e (c :: cs) = (c :: cs2, r2) := by
        simp [applyGoList, hw, hp]
      rw [hred]
      refine ⟨by simp [l0], ?_, ?_, ?_⟩
      · intro qv hg
        simp only [getByIdList] at hg ⊢
        rcases hgc : getById c q with _ | n
        · rw [hgc] at hg
          exact l1 qv hg
        · rw [hgc] at hg
          exact hg
      · simp only [parentOfList]
        rcases hpc : parentOf c q with _ | p
        · exact l2
        · rfl
      · simp only [parentOfList]
        rcases hpc : parentOf c q with _ | p
        · exact l3
        · rfl
end


/-! ## C7 machinery: skip and wrap behaviour of the multi-node path -/

theorem mem_classListAdd (cls : String) (l : List String) :
    cls ∈ classListAdd cls l := by
  unfold classListAdd
  by_cases h : cls ∈ l
  · rw [if_pos h]
    exact h
  · rw [if_neg h]
    simp

theorem parentSig_elim {o : Option DNode} {a : Nat} {b : List String}
    (h : parentSig o = some (a, b)) :
    ∃ cs0, o = some (DNode.elem a b cs0) := by
  rcases o with _ | n
  · simp [parentSig] at h
  · rcases n with ⟨i, v⟩ | ⟨i, k, cs0⟩
    · simp [parentSig] at h
    · refine ⟨cs0, ?_⟩
      simp only [parentSig, Option.some.injEq, Prod.mk.injEq] at h
      rw [h.1, h.2]

theorem wholeGo_nid (cls : String) (fresh j : Nat) :
    ∀ t : DNode, DNode.nid (wholeGo cls fresh j t).1 = DNode.nid t
  | .text i s => rfl
  | .elem i k cs => by
    by_cases hany : cs.any (fun c => decide (DNode.nid c = j)) = true
    · simp only [wholeGo, hany, if_true]
      by_cases h1 : cs.length = 1
      · simp [wholeAtSite, h1, DNode.nid]
      · simp [wholeAtSite, h1, DNode.nid]
    · have hany2 : cs.any (fun c => decide (DNode.nid c = j)) = false := by
        simpa using hany
      rcases hl : wholeGoList cls fresh j cs with ⟨cs2, r2⟩
      have hred : (wholeGo cls fresh j (DNode.elem i k cs)).1
          = DNode.elem i k cs2 := by
        simp [wholeGo, hany2, hl]
      rw [hred]
      rfl

theorem wholeGoList_map_nid (cls : String) (fresh j : Nat) :
    ∀ cs : List DNode,
      (wholeGoList cls fresh j cs).1.map DNode.nid = cs.map DNode.nid
  | [] => rfl
  | c :: cs => by
    have hn := wholeGo_nid cls fresh j c
    rcases hw : wholeGo cls fresh j c with ⟨c2, r⟩
    have hw1 : (wholeGo cls fresh j c).1 = c2 := by rw [hw]
    rw [hw1] at hn
    cases r with
    | some x =>
      have hred : (wholeGoList cls fresh j (c :: cs)).1 = c2 :: cs := by
        simp [wholeGoList, hw]
      rw [hred]
      simp [hn]
    | none =>
      have hred : (wholeGoList cls fresh j (c :: cs)).1
          = c2 :: (wholeGoList cls fresh j cs).1 := by
        simp [wholeGoList, hw]
      rw [hred]
      simp only [List.map_cons, hn, wholeGoList_map_nid cls fresh j cs]

mutual
theorem wholeGo_found_iff (cls : String) (fresh j : Nat) :
    ∀ t : DNode, (wholeGo cls fresh j t).2.isSome = (parentOf t j).isSome
  | .text i s => rfl
  | .elem i k cs => by
    by_cases hany : cs.any (fun c => decide (DNode.nid c = j)) = true
    · simp [wholeGo, parentOf, hany]
    · have hany2 : cs.any (fun c => decide (DNode.nid c = j)) = false := by
        simpa using hany
      rcases hl : wholeGoList cls fresh j cs with ⟨cs2, r2⟩
      have hred : (wholeGo cls fresh j (DNode.elem i k cs)).2 = r2 := by
        simp [wholeGo, hany2, hl]
      have hp : parentOf (DNode.elem i k cs) j = parentOfList cs j := by
        simp [parentOf, hany2]
      rw [hred, hp]
      have h := wholeGoList_found_iff cls fresh j cs
      rw [hl] at h
      exact h
theorem wholeGoList_found_iff (cls : String) (fresh j : Nat) :
    ∀ cs : List DNode,
      (wholeGoList cls fresh j cs).2.isSome = (parentOfList cs j).isSome
  | [] => rfl
  | c :: cs => by
    have hc := wholeGo_found_iff cls fresh j c
    rcases hw : wholeGo cls fresh j c with ⟨c2, r⟩
    have hw2 : (wholeGo cls fresh j c).2 = r := by rw [hw]
    rw [hw2] at hc
    cases r with
    | some x =>
      have hred : (wholeGoList cls fresh j (c :: cs)).2 = some x := by
        simp [wholeGoList, hw]
      rw [hred]
      have hps : ∃ p, parentOf c j = some p := by
        rcases hp0 : parentOf c j with _ | p
        · rw [hp0] at hc
          simp at hc
        · exact ⟨p, rfl⟩
      obtain ⟨p, hp⟩ := hps
      simp [parentOfList, hp]
    | none =>
      have hpn : parentOf c j = none := by
        rcases hp0 : parentOf c j with _ | p
        · rfl
        · rw [hp0] at hc
          simp at hc
      rcases hl : wholeGoList cls fresh j cs with ⟨cs2, r2⟩
      have hred : (wholeGoList cls fresh j (c :: cs)).2 = r2 := by
        simp [wholeGoList, hw, hl]
      rw [hred]
      simp only [parentOfList, hpn]
      have h := wholeGoList_found_iff cls fresh j cs
      rw [hl] at h
      exact h
end

mutual
theorem wholeGo_style (cls : String) (fresh j : Nat) :
    ∀ t : DNode, (idsOf t).Nodup → (∀ x ∈ idsOf t, x < fresh) →
      ∀ P : DNode, parentOf t j = some P →
      ∃ pid2 pk2, parentSig (parentOf (wholeGo cls fresh j t).1 j)
        = some (pid2, pk2) ∧ cls ∈ pk2
  | .text i s => by
    intro _ _ P hP
    simp [parentOf] at hP
  | .elem i k cs => by
    intro hnd hbd P hP
    by_cases hany : cs.any (fun c => decide (DNode.nid c = j)) = true
    · obtain ⟨before, c, after, hcs, hcj, hbf⟩ := any_decomp hany
      subst hcs
      have hc : DNode.nid c = j := by simpa using hcj
      have hb : ∀ b ∈ before, DNode.nid b ≠ j := by
        intro b hbm
        have := hbf b hbm
        simpa using this
      have hjc : j ∈ idsOf c := by
        rw [← hc]
        exact nid_mem_idsOf c
      have hjmem : j ∈ idsOfList (before ++ c :: after) :=
        mem_idsOfList_of_mem c _ (by simp) j hjc
      have hjf : j < fresh := hbd j (by simp [idsOf, hjmem])
      have hred1 : (wholeGo cls fresh j (DNode.elem i k (before ++ c :: after))).1
          = (wholeAtSite cls fresh j i k (before ++ c :: after)).1 := by
        simp [wholeGo, hany]
      rw [hred1]
      unfold wholeAtSite
      by_cases h1 : (before ++ c :: after).length = 1
      · rw [if_pos h1]
        refine ⟨i, classListAdd cls k, ?_, mem_classListAdd cls k⟩
        show parentSig (parentOf (DNode.elem i (classListAdd cls k)
            (before ++ c :: after)) j) = some (i, classListAdd cls k)
        have hpar : parentOf (DNode.elem i (classListAdd cls k)
            (before ++ c :: after)) j
            = some (DNode.elem i (classListAdd cls k) (before ++ c :: after)) := by
          simp [parentOf, hany]
        rw [hpar]
        rfl
      · rw [if_neg h1]
        refine ⟨fresh, [cls], ?_, by simp⟩
        show parentSig (parentOf (DNode.elem i k
            (wrapChild cls fresh j (before ++ c :: after))) j)
          = some (fresh, [cls])
        rw [wrapChild_splice cls fresh j before after c hb hc]
        have hnd2 : (idsOfList before ++ (idsOf c ++ idsOfList after)).Nodup := by
          have h0 : (idsOfList (before ++ c :: after)).Nodup := by
            have h2 := List.nodup_cons.mp (by simpa [idsOf] using hnd)
            exact h2.2
          simpa [idsOfList_append, idsOfList] using h0
        have hjbef : j ∉ idsOfList before := by
          intro hmem
          have hdis := (List.nodup_append.mp hnd2).2.2
          exact hdis hmem (by simp [hjc])
        have hjaft : j ∉ idsOfList after := by
          intro hmem
          have hdis := (List.nodup_append.mp (hnd2.of_append_right)).2.2
          exact hdis hjc hmem
        have haft : ∀ a ∈ after, DNode.nid a ≠ j := by
          intro a ham heq
          exact hjaft (mem_idsOfList_of_mem a after ham j (by
            rw [← heq]
            exact nid_mem_idsOf a))
        have hanyW : ((before ++ DNode.elem fresh [cls] [c] :: after).any
            (fun x => decide (DNode.nid x = j))) = false := by
          rw [List.any_eq_false]
          intro x hx
          rcases List.mem_append.mp hx with hxb | hxc
          · simp only [decide_eq_true_eq]
            exact hb x hxb
          · rcases List.mem_cons.mp hxc with rfl | hxa
            · simp only [decide_eq_true_eq, DNode.nid]
              omega
            · simp only [decide_eq_true_eq]
              exact haft x hxa
        have hpw : parentOf (DNode.elem fresh [cls] [c]) j
            = some (DNode.elem fresh [cls] [c]) := by
          simp [parentOf, hc]
        have hpbef : parentOfList before j = none :=
          parentOfList_not_mem_none j before hjbef
        have hfinal : parentOf (DNode.elem i k
            (before ++ DNode.elem fresh [cls] [c] :: after)) j
            = some (DNode.elem fresh [cls] [c]) := by
          have h2 : parentOfList (before ++ DNode.elem fresh [cls] [c] :: after) j
              = some (DNode.elem fresh [cls] [c]) := by
            rw [parentOfList_append, hpbef]
            simp [parentOfList, hpw]
          simp [parentOf, hanyW, h2]
        rw [hfinal]
        rfl
    · have hany2 : cs.any (fun c => decide (DNode.nid c = j)) = false := by
        simpa using hany
      have hP2 : parentOfList cs j = some P := by
        have h0 := hP
        simp only [parentOf, hany2, Bool.false_eq_true, if_neg, not_false_iff,
          ite_false] at h0
        exact h0
      have hndl : (idsOfList cs).Nodup := by
        have h2 := List.nodup_cons.mp (by simpa [idsOf] using hnd)
        exact h2.2
      have hbdl : ∀ x ∈ idsOfList cs, x < fresh := by
        intro x hx
        exact hbd x (by simp [idsOf, hx])
      rcases hl : wholeGoList cls fresh j cs with ⟨cs2, r2⟩
      have hl1 : (wholeGoList cls fresh j cs).1 = cs2 := by rw [hl]
      have hred : (wholeGo cls fresh j (DNode.elem i k cs)).1
          = DNode.elem i k cs2 := by
        simp [wholeGo, hany2, hl]
      rw [hred]
      obtain ⟨pid2, pk2, hsig, hmem⟩ := wholeGoList_style cls fresh j cs hndl
        hbdl P hP2
      rw [hl1] at hsig
      obtain ⟨cs0, hp0⟩ := parentSig_elim hsig
      have hmap := wholeGoList_map_nid cls fresh j cs
      rw [hl1] at hmap
      have hany3 : (cs2.any fun x => decide (DNode.nid x = j)) = false := by
        rw [any_nid_eq_of_map_eq cs2 cs hmap j]
        exact hany2
      refine ⟨pid2, pk2, ?_, hmem⟩
      have hpo : parentOf (DNode.elem i k cs2) j = parentOfList cs2 j := by
        simp [parentOf, hany3]
      rw [hpo, hp0]
      rfl
theorem wholeGoList_style (cls : String) (fresh j : Nat) :
    ∀ cs : List DNode, (idsOfList cs).Nodup → (∀ x ∈ idsOfList cs, x < fresh) →
      ∀ P : DNode, parentOfList cs j = some P →
      ∃ pid2 pk2, parentSig (parentOfList (wholeGoList cls fresh j cs).1 j)
        = some (pid2, pk2) ∧ cls ∈ pk2
  | [] => by
    intro _ _ P hP
    simp [parentOfList] at hP
  | c :: cs => by
    intro hnd hbd P hP
    have hndc : (idsOf c).Nodup := by
      have h2 : (idsOf c ++ idsOfList cs).Nodup := by
        simpa [idsOfList] using hnd
      exact h2.of_append_left
    have hndcs : (idsOfList cs).Nodup := by
      have h2 : (idsOf c ++ idsOfList cs).Nodup := by
        simpa [idsOfList] using hnd
      exact h2.of_append_right
    have hbdc : ∀ x ∈ idsOf c, x < fresh := by
      intro x hx
      exact hbd x (by simp [idsOfList, hx])
    have hbdcs : ∀ x ∈ idsOfList cs, x < fresh := by
      intro x hx
      exact hbd x (by simp [idsOfList, hx])
    have hfi := wholeGo_found_iff cls fresh j c
    rcases hw : wholeGo cls fresh j c with ⟨c2, r⟩
    have hw1 : (wholeGo cls fresh j c).1 = c2 := by rw [hw]
    have hw2 : (wholeGo cls fresh j c).2 = r := by rw [hw]
    rw [hw2] at hfi
    rcases hp0 : parentOf c j with _ | p
    · rw [hp0] at hfi
      have hrn : r = none := by
        rcases r with _ | x
        · rfl
        · simp at hfi
      subst hrn
      have hc2 : c2 = c := wholeGo_none cls fresh j hw
      have hP2 : parentOfList cs j = some P := by
        have h0 := hP
        simp only [parentOfList, hp0] at h0
        exact h0
      rcases hl : wholeGoList cls fresh j cs with ⟨cs2, r2⟩
      have hl1 : (wholeGoList cls fresh j cs).1 = cs2 := by rw [hl]
      have hred : (wholeGoList cls fresh j (c :: cs)).1 = c :: cs2 := by
        simp [wholeGoList, hw, hl, hc2]
      rw [hred]
      obtain ⟨pid2, pk2, hsig, hmem⟩ := wholeGoList_style cls fresh j cs hndcs
        hbdcs P hP2
      rw [hl1] at hsig
      refine ⟨pid2, pk2, ?_, hmem⟩
      simp only [parentOfList, hp0]
      exact hsig
    · obtain ⟨pid2, pk2, hsig, hmem⟩ := wholeGo_style cls fresh j c hndc hbdc
        p hp0
      rw [hw1] at hsig
      rw [hp0] at hfi
      have hrs : ∃ x, r = some x := by
        rcases r with _ | x
        · simp at hfi
        · exact ⟨x, rfl⟩
      obtain ⟨x, hx⟩ := hrs
      subst hx
      have hred : (wholeGoList cls fresh j (c :: cs)).1 = c2 :: cs := by
        simp [wholeGoList, hw]
      rw [hred]
      obtain ⟨cs0, hpc2⟩ := parentSig_elim hsig
      refine ⟨pid2, pk2, ?_, hmem⟩
      simp only [parentOfList, hpc2]
      rfl
end

theorem applyToWholeNode_pres (cls : String) (t : DNode) (fresh j q : Nat)
    (hqj : q ≠ j) (hqf : q < fresh)
    (hnd : (idsOf t).Nodup) (hbd : ∀ x ∈ idsOf t, x < fresh) :
    (∀ qv : List Char, getById t q = some (.text q qv) →
      getById (applyToWholeNode cls t fresh j).1 q = some (.text q qv)) ∧
    parentSig (parentOf (applyToWholeNode cls t fresh j).1 q)
      = parentSig (parentOf t q) ∧
    (parentOf (applyToWholeNode cls t fresh j).1 q).isSome
      = (parentOf t q).isSome := by
  rcases hw : wholeGo cls fresh j t with ⟨t2, r⟩
  cases r with
  | none =>
    have h0 : applyToWholeNode cls t fresh j = (t, fresh, none) := by
      simp [applyToWholeNode, hw]
    rw [h0]
    exact ⟨fun qv h => h, rfl, rfl⟩
  | some x =>
    rcases x with ⟨f, a⟩
    have h0 : applyToWholeNode cls t fresh j = (t2, f, some a) := by
      simp [applyToWholeNode, hw]
    rw [h0]
    obtain ⟨p0, p1, p2, p3⟩ := wholeGo_pres cls fresh j q hqj hqf t hnd hbd
    have hw1 : (wholeGo cls fresh j t).1 = t2 := by rw [hw]
    rw [hw1] at p1 p2 p3
    exact ⟨p1, p2, p3⟩

theorem applyToWholeNode_style (cls : String) (t : DNode) (fresh j : Nat)
    (hnd : (idsOf t).Nodup) (hbd : ∀ x ∈ idsOf t, x < fresh)
    (hp : (parentOf t j).isSome = true) :
    ∃ pid2 pk2, parentSig (parentOf (applyToWholeNode cls t fresh j).1 j)
      = some (pid2, pk2) ∧ cls ∈ pk2 := by
  obtain ⟨P, hP⟩ : ∃ P, parentOf t j = some P := by
    rcases h0 : parentOf t j with _ | P
    · rw [h0] at hp
      simp at hp
    · exact ⟨P, rfl⟩
  obtain ⟨pid2, pk2, hsig, hmem⟩ := wholeGo_style cls fresh j t hnd hbd P hP
  have hfi := wholeGo_found_iff cls fresh j t
  rw [hP] at hfi
  simp only [Option.isSome_some] at hfi
  rcases hw : wholeGo cls fresh j t with ⟨t2, r⟩
  have hw1 : (wholeGo cls fresh j t).1 = t2 := by rw [hw]
  have hw2 : (wholeGo cls fresh j t).2 = r := by rw [hw]
  rw [hw2] at hfi
  rcases r with _ | x
  · simp at hfi
  · rcases x with ⟨f, a⟩
    have h0 : applyToWholeNode cls t fresh j = (t2, f, some a) := by
      simp [applyToWholeNode, hw]
    rw [h0]
    rw [hw1] at hsig
    exact ⟨pid2, pk2, hsig, hmem⟩

theorem applyToNode_pres (cls : String) (t : DNode) (fresh j s e q : Nat)
    (hqj : q ≠ j) (hqf : q < fresh)
    (hnd : (idsOf t).Nodup) (hbd : ∀ x ∈ idsOf t, x < fresh) :
    (idsOf (applyToNode cls t fresh j s e).1).Nodup ∧
    (∀ x ∈ idsOf (applyToNode cls t fresh j s e).1,
      x < (applyToNode cls t fresh j s e).2.1) ∧
    fresh ≤ (applyToNode cls t fresh j s e).2.1 ∧
    (∀ qv : List Char, getById t q = some (.text q qv) →
      getById (applyToNode cls t fresh j s e).1 q = some (.text q qv)) ∧
    parentSig (parentOf (applyToNode cls t fresh j s e).1 q)
      = parentSig (parentOf t q) ∧
    (parentOf (applyToNode cls t fresh j s e).1 q).isSome
      = (parentOf t q).isSome := by
  by_cases hse : s = e
  · have h0 : applyToNode cls t fresh j s e = (t, fresh, []) := by
      simp [applyToNode, hse]
    rw [h0]
    exact ⟨hnd, hbd, Nat.le_refl fresh, fun qv h => h, rfl, rfl⟩
  · rcases hw : applyGo cls fresh j s e t with ⟨t2, r⟩
    cases r with
    | none =>
      have h0 : applyToNode cls t fresh j s e = (t, fresh, []) := by
        simp [applyToNode, hse, hw]
      rw [h0]
      exact ⟨hnd, hbd, Nat.le_refl fresh, fun qv h => h, rfl, rfl⟩
    | some x =>
      rcases x with ⟨f, a⟩
      have h0 : applyToNode cls t fresh j s e = (t2, f, a) := by
        simp [applyToNode, hse, hw]
      rw [h0]
      obtain ⟨w1, w2, w3, _⟩ := applyGo_wf cls fresh j s e hw hnd hbd
      obtain ⟨p0, p1, p2, p3⟩ := applyGo_pres cls fresh j s e q hqj hqf t hnd hbd
      have hw1 : (applyGo cls fresh j s e t).1 = t2 := by rw [hw]
      rw [hw1] at p1 p2 p3
      exact ⟨w1, w2, w3, p1, p2, p3⟩


theorem processMiddles_wf (cls : String) :
    ∀ (ms : List NAO) (t : DNode) (fresh : Nat),
      (idsOf t).Nodup → (∀ x ∈ idsOf t, x < fresh) →
      (idsOf (processMiddles cls t fresh ms).1).Nodup ∧
      (∀ x ∈ idsOf (processMiddles cls t fresh ms).1,
        x < (processMiddles cls t fresh ms).2.1) ∧
      fresh ≤ (processMiddles cls t fresh ms).2.1
  | [], t, fresh => by
    intro hnd hbd
    exact ⟨hnd, hbd, Nat.le_refl fresh⟩
  | m :: ms, t, fresh => by
    intro hnd hbd
    by_cases hnl : isNewlineAt t m.node = true
    · have hred : processMiddles cls t fresh (m :: ms)
          = processMiddles cls t fresh ms := by
        simp [processMiddles, hnl]
      rw [hred]
      exact processMiddles_wf cls ms t fresh hnd hbd
    · obtain ⟨a1, a2, a3⟩ := applyToWholeNode_wf cls t fresh m.node hnd hbd
      obtain ⟨b1, b2, b3⟩ := processMiddles_wf cls ms
        (applyToWholeNode cls t fresh m.node).1
        (applyToWholeNode cls t fresh m.node).2.1 a1 a2
      have hred1 : (processMiddles cls t fresh (m :: ms)).1
          = (processMiddles cls (applyToWholeNode cls t fresh m.node).1
              (applyToWholeNode cls t fresh m.node).2.1 ms).1 := by
        simp [processMiddles, hnl]
      have hred2 : (processMiddles cls t fresh (m :: ms)).2.1
          = (processMiddles cls (applyToWholeNode cls t fresh m.node).1
              (applyToWholeNode cls t fresh m.node).2.1 ms).2.1 := by
        simp [processMiddles, hnl]
      rw [hred1, hred2]
      exact ⟨b1, b2, Nat.le_trans a3 b3⟩

theorem processMiddles_pres (cls : String) (q : Nat) :
    ∀ (ms : List NAO) (t : DNode) (fresh : Nat),
      (idsOf t).Nodup → (∀ x ∈ idsOf t, x < fresh) → q < fresh →
      (∀ m ∈ ms, m.node ≠ q) →
      (∀ qv : List Char, getById t q = some (.text q qv) →
        getById (processMiddles cls t fresh ms).1 q = some (.text q qv)) ∧
      parentSig (parentOf (processMiddles cls t fresh ms).1 q)
        = parentSig (parentOf t q) ∧
      (parentOf (processMiddles cls t fresh ms).1 q).isSome
        = (parentOf t q).isSome
  | [], t, fresh => by
    intro _ _ _ _
    exact ⟨fun qv h => h, rfl, rfl⟩
  | m :: ms, t, fresh => by
    intro hnd hbd hqf hms
    by_cases hnl : isNewlineAt t m.node = true
    · have hred : processMiddles cls t fresh (m :: ms)
          = processMiddles cls t fresh ms := by
        simp [processMiddles, hnl]
      rw [hred]
      exact processMiddles_pres cls q ms t fresh hnd hbd hqf
        (fun m2 hm2 => hms m2 (by simp [hm2]))
    · have hmq : m.node ≠ q := hms m (by simp)
      obtain ⟨a4, a5, a6⟩ := applyToWholeNode_pres cls t fresh m.node q
        (fun h => hmq h.symm) hqf hnd hbd
      obtain ⟨a1, a2, a3⟩ := applyToWholeNode_wf cls t fresh m.node hnd hbd
      have hqf2 : q < (applyToWholeNode cls t fresh m.node).2.1 :=
        Nat.lt_of_lt_of_le hqf a3
      obtain ⟨b4, b5, b6⟩ := processMiddles_pres cls q ms
        (applyToWholeNode cls t fresh m.node).1
        (applyToWholeNode cls t fresh m.node).2.1 a1 a2 hqf2
        (fun m2 hm2 => hms m2 (by simp [hm2]))
      have hred1 : (processMiddles cls t fresh (m :: ms)).1
          = (processMiddles cls (applyToWholeNode cls t fresh m.node).1
              (applyToWholeNode cls t fresh m.node).2.1 ms).1 := by
        simp [processMiddles, hnl]
      rw [hred1]
      refine ⟨?_, ?_, ?_⟩
      · intro qv hg
        exact b4 qv (a4 qv hg)
      · rw [b5, a5]
      · rw [b6, a6]

theorem processMiddles_nl (cls : String) (q : Nat) :
    ∀ (ms : List NAO) (t : DNode) (fresh : Nat),
      (idsOf t).Nodup → (∀ x ∈ idsOf t, x < fresh) → q < fresh →
      getById t q = some (.text q [Char.ofNat 10]) →
      getById (processMiddles cls t fresh ms).1 q
        = some (.text q [Char.ofNat 10]) ∧
      parentSig (parentOf (processMiddles cls t fresh ms).1 q)
        = parentSig (parentOf t q) ∧
      (parentOf (processMiddles cls t fresh ms).1 q).isSome
        = (parentOf t q).isSome
  | [], t, fresh => by
    intro _ _ _ hg
    exact ⟨hg, rfl, rfl⟩
  | m :: ms, t, fresh => by
    intro hnd hbd hqf hg
    by_cases hnl : isNewlineAt t m.node = true
    · have hred : processMiddles cls t fresh (m :: ms)
          = processMiddles cls t fresh ms := by
        simp [processMiddles, hnl]
      rw [hred]
      exact processMiddles_nl cls q ms t fresh hnd hbd hqf hg
    · by_cases hmq : m.node = q
      · exfalso
        apply hnl
        rw [hmq]
        unfold isNewlineAt
        rw [hg]
        rfl
      · obtain ⟨a4, a5, a6⟩ := applyToWholeNode_pres cls t fresh m.node q
          (fun h => hmq h.symm) hqf hnd hbd
        obtain ⟨a1, a2, a3⟩ := applyToWholeNode_wf cls t fresh m.node hnd hbd
        have hqf2 : q < (applyToWholeNode cls t fresh m.node).2.1 :=
          Nat.lt_of_lt_of_le hqf a3
        obtain ⟨b4, b5, b6⟩ := processMiddles_nl cls q ms
          (applyToWholeNode cls t fresh m.node).1
          (applyToWholeNode cls t fresh m.node).2.1 a1 a2 hqf2 (a4 _ hg)
        have hred1 : (processMiddles cls t fresh (m :: ms)).1
            = (processMiddles cls (applyToWholeNode cls t fresh m.node).1
                (applyToWholeNode cls t fresh m.node).2.1 ms).1 := by
          simp [processMiddles, hnl]
        rw [hred1]
        exact ⟨b4, by rw [b5, a5], by rw [b6, a6]⟩

theorem processMiddles_style (cls : String) (q : Nat) :
    ∀ (ms : List NAO) (t : DNode) (fresh : Nat),
      (idsOf t).Nodup → (∀ x ∈ idsOf t, x < fresh) → q < fresh →
      (ms.map NAO.node).Nodup →
      ∀ m ∈ ms, m.node = q →
      ∀ qv : List Char, getById t q = some (.text q qv) →
      qv ≠ [Char.ofNat 10] →
      (parentOf t q).isSome = true →
      ∃ pid2 pk2, parentSig (parentOf (processMiddles cls t fresh ms).1 q)
        = some (pid2, pk2) ∧ cls ∈ pk2
  | [], t, fresh => by
    intro _ _ _ _ m hm
    cases hm
  | m0 :: ms, t, fresh => by
    intro hnd hbd hqf hmnd m hm hmq qv hg hqv hps
    have hmnd2 : (ms.map NAO.node).Nodup := by
      rw [List.map_cons] at hmnd
      exact (List.nodup_cons.mp hmnd).2
    by_cases hm0q : m0.node = q
    · have hnl : ¬ isNewlineAt t m0.node = true := by
        unfold isNewlineAt
        rw [hm0q, hg]
        simp only [decide_eq_true_eq]
        exact hqv
      obtain ⟨pid2, pk2, hsig, hmem⟩ := applyToWholeNode_style cls t fresh
        m0.node hnd hbd (by rw [hm0q]; exact hps)
      obtain ⟨w1, w2, w3⟩ := applyToWholeNode_wf cls t fresh m0.node hnd hbd
      have hq2 : q < (applyToWholeNode cls t fresh m0.node).2.1 :=
        Nat.lt_of_lt_of_le hqf w3
      have hnotin : ∀ m2 ∈ ms, m2.node ≠ q := by
        intro m2 hm2 heq
        have hndc := hmnd
        rw [List.map_cons, hm0q] at hndc
        exact (List.nodup_cons.mp hndc).1 (List.mem_map.mpr ⟨m2, hm2, heq⟩)
      obtain ⟨c4, c5, c6⟩ := processMiddles_pres cls q ms
        (applyToWholeNode cls t fresh m0.node).1
        (applyToWholeNode cls t fresh m0.node).2.1 w1 w2 hq2 hnotin
      have hred1 : (processMiddles cls t fresh (m0 :: ms)).1
          = (processMiddles cls (applyToWholeNode cls t fresh m0.node).1
              (applyToWholeNode cls t fresh m0.node).2.1 ms).1 := by
        simp [processMiddles, hnl]
      rw [hred1]
      refine ⟨pid2, pk2, ?_, hmem⟩
      rw [c5, hm0q]
      rw [hm0q] at hsig
      exact hsig
    · have hm2 : m ∈ ms := by
        rcases List.mem_cons.mp hm with h | h
        · exact absurd (h ▸ hmq) hm0q
        · exact h
      by_cases hnl : isNewlineAt t m0.node = true
      · have hred : processMiddles cls t fresh (m0 :: ms)
            = processMiddles cls t fresh ms := by
          simp [processMiddles, hnl]
        rw [hred]
        exact processMiddles_style cls q ms t fresh hnd hbd hqf hmnd2 m hm2
          hmq qv hg hqv hps
      · obtain ⟨a4, a5, a6⟩ := applyToWholeNode_pres cls t fresh m0.node q
          (fun h => hm0q h.symm) hqf hnd hbd
        obtain ⟨a1, a2, a3⟩ := applyToWholeNode_wf cls t fresh m0.node hnd hbd
        have hq2 : q < (applyToWholeNode cls t fresh m0.node).2.1 :=
          Nat.lt_of_lt_of_le hqf a3
        have hps2 : (parentOf (applyToWholeNode cls t fresh m0.node).1 q).isSome
            = true := by
          rw [a6]
          exact hps
        have hred1 : (processMiddles cls t fresh (m0 :: ms)).1
            = (processMiddles cls (applyToWholeNode cls t fresh m0.node).1
                (applyToWholeNode cls t fresh m0.node).2.1 ms).1 := by
          simp [processMiddles, hnl]
        rw [hred1]
        exact processMiddles_style cls q ms
          (applyToWholeNode cls t fresh m0.node).1
          (applyToWholeNode cls t fresh m0.node).2.1 a1 a2 hq2 hmnd2 m hm2
          hmq qv (a4 qv hg) hqv hps2


theorem processMulti_pres (cls : String) (t : DNode) (fresh : Nat)
    (g : List NAO) (q : Nat)
    (hnd : (idsOf t).Nodup) (hbd : ∀ x ∈ idsOf t, x < fresh) (hqf : q < fresh)
    (hmid : ∀ m ∈ (g.drop 1).dropLast, m.node ≠ q)
    (hhd : ∀ hd, g.head? = some hd → hd.node ≠ q)
    (htlq : ∀ tl, g.getLast? = some tl → tl.node = q → tl.offset = 0) :
    (∀ qv : List Char, getById t q = some (.text q qv) →
      getById (processMulti cls t fresh g).1 q = some (.text q qv)) ∧
    parentSig (parentOf (processMulti cls t fresh g).1 q)
      = parentSig (parentOf t q) ∧
    (parentOf (processMulti cls t fresh g).1 q).isSome
      = (parentOf t q).isSome := by
  rcases hlast : g.getLast? with _ | tl
  · have hred : (processMulti cls t fresh g).1 = t := by
      simp [processMulti, hlast]
    rw [hred]
    exact ⟨fun qv h => h, rfl, rfl⟩
  · have hmid2 : ∀ m ∈ ((g.drop 1).dropLast.reverse), m.node ≠ q :=
      fun m hm => hmid m (List.mem_reverse.mp hm)
    by_cases ho : 0 < tl.offset
    · have htlne : tl.node ≠ q := by
        intro heq
        have h0 := htlq tl hlast heq
        omega
      obtain ⟨a1, a2, a3, a4, a5, a6⟩ := applyToNode_pres cls t fresh tl.node 0
        tl.offset q (fun h => htlne h.symm) hqf hnd hbd
      have hq2 : q < (applyToNode cls t fresh tl.node 0 tl.offset).2.1 := Nat.lt_of_lt_of_le hqf a3
      obtain ⟨b4, b5, b6⟩ := processMiddles_pres cls q ((g.drop 1).dropLast.reverse)
        (applyToNode cls t fresh tl.node 0 tl.offset).1 (applyToNode cls t fresh tl.node 0 tl.offset).2.1 a1 a2 hq2 hmid2
      obtain ⟨b1, b2, b3⟩ := processMiddles_wf cls ((g.drop 1).dropLast.reverse)
        (applyToNode cls t fresh tl.node 0 tl.offset).1 (applyToNode cls t fresh tl.node 0 tl.offset).2.1 a1 a2
      rcases hhd0 : g.head? with _ | hd
      · have hred : (processMulti cls t fresh g).1 = (processMiddles cls (applyToNode cls t fresh tl.node 0 tl.offset).1 (applyToNode cls t fresh tl.node 0 tl.offset).2.1 ((g.drop 1).dropLast.reverse)).1 := by
          simp only [processMulti, hlast, hhd0]
          rw [if_pos ho]
        rw [hred]
        exact ⟨fun qv hg => b4 qv (a4 qv hg), by rw [b5, a5], by rw [b6, a6]⟩
      · have hhdne : hd.node ≠ q := hhd hd hhd0
        rcases hgb : getById (processMiddles cls (applyToNode cls t fresh tl.node 0 tl.offset).1 (applyToNode cls t fresh tl.node 0 tl.offset).2.1 ((g.drop 1).dropLast.reverse)).1 hd.node with _ | n
        · have hred : (processMulti cls t fresh g).1 = (processMiddles cls (applyToNode cls t fresh tl.node 0 tl.offset).1 (applyToNode cls t fresh tl.node 0 tl.offset).2.1 ((g.drop 1).dropLast.reverse)).1 := by
            simp only [processMulti, hlast, hhd0]
            rw [if_pos ho]
            simp only [hgb]
          rw [hred]
          exact ⟨fun qv hg => b4 qv (a4 qv hg), by rw [b5, a5], by rw [b6, a6]⟩
        · rcases n with ⟨ni, nv⟩ | ⟨ni, nk, ncs⟩
          · have hq3 : q < (processMiddles cls (applyToNode cls t fresh tl.node 0 tl.offset).1 (applyToNode cls t fresh tl.node 0 tl.offset).2.1 ((g.drop 1).dropLast.reverse)).2.1 := Nat.lt_of_lt_of_le hq2 b3
            obtain ⟨c1, c2, c3, c4, c5, c6⟩ := applyToNode_pres cls (processMiddles cls (applyToNode cls t fresh tl.node 0 tl.offset).1 (applyToNode cls t fresh tl.node 0 tl.offset).2.1 ((g.drop 1).dropLast.reverse)).1
              (processMiddles cls (applyToNode cls t fresh tl.node 0 tl.offset).1 (applyToNode cls t fresh tl.node 0 tl.offset).2.1 ((g.drop 1).dropLast.reverse)).2.1 hd.node hd.offset nv.length q (fun h => hhdne h.symm)
              hq3 b1 b2
            have hred : (processMulti cls t fresh g).1
                = (applyToNode cls (processMiddles cls (applyToNode cls t fresh tl.node 0 tl.offset).1 (applyToNode cls t fresh tl.node 0 tl.offset).2.1 ((g.drop 1).dropLast.reverse)).1 (processMiddles cls (applyToNode cls t fresh tl.node 0 tl.offset).1 (applyToNode cls t fresh tl.node 0 tl.offset).2.1 ((g.drop 1).dropLast.reverse)).2.1
                    hd.node hd.offset nv.length).1 := by
              simp only [processMulti, hlast, hhd0]
              rw [if_pos ho]
              simp only [hgb]
            rw [hred]
            exact ⟨fun qv hg => c4 qv (b4 qv (a4 qv hg)), by rw [c5, b5, a5], by rw [c6, b6, a6]⟩
          · have hred : (processMulti cls t fresh g).1 = (processMiddles cls (applyToNode cls t fresh tl.node 0 tl.offset).1 (applyToNode cls t fresh tl.node 0 tl.offset).2.1 ((g.drop 1).dropLast.reverse)).1 := by
              simp only [processMulti, hlast, hhd0]
              rw [if_pos ho]
              simp only [hgb]
            rw [hred]
            exact ⟨fun qv hg => b4 qv (a4 qv hg), by rw [b5, a5], by rw [b6, a6]⟩
    · have hq2 : q < fresh := hqf
      obtain ⟨b4, b5, b6⟩ := processMiddles_pres cls q ((g.drop 1).dropLast.reverse)
        t fresh hnd hbd hqf hmid2
      obtain ⟨b1, b2, b3⟩ := processMiddles_wf cls ((g.drop 1).dropLast.reverse) t fresh hnd hbd
      rcases hhd0 : g.head? with _ | hd
      · have hred : (processMulti cls t fresh g).1 = (processMiddles cls t fresh ((g.drop 1).dropLast.reverse)).1 := by
          simp only [processMulti, hlast, hhd0]
          rw [if_neg ho]
        rw [hred]
        exact ⟨fun qv hg => b4 qv hg, b5, b6⟩
      · have hhdne : hd.node ≠ q := hhd hd hhd0
        rcases hgb : getById (processMiddles cls t fresh ((g.drop 1).dropLast.reverse)).1 hd.node with _ | n
        · have hred : (processMulti cls t fresh g).1 = (processMiddles cls t fresh ((g.drop 1).dropLast.reverse)).1 := by
            simp only [processMulti, hlast, hhd0]
            rw [if_neg ho]
            simp only [hgb]
          rw [hred]
          exact ⟨fun qv hg => b4 qv hg, b5, b6⟩
        · rcases n with ⟨ni, nv⟩ | ⟨ni, nk, ncs⟩
          · have hq3 : q < (processMiddles cls t fresh ((g.drop 1).dropLast.reverse)).2.1 := Nat.lt_of_lt_of_le hq2 b3
            obtain ⟨c1, c2, c3, c4, c5, c6⟩ := applyToNode_pres cls (processMiddles cls t fresh ((g.drop 1).dropLast.reverse)).1
              (processMiddles cls t fresh ((g.drop 1).dropLast.reverse)).2.1 hd.node hd.offset nv.length q (fun h => hhdne h.symm)
              hq3 b1 b2
            have hred : (processMulti cls t fresh g).1
                = (applyToNode cls (processMiddles cls t fresh ((g.drop 1).dropLast.reverse)).1 (processMiddles cls t fresh ((g.drop 1).dropLast.reverse)).2.1
                    hd.node hd.offset nv.length).1 := by
              simp only [processMulti, hlast, hhd0]
              rw [if_neg ho]
              simp only [hgb]
            rw [hred]
            exact ⟨fun qv hg => c4 qv (b4 qv hg), by rw [c5, b5], by rw [c6, b6]⟩
          · have hred : (processMulti cls t fresh g).1 = (processMiddles cls t fresh ((g.drop 1).dropLast.reverse)).1 := by
              simp only [processMulti, hlast, hhd0]
              rw [if_neg ho]
              simp only [hgb]
            rw [hred]
            exact ⟨fun qv hg => b4 qv hg, b5, b6⟩

theorem processMulti_nl (cls : String) (t : DNode) (fresh : Nat)
    (g : List NAO) (q : Nat)
    (hnd : (idsOf t).Nodup) (hbd : ∀ x ∈ idsOf t, x < fresh) (hqf : q < fresh)
    (hgnl : getById t q = some (.text q [Char.ofNat 10]))
    (hhd : ∀ hd, g.head? = some hd → hd.node ≠ q)
    (htlq : ∀ tl, g.getLast? = some tl → tl.node = q → tl.offset = 0) :
    getById (processMulti cls t fresh g).1 q
      = some (.text q [Char.ofNat 10]) ∧
    parentSig (parentOf (processMulti cls t fresh g).1 q)
      = parentSig (parentOf t q) ∧
    (parentOf (processMulti cls t fresh g).1 q).isSome
      = (parentOf t q).isSome := by
  rcases hlast : g.getLast? with _ | tl
  · have hred : (processMulti cls t fresh g).1 = t := by
      simp [processMulti, hlast]
    rw [hred]
    exact ⟨hgnl, rfl, rfl⟩
  · by_cases ho : 0 < tl.offset
    · have htlne : tl.node ≠ q := by
        intro heq
        have h0 := htlq tl hlast heq
        omega
      obtain ⟨a1, a2, a3, a4, a5, a6⟩ := applyToNode_pres cls t fresh tl.node 0
        tl.offset q (fun h => htlne h.symm) hqf hnd hbd
      have hq2 : q < (applyToNode cls t fresh tl.node 0 tl.offset).2.1 := Nat.lt_of_lt_of_le hqf a3
      obtain ⟨b4, b5, b6⟩ := processMiddles_nl cls q ((g.drop 1).dropLast.reverse)
        (applyToNode cls t fresh tl.node 0 tl.offset).1 (applyToNode cls t fresh tl.node 0 tl.offset).2.1 a1 a2 hq2 (a4 _ hgnl)
      obtain ⟨b1, b2, b3⟩ := processMiddles_wf cls ((g.drop 1).dropLast.reverse)
        (applyToNode cls t fresh tl.node 0 tl.offset).1 (applyToNode cls t fresh tl.node 0 tl.offset).2.1 a1 a2
      rcases hhd0 : g.head? with _ | hd
      · have hred : (processMulti cls t fresh g).1 = (processMiddles cls (applyToNode cls t fresh tl.node 0 tl.offset).1 (applyToNode cls t fresh tl.node 0 tl.offset).2.1 ((g.drop 1).dropLast.reverse)).1 := by
          simp only [processMulti, hlast, hhd0]
          rw [if_pos ho]
        rw [hred]
        exact ⟨b4, by rw [b5, a5], by rw [b6, a6]⟩
      · have hhdne : hd.node ≠ q := hhd hd hhd0
        rcases hgb : getById (processMiddles cls (applyToNode cls t fresh tl.node 0 tl.offset).1 (applyToNode cls t fresh tl.node 0 tl.offset).2.1 ((g.drop 1).dropLast.reverse)).1 hd.node with _ | n
        · have hred : (processMulti cls t fresh g).1 = (processMiddles cls (applyToNode cls t fresh tl.node 0 tl.offset).1 (applyToNode cls t fresh tl.node 0 tl.offset).2.1 ((g.drop 1).dropLast.reverse)).1 := by
            simp only [processMulti, hlast, hhd0]
            rw [if_pos ho]
            simp only [hgb]
          rw [hred]
          exact ⟨b4, by rw [b5, a5], by rw [b6, a6]⟩
        · rcases n with ⟨ni, nv⟩ | ⟨ni, nk, ncs⟩
          · have hq3 : q < (processMiddles cls (applyToNode cls t fresh tl.node 0 tl.offset).1 (applyToNode cls t fresh tl.node 0 tl.offset).2.1 ((g.drop 1).dropLast.reverse)).2.1 := Nat.lt_of_lt_of_le hq2 b3
            obtain ⟨c1, c2, c3, c4, c5, c6⟩ := applyToNode_pres cls (processMiddles cls (applyToNode cls t fresh tl.node 0 tl.offset).1 (applyToNode cls t fresh tl.node 0 tl.offset).2.1 ((g.drop 1).dropLast.reverse)).1
              (processMiddles cls (applyToNode cls t fresh tl.node 0 tl.offset).1 (applyToNode cls t fresh tl.node 0 tl.offset).2.1 ((g.drop 1).dropLast.reverse)).2.1 hd.node hd.offset nv.length q (fun h => hhdne h.symm)
              hq3 b1 b2
            have hred : (processMulti cls t fresh g).1
                = (applyToNode cls (processMiddles cls (applyToNode cls t fresh tl.node 0 tl.offset).1 (applyToNode cls t fresh tl.node 0 tl.offset).2.1 ((g.drop 1).dropLast.reverse)).1 (processMiddles cls (applyToNode cls t fresh tl.node 0 tl.offset).1 (applyToNode cls t fresh tl.node 0 tl.offset).2.1 ((g.drop 1).dropLast.reverse)).2.1
                    hd.node hd.offset nv.length).1 := by
              simp only [processMulti, hlast, hhd0]
              rw [if_pos ho]
              simp only [hgb]
            rw [hred]
            exact ⟨c4 _ b4, by rw [c5, b5, a5], by rw [c6, b6, a6]⟩
          · have hred : (processMulti cls t fresh g).1 = (processMiddles cls (applyToNode cls t fresh tl.node 0 tl.offset).1 (applyToNode cls t fresh tl.node 0 tl.offset).2.1 ((g.drop 1).dropLast.reverse)).1 := by
              simp only [processMulti, hlast, hhd0]
              rw [if_pos ho]
              simp only [hgb]
            rw [hred]
            exact ⟨b4, by rw [b5, a5], by rw [b6, a6]⟩
    · have hq2 : q < fresh := hqf
      obtain ⟨b4, b5, b6⟩ := processMiddles_nl cls q ((g.drop 1).dropLast.reverse)
        t fresh hnd hbd hqf hgnl
      obtain ⟨b1, b2, b3⟩ := processMiddles_wf cls ((g.drop 1).dropLast.reverse) t fresh hnd hbd
      rcases hhd0 : g.head? with _ | hd
      · have hred : (processMulti cls t fresh g).1 = (processMiddles cls t fresh ((g.drop 1).dropLast.reverse)).1 := by
          simp only [processMulti, hlast, hhd0]
          rw [if_neg ho]
        rw [hred]
        exact ⟨b4, b5, b6⟩
      · have hhdne : hd.node ≠ q := hhd hd hhd0
        rcases hgb : getById (processMiddles cls t fresh ((g.drop 1).dropLast.reverse)).1 hd.node with _ | n
        · have hred : (processMulti cls t fresh g).1 = (processMiddles cls t fresh ((g.drop 1).dropLast.reverse)).1 := by
            simp only [processMulti, hlast, hhd0]
            rw [if_neg ho]
            simp only [hgb]
          rw [hred]
          exact ⟨b4, b5, b6⟩
        · rcases n with ⟨ni, nv⟩ | ⟨ni, nk, ncs⟩
          · have hq3 : q < (processMiddles cls t fresh ((g.drop 1).dropLast.reverse)).2.1 := Nat.lt_of_lt_of_le hq2 b3
            obtain ⟨c1, c2, c3, c4, c5, c6⟩ := applyToNode_pres cls (processMiddles cls t fresh ((g.drop 1).dropLast.reverse)).1
              (processMiddles cls t fresh ((g.drop 1).dropLast.reverse)).2.1 hd.node hd.offset nv.length q (fun h => hhdne h.symm)
              hq3 b1 b2
            have hred : (processMulti cls t fresh g).1
                = (applyToNode cls (processMiddles cls t fresh ((g.drop 1).dropLast.reverse)).1 (processMiddles cls t fresh ((g.drop 1).dropLast.reverse)).2.1
                    hd.node hd.offset nv.length).1 := by
              simp only [processMulti, hlast, hhd0]
              rw [if_neg ho]
              simp only [hgb]
            rw [hred]
            exact ⟨c4 _ b4, by rw [c5, b5], by rw [c6, b6]⟩
          · have hred : (processMulti cls t fresh g).1 = (processMiddles cls t fresh ((g.drop 1).dropLast.reverse)).1 := by
              simp only [processMulti, hlast, hhd0]
              rw [if_neg ho]
              simp only [hgb]
            rw [hred]
            exact ⟨b4, b5, b6⟩

theorem processMulti_style (cls : String) (t : DNode) (fresh : Nat)
    (g : List NAO) (q : Nat) (m : NAO)
    (hnd : (idsOf t).Nodup) (hbd : ∀ x ∈ idsOf t, x < fresh) (hqf : q < fresh)
    (hmnd : (((g.drop 1).dropLast).map NAO.node).Nodup)
    (hm : m ∈ (g.drop 1).dropLast) (hmq : m.node = q)
    (qv : List Char) (hg : getById t q = some (.text q qv))
    (hqv : qv ≠ [Char.ofNat 10])
    (hps : (parentOf t q).isSome = true)
    (hhd : ∀ hd, g.head? = some hd → hd.node ≠ q)
    (htlne : ∀ tl, g.getLast? = some tl → tl.node ≠ q) :
    ∃ pid2 pk2, parentSig (parentOf (processMulti cls t fresh g).1 q)
      = some (pid2, pk2) ∧ cls ∈ pk2 := by
  rcases hlast : g.getLast? with _ | tl
  · exfalso
    have hgnil : g = [] := getLast?_none_nil g hlast
    subst hgnil
    cases hm
  · have hmnd2 : ((((g.drop 1).dropLast.reverse)).map NAO.node).Nodup := by
      rw [List.map_reverse]
      exact List.nodup_reverse.mpr hmnd
    have hm2 : m ∈ ((g.drop 1).dropLast.reverse) := List.mem_reverse.mpr hm
    by_cases ho : 0 < tl.offset
    · have htlne2 : tl.node ≠ q := htlne tl hlast
      obtain ⟨a1, a2, a3, a4, a5, a6⟩ := applyToNode_pres cls t fresh tl.node 0
        tl.offset q (fun h => htlne2 h.symm) hqf hnd hbd
      have hq2 : q < (applyToNode cls t fresh tl.node 0 tl.offset).2.1 := Nat.lt_of_lt_of_le hqf a3
      obtain ⟨pid2, pk2, hsig, hmem⟩ := processMiddles_style cls q ((g.drop 1).dropLast.reverse)
        (applyToNode cls t fresh tl.node 0 tl.offset).1 (applyToNode cls t fresh tl.node 0 tl.offset).2.1 a1 a2 hq2 hmnd2 m hm2 hmq qv (a4 qv hg) hqv
        (by rw [a6]; exact hps)
      obtain ⟨b1, b2, b3⟩ := processMiddles_wf cls ((g.drop 1).dropLast.reverse)
        (applyToNode cls t fresh tl.node 0 tl.offset).1 (applyToNode cls t fresh tl.node 0 tl.offset).2.1 a1 a2
      rcases hhd0 : g.head? with _ | hd
      · have hred : (processMulti cls t fresh g).1 = (processMiddles cls (applyToNode cls t fresh tl.node 0 tl.offset).1 (applyToNode cls t fresh tl.node 0 tl.offset).2.1 ((g.drop 1).dropLast.reverse)).1 := by
          simp only [processMulti, hlast, hhd0]
          rw [if_pos ho]
        rw [hred]
        exact ⟨pid2, pk2, hsig, hmem⟩
      · have hhdne : hd.node ≠ q := hhd hd hhd0
        rcases hgb : getById (processMiddles cls (applyToNode cls t fresh tl.node 0 tl.offset).1 (applyToNode cls t fresh tl.node 0 tl.offset).2.1 ((g.drop 1).dropLast.reverse)).1 hd.node with _ | n
        · have hred : (processMulti cls t fresh g).1 = (processMiddles cls (applyToNode cls t fresh tl.node 0 tl.offset).1 (applyToNode cls t fresh tl.node 0 tl.offset).2.1 ((g.drop 1).dropLast.reverse)).1 := by
            simp only [processMulti, hlast, hhd0]
            rw [if_pos ho]
            simp only [hgb]
          rw [hred]
          exact ⟨pid2, pk2, hsig, hmem⟩
        · rcases n with ⟨ni, nv⟩ | ⟨ni, nk, ncs⟩
          · have hq3 : q < (processMiddles cls (applyToNode cls t fresh tl.node 0 tl.offset).1 (applyToNode cls t fresh tl.node 0 tl.offset).2.1 ((g.drop 1).dropLast.reverse)).2.1 := Nat.lt_of_lt_of_le hq2 b3
            obtain ⟨c1, c2, c3, c4, c5, c6⟩ := applyToNode_pres cls (processMiddles cls (applyToNode cls t fresh tl.node 0 tl.offset).1 (applyToNode cls t fresh tl.node 0 tl.offset).2.1 ((g.drop 1).dropLast.reverse)).1
              (processMiddles cls (applyToNode cls t fresh tl.node 0 tl.offset).1 (applyToNode cls t fresh tl.node 0 tl.offset).2.1 ((g.drop 1).dropLast.reverse)).2.1 hd.node hd.offset nv.length q (fun h => hhdne h.symm)
              hq3 b1 b2
            have hred : (processMulti cls t fresh g).1
                = (applyToNode cls (processMiddles cls (applyToNode cls t fresh tl.node 0 tl.offset).1 (applyToNode cls t fresh tl.node 0 tl.offset).2.1 ((g.drop 1).dropLast.reverse)).1 (processMiddles cls (applyToNode cls t fresh tl.node 0 tl.offset).1 (applyToNode cls t fresh tl.node 0 tl.offset).2.1 ((g.drop 1).dropLast.reverse)).2.1
                    hd.node hd.offset nv.length).1 := by
              simp only [processMulti, hlast, hhd0]
              rw [if_pos ho]
              simp only [hgb]
            rw [hred]
            refine ⟨pid2, pk2, ?_, hmem⟩
            rw [c5]
            exact hsig
          · have hred : (processMulti cls t fresh g).1 = (processMiddles cls (applyToNode cls t fresh tl.node 0 tl.offset).1 (applyToNode cls t fresh tl.node 0 tl.offset).2.1 ((g.drop 1).dropLast.reverse)).1 := by
              simp only [processMulti, hlast, hhd0]
              rw [if_pos ho]
              simp only [hgb]
            rw [hred]
            exact ⟨pid2, pk2, hsig, hmem⟩
    · have hq2 : q < fresh := hqf
      obtain ⟨pid2, pk2, hsig, hmem⟩ := processMiddles_style cls q ((g.drop 1).dropLast.reverse)
        t fresh hnd hbd hqf hmnd2 m hm2 hmq qv hg hqv hps
      obtain ⟨b1, b2, b3⟩ := processMiddles_wf cls ((g.drop 1).dropLast.reverse) t fresh hnd hbd
      rcases hhd0 : g.head? with _ | hd
      · have hred : (processMulti cls t fresh g).1 = (processMiddles cls t fresh ((g.drop 1).dropLast.reverse)).1 := by
          simp only [processMulti, hlast, hhd0]
          rw [if_neg ho]
        rw [hred]
        exact ⟨pid2, pk2, hsig, hmem⟩
      · have hhdne : hd.node ≠ q := hhd hd hhd0
        rcases hgb : getById (processMiddles cls t fresh ((g.drop 1).dropLast.reverse)).1 hd.node with _ | n
        · have hred : (processMulti cls t fresh g).1 = (processMiddles cls t fresh ((g.drop 1).dropLast.reverse)).1 := by
            simp only [processMulti, hlast, hhd0]
            rw [if_neg ho]
            simp only [hgb]
          rw [hred]
          exact ⟨pid2, pk2, hsig, hmem⟩
        · rcases n with ⟨ni, nv⟩ | ⟨ni, nk, ncs⟩
          · have hq3 : q < (processMiddles cls t fresh ((g.drop 1).dropLast.reverse)).2.1 := Nat.lt_of_lt_of_le hq2 b3
            obtain ⟨c1, c2, c3, c4, c5, c6⟩ := applyToNode_pres cls (processMiddles cls t fresh ((g.drop 1).dropLast.reverse)).1
              (processMiddles cls t fresh ((g.drop 1).dropLast.reverse)).2.1 hd.node hd.offset nv.length q (fun h => hhdne h.symm)
              hq3 b1 b2
            have hred : (processMulti cls t fresh g).1
                = (applyToNode cls (processMiddles cls t fresh ((g.drop 1).dropLast.reverse)).1 (processMiddles cls t fresh ((g.drop 1).dropLast.reverse)).2.1
                    hd.node hd.offset nv.length).1 := by
              simp only [processMulti, hlast, hhd0]
              rw [if_neg ho]
              simp only [hgb]
            rw [hred]
            refine ⟨pid2, pk2, ?_, hmem⟩
            rw [c5]
            exact hsig
          · have hred : (processMulti cls t fresh g).1 = (processMiddles cls t fresh ((g.drop 1).dropLast.reverse)).1 := by
              simp only [processMulti, hlast, hhd0]
              rw [if_neg ho]
              simp only [hgb]
            rw [hred]
            exact ⟨pid2, pk2, hsig, hmem⟩

/-! ## Claim C1 -/

/-- C1: content preservation.  For every tree with well-formed node
identities and every list of valid ranges (start at most end in each
range), the document-order concatenation of all text-leaf payloads under
the root is unchanged by `applyToRanges`: the operation only re-partitions
text into nodes and containers, and never changes, drops, or duplicates a
character. -/
theorem c1_content_preservation (cls : String) (t : DNode) (fresh : Nat)
    (rs : List (Nat × Nat))
    (hr : ∀ r ∈ rs, r.1 ≤ r.2)
    (hnd : (idsOf t).Nodup) (hbd : ∀ x ∈ idsOf t, x < fresh) :
    leafConcat (applyToRanges cls t fresh rs).1 = leafConcat t := by
  rcases rs with _ | ⟨r0, rs'⟩
  · rfl
  · have hps := findGroups_pairs_sorted t (r0 :: rs') (rootTexts_ids_nodup hnd) hr
    have := applyGroups_ok cls (findNodeAndOffsetGroups t (r0 :: rs')) t fresh
      hps hnd hbd
    simpa [applyToRanges] using this.1

/-- C1 witness: a concrete three-leaf tree and two valid ranges keep the
leaf concatenation `"ab\ncd"` intact. -/
theorem c1_content_preservation_witness :
    leafConcat (applyToRanges "foo"
        (DNode.elem 0 [] [DNode.text 1 "ab".toList, DNode.text 2 "\n".toList,
          DNode.text 3 "cd".toList]) 4 [(0, 2), (3, 5)]).1
      = leafConcat (DNode.elem 0 [] [DNode.text 1 "ab".toList,
          DNode.text 2 "\n".toList, DNode.text 3 "cd".toList]) := by
  have h := c1_content_preservation "foo"
    (DNode.elem 0 [] [DNode.text 1 "ab".toList, DNode.text 2 "\n".toList,
      DNode.text 3 "cd".toList]) 4 [(0, 2), (3, 5)]
    (by decide)
    (by decide) (by decide)
  exact h

/-! ## Claim C10 -/

/-- C10: the single-node update with equal start and end offsets performs no
tree mutation and returns an empty affected-node list, and a group whose two
boundary pairs are the same node and offset is processed without any change
and contributes an empty node group. -/
theorem c10_zero_width_no_mutation (cls : String) (t : DNode) (fresh n o : Nat) :
    applyToNode cls t fresh n o o = (t, fresh, []) ∧
    processGroup cls t fresh [⟨n, o⟩, ⟨n, o⟩] = (t, fresh, []) := by
  refine ⟨by simp [applyToNode], ?_⟩
  simp [processGroup, processGroupRaw, applyToNode]

/-! ## Claim C9 -/

/-- C9: wrapping a whole text leaf tags the parent itself with the style
class when the leaf is the parent's only child (creating no new container
and consuming no fresh identity), and otherwise inserts a fresh container
carrying the class at the leaf's position with the leaf moved inside it. -/
theorem c9_whole_node_wrap (cls : String) (fresh j i : Nat) (k : List String)
    (before after : List DNode) (c : DNode)
    (hb : ∀ b ∈ before, DNode.nid b ≠ j) (hc : DNode.nid c = j) :
    applyToWholeNode cls (.elem i k (before ++ c :: after)) fresh j =
      if (before ++ c :: after).length = 1 then
        (.elem i (classListAdd cls k) (before ++ c :: after), fresh, some i)
      else
        (.elem i k (before ++ DNode.elem fresh [cls] [c] :: after),
         fresh + 1, some fresh) := by
  have hany := any_nid_splice before after c j hc
  by_cases h1 : (before ++ c :: after).length = 1
  · simp [applyToWholeNode, wholeGo, hany, wholeAtSite, h1]
  · have h1' : ¬(before.length + (after.length + 1) = 1) := by simpa using h1
    simp [applyToWholeNode, wholeGo, hany, wholeAtSite, h1, h1',
      wrapChild_splice cls fresh j before after c hb hc]

/-- C9 witness: a concrete leaf with a sibling is wrapped in a fresh
container at its position. -/
theorem c9_whole_node_wrap_witness :
    applyToWholeNode "foo"
        (.elem 0 [] [DNode.text 5 ['x'], DNode.text 7 ['y']]) 9 7 =
      (.elem 0 [] [DNode.text 5 ['x'],
        DNode.elem 9 ["foo"] [DNode.text 7 ['y']]], 10, some 9) := by
  have h := c9_whole_node_wrap "foo" 9 7 0 [] [DNode.text 5 ['x']] []
    (DNode.text 7 ['y'])
    (by
      intro b hb
      simp at hb
      subst hb
      decide)
    rfl
  simpa using h

/-! ## Claim C6 -/

/-- C6: the single-node partial-span path of `_applyToNode`.  With the span
inside one text leaf and not covering the whole payload: when the start
offset is 0 the styled head container is inserted before the original leaf,
which is shrunk to the remainder; when the start offset is positive the
original leaf keeps the text before the start, a styled middle container
follows it, and an unstyled tail leaf is created exactly when the end is
strictly below the payload length.  Moreover, on the concrete text
`"0123456789abcdefghij"` with range (3,6) and style `"foo"` the resulting
tree reads `012<foo>345</foo>6789abcdefghij`. -/
theorem c6_single_node_partial_span (cls : String) (fresh j i : Nat)
    (k : List String) (before after : List DNode) (v : List Char) (s e : Nat)
    (hb : ∀ b ∈ before, DNode.nid b ≠ j)
    (hse : s < e) (hev : e ≤ v.length) (hne : ¬(s = 0 ∧ e = v.length)) :
    (applyToNode cls (.elem i k (before ++ DNode.text j v :: after)) fresh j s e =
      ((if s = 0 then
          DNode.elem i k (before ++
            DNode.elem fresh [cls] [DNode.text (fresh + 1) (v.take e)]
              :: DNode.text j (v.drop e) :: after)
        else
          DNode.elem i k (before ++
            DNode.text j (v.take s)
              :: DNode.elem fresh [cls] [DNode.text (fresh + 1) ((v.take e).drop s)]
              :: ((if e < v.length then [DNode.text (fresh + 2) (v.drop e)]
                   else []) ++ after))),
       (if s = 0 then fresh + 2 else if e < v.length then fresh + 3 else fresh + 2),
       [fresh])) ∧
    (applyToRanges "foo"
        (DNode.elem 0 [] [DNode.text 1 "0123456789abcdefghij".toList]) 2
        [(3, 6)]).1 =
      DNode.elem 0 [] [DNode.text 1 "012".toList,
        DNode.elem 2 ["foo"] [DNode.text 3 "345".toList],
        DNode.text 4 "6789abcdefghij".toList] := by
  constructor
  · have hsne : s ≠ e := Nat.ne_of_lt hse
    have hfind := find_nid_splice before after (DNode.text j v) j hb rfl
    have hsplit := splitChildren_splice cls fresh j s e v before after hb
    simp only [applyToNode, hsne, if_neg, if_false, applyGo, hfind]
    rw [if_neg hne, hsplit]
    by_cases hs0 : s = 0
    · subst hs0
      simp [jsSubstring_zero_left v e hev, jsSubstring_to_length v e hev]
    · simp [hs0, jsSubstring_to_length v e hev,
        jsSubstring_mid v s e (Nat.le_of_lt hse) hev,
        jsSubstring_zero_left v s (le_trans (Nat.le_of_lt hse) hev)]
  · rfl

/-- C6 witness: a concrete interior split (start positive, end below the
payload length) produces head text, styled middle, and tail text. -/
theorem c6_single_node_partial_span_witness :
    applyToNode "foo" (.elem 0 [] [DNode.text 1 "abcde".toList]) 2 1 1 3 =
      (DNode.elem 0 [] [DNode.text 1 "a".toList,
        DNode.elem 2 ["foo"] [DNode.text 3 "bc".toList],
        DNode.text 4 "de".toList], 5, [2]) := by
  have h := (c6_single_node_partial_span "foo" 2 1 0 [] [] []
    "abcde".toList 1 3
    (by intro b hb; simp at hb)
    (by decide) (by decide) (by decide)).1
  simpa using h

/-! ## Claim C8 -/

/-- C8: the behaviour of `clear` and `clearElement`.  `clear` returns the
number of style containers found (so 0 with no mutation when none exist).
A container carrying the style class as its only class with exactly one
text child is replaced by that child, which is merged with an immediately
preceding and/or following text sibling (shown in full for the
both-neighbours case); any other container only loses the style class,
with no structural change. -/
theorem c8_clear_element_rules (cls : String) :
    (∀ t, styledUnderRoot cls t = [] → clear cls t = (t, 0)) ∧
    (∀ t, (clear cls t).2 = (styledUnderRoot cls t).length) ∧
    (∀ j ti tv before after, (∀ b ∈ before, DNode.nid b ≠ j) →
      clearChildren cls j (before ++ DNode.elem j [cls] [DNode.text ti tv] :: after)
        = mergePrevNext before ti tv after) ∧
    (∀ pi pv ti tv ni nv b' a',
      mergePrevNext (b' ++ [DNode.text pi pv]) ti tv (DNode.text ni nv :: a')
        = b' ++ [DNode.text ti (pv ++ tv ++ nv)] ++ a') ∧
    (∀ j k kids before after, (∀ b ∈ before, DNode.nid b ≠ j) →
      (k ≠ [cls] ∨ ∀ ti tv, kids ≠ [DNode.text ti tv]) →
      clearChildren cls j (before ++ DNode.elem j k kids :: after)
        = before ++ [DNode.elem j (classListRemove cls k) kids] ++ after) := by
  refine ⟨?_, ?_, ?_, ?_, ?_⟩
  · intro t h
    simp [clear, h, clearFold]
  · intro t
    simp [clear]
  · intro j ti tv before after hb
    have hsp := splitAtFirst_splice j before after
      (DNode.elem j [cls] [DNode.text ti tv]) hb rfl
    simp [clearChildren, hsp]
  · intro pi pv ti tv ni nv b' a'
    simp [mergePrevNext]
  · intro j k kids before after hb hcond
    have hsp := splitAtFirst_splice j before after (DNode.elem j k kids) hb rfl
    rcases kids with _ | ⟨c1, rest⟩
    · simp [clearChildren, hsp]
    · rcases rest with _ | ⟨c2, rest2⟩
      · cases c1 with
        | text ti tv =>
          have hk : k ≠ [cls] := by
            rcases hcond with h | h
            · exact h
            · exact absurd rfl (h ti tv)
          simp [clearChildren, hsp, hk]
        | elem ci ck ccs => simp [clearChildren, hsp]
      · simp [clearChildren, hsp]

/-- C8 witness: a concrete unwrap with both text neighbours merges into one
leaf, via the unwrap rule and the merge rule. -/
theorem c8_clear_element_rules_witness :
    clearChildren "foo" 3
        ([DNode.text 1 ['a']] ++
          DNode.elem 3 ["foo"] [DNode.text 4 ['b']] :: [DNode.text 5 ['c']])
      = [DNode.text 4 ['a', 'b', 'c']] := by
  have h1 := (c8_clear_element_rules "foo").2.2.1 3 4 ['b']
    [DNode.text 1 ['a']] [DNode.text 5 ['c']]
    (by
      intro b hb
      simp at hb
      subst hb
      decide)
  have h2 := (c8_clear_element_rules "foo").2.2.2.1 1 ['a'] 4 ['b'] 5 ['c'] [] []
  rw [h1]
  simpa using h2

/-! ## Counterexamples: claims C2, C3 and C5 as stated -/

/-- C5 counterexample: with leaves `"ab"` and ranges (0,1) and (5,6), two
target offsets (5 and 6) remain unconsumed after the walk, but the second
group receives a single clamped entry rather than one entry per remaining
offset: the remaining offsets after the first are dropped, not resolved. -/
theorem c5_single_clamp_entry :
    findNodeAndOffsetGroups (DNode.elem 0 [] [DNode.text 1 "ab".toList])
        [(0, 1), (5, 6)]
      = [[⟨1, 0⟩, ⟨1, 1⟩], [⟨1, 2⟩]] ∧
    (findNodeAndOffsetGroups (DNode.elem 0 [] [DNode.text 1 "ab".toList])
        [(0, 1), (5, 6)]).getLast?.map List.length = some 1 := by
  exact ⟨by decide, by decide⟩


/-! ## Claim C7 -/

/-- C7: the multi-node span path of `applyToRanges` (`processMulti`): a tail
boundary pair whose local offset is exactly 0 is skipped — that node keeps
its payload and its parent's identity and class list are unchanged; a
strictly-interior node whose entire payload is the line-break sentinel
`"\n"` is likewise skipped (never wrapped); every other strictly-interior
text node that has a parent is wrapped as a whole node, so that after the
call its parent element carries the style class (the nodes being processed
from last to first per the translated definitions). -/
theorem c7_multi_node_path (cls : String) (t : DNode) (fresh : Nat)
    (g : List NAO) (tl : NAO)
    (hnd : (idsOf t).Nodup) (hbd : ∀ x ∈ idsOf t, x < fresh)
    (hg2 : 2 ≤ g.length) (hgnd : (g.map NAO.node).Nodup)
    (htl : g.getLast? = some tl) :
    (tl.offset = 0 → ∀ qv : List Char,
       getById t tl.node = some (.text tl.node qv) →
       getById (processMulti cls t fresh g).1 tl.node
         = some (.text tl.node qv) ∧
       parentSig (parentOf (processMulti cls t fresh g).1 tl.node)
         = parentSig (parentOf t tl.node)) ∧
    (∀ m ∈ (g.drop 1).dropLast,
       getById t m.node = some (.text m.node ['\n']) →
       getById (processMulti cls t fresh g).1 m.node
         = some (.text m.node ['\n']) ∧
       parentSig (parentOf (processMulti cls t fresh g).1 m.node)
         = parentSig (parentOf t m.node)) ∧
    (∀ m ∈ (g.drop 1).dropLast, ∀ mv : List Char,
       getById t m.node = some (.text m.node mv) → mv ≠ ['\n'] →
       (parentOf t m.node).isSome = true →
       ∃ pid2 pk2,
         parentSig (parentOf (processMulti cls t fresh g).1 m.node)
           = some (pid2, pk2) ∧ cls ∈ pk2) := by
  rcases g with _ | ⟨a, g1⟩
  · simp at hg2
  rcases g1 with _ | ⟨b, rest⟩
  · simp at hg2
  have htl2 : (b :: rest).getLast? = some tl := by
    rw [List.getLast?_cons_cons] at htl
    exact htl
  have htlmem : tl ∈ b :: rest := List.mem_of_getLast?_eq_some htl2
  have hgnd2 := hgnd
  rw [List.map_cons] at hgnd2
  have hanotin : NAO.node a ∉ (b :: rest).map NAO.node :=
    (List.nodup_cons.mp hgnd2).1
  have hbrnd : ((b :: rest).map NAO.node).Nodup :=
    (List.nodup_cons.mp hgnd2).2
  have hsplit : (b :: rest).dropLast ++ [tl] = b :: rest :=
    List.dropLast_append_getLast? tl (Option.mem_def.mpr htl2)
  have h0 : (b :: rest).map NAO.node
      = ((b :: rest).dropLast.map NAO.node) ++ [tl.node] := by
    conv_lhs => rw [← hsplit]
    rw [List.map_append, List.map_cons, List.map_nil]
  have hnd3 : (((b :: rest).dropLast.map NAO.node) ++ [tl.node]).Nodup :=
    h0 ▸ hbrnd
  have htlnotmid : tl.node ∉ (b :: rest).dropLast.map NAO.node := by
    intro hmem
    exact (List.nodup_append.mp hnd3).2.2 hmem (by simp)
  have hmidtl : ∀ m2 ∈ (b :: rest).dropLast, m2.node ≠ tl.node := by
    intro m2 hm2 heq
    exact htlnotmid (heq ▸ List.mem_map.mpr ⟨m2, hm2, rfl⟩)
  have hmida : ∀ m2 ∈ (b :: rest).dropLast, m2.node ≠ a.node := by
    intro m2 hm2 heq
    exact hanotin (heq ▸ List.mem_map.mpr
      ⟨m2, (List.dropLast_sublist (b :: rest)).subset hm2, rfl⟩)
  have hmidnd : ((b :: rest).dropLast.map NAO.node).Nodup :=
    List.Nodup.sublist ((List.dropLast_sublist (b :: rest)).map NAO.node) hbrnd
  have htlna : tl.node ∈ (b :: rest).map NAO.node :=
    List.mem_map.mpr ⟨tl, htlmem, rfl⟩
  have hhda : a.node ≠ tl.node := fun heq => hanotin (heq ▸ htlna)
  refine ⟨?_, ?_, ?_⟩
  · intro h0off qv hget
    have hqf : tl.node < fresh :=
      hbd tl.node (getById_mem_ids t tl.node _ hget)
    obtain ⟨P1, P2, P3⟩ := processMulti_pres cls t fresh (a :: b :: rest)
      tl.node hnd hbd hqf
      (fun m2 hm2 => hmidtl m2 hm2)
      (by
        intro hd hh
        have hha : a = hd := by
          simp only [List.head?_cons, Option.some.injEq] at hh
          exact hh
        rw [← hha]
        exact hhda)
      (by
        intro tl2 h2 heq
        have h3 : tl2 = tl := by
          rw [htl] at h2
          injection h2 with h4
          exact h4.symm
        rw [h3]
        exact h0off)
    exact ⟨P1 qv hget, P2⟩
  · intro m hm hget
    have hmB : m ∈ (b :: rest).dropLast := hm
    have hqf : m.node < fresh :=
      hbd m.node (getById_mem_ids t m.node _ hget)
    obtain ⟨N1, N2, N3⟩ := processMulti_nl cls t fresh (a :: b :: rest)
      m.node hnd hbd hqf hget
      (by
        intro hd hh
        have hha : a = hd := by
          simp only [List.head?_cons, Option.some.injEq] at hh
          exact hh
        rw [← hha]
        exact fun heq => (hmida m hmB) heq.symm)
      (by
        intro tl2 h2 heq
        have h3 : tl2 = tl := by
          rw [htl] at h2
          injection h2 with h4
          exact h4.symm
        rw [h3] at heq
        exact absurd heq.symm (hmidtl m hmB))
    exact ⟨N1, N2⟩
  · intro m hm mv hget hmv hpsome
    have hmB : m ∈ (b :: rest).dropLast := hm
    have hqf : m.node < fresh :=
      hbd m.node (getById_mem_ids t m.node _ hget)
    exact processMulti_style cls t fresh (a :: b :: rest) m.node m hnd hbd hqf
      hmidnd hmB rfl mv hget hmv hpsome
      (by
        intro hd hh
        have hha : a = hd := by
          simp only [List.head?_cons, Option.some.injEq] at hh
          exact hh
        rw [← hha]
        exact fun heq => (hmida m hmB) heq.symm)
      (by
        intro tl2 h2
        have h3 : tl2 = tl := by
          rw [htl] at h2
          injection h2 with h4
          exact h4.symm
        rw [h3]
        exact fun heq => (hmidtl m hmB) heq.symm)

/-- C7 witness: on the four-leaf tree `xy | "\n" | cd | ef` with one group
spanning all four leaves (tail offset 0), the tail leaf 4 is untouched, the
interior line-break leaf 2 is untouched, and the interior leaf 3 ends up
under a parent carrying the style class. -/
theorem c7_multi_node_path_witness :
    getById (processMulti "foo"
        (DNode.elem 0 [] [DNode.text 1 ['x', 'y'], DNode.text 2 ['\n'],
          DNode.text 3 ['c', 'd'], DNode.text 4 ['e', 'f']]) 5
        ([⟨1, 1⟩, ⟨2, 0⟩, ⟨3, 0⟩, ⟨4, 0⟩] : List NAO)).1 4
      = some (.text 4 ['e', 'f']) ∧
    getById (processMulti "foo"
        (DNode.elem 0 [] [DNode.text 1 ['x', 'y'], DNode.text 2 ['\n'],
          DNode.text 3 ['c', 'd'], DNode.text 4 ['e', 'f']]) 5
        ([⟨1, 1⟩, ⟨2, 0⟩, ⟨3, 0⟩, ⟨4, 0⟩] : List NAO)).1 2
      = some (.text 2 ['\n']) ∧
    ∃ pid2 pk2,
      parentSig (parentOf (processMulti "foo"
          (DNode.elem 0 [] [DNode.text 1 ['x', 'y'], DNode.text 2 ['\n'],
            DNode.text 3 ['c', 'd'], DNode.text 4 ['e', 'f']]) 5
          ([⟨1, 1⟩, ⟨2, 0⟩, ⟨3, 0⟩, ⟨4, 0⟩] : List NAO)).1 3)
        = some (pid2, pk2) ∧ "foo" ∈ pk2 := by
  have h := c7_multi_node_path "foo"
    (DNode.elem 0 [] [DNode.text 1 ['x', 'y'], DNode.text 2 ['\n'],
      DNode.text 3 ['c', 'd'], DNode.text 4 ['e', 'f']]) 5
    ([⟨1, 1⟩, ⟨2, 0⟩, ⟨3, 0⟩, ⟨4, 0⟩] : List NAO) ⟨4, 0⟩
    (by decide) (by decide) (by decide) (by decide) rfl
  refine ⟨(h.1 rfl ['e', 'f'] rfl).1, (h.2.1 ⟨2, 0⟩ (by decide) rfl).1,
    h.2.2 ⟨3, 0⟩ (by decide) ['c', 'd'] rfl (by decide) rfl⟩



/-! ## Claim C2 -/

end TextStylization
